import Mathlib

/-!
# Verification development for the BLUB image codec (ArtificialLegacy/image-format)

Shallow embedding of `data.go`, `encode.go` and `decode.go`.

Conventions of the embedding:

* a byte (`uint8`, `byte`) is a `Nat`; conversions to a fixed width are written
  with an explicit `% 2 ^ w`;
* a Go slice is a `List`; an indexing expression that is out of range makes the
  Go program abort with a runtime error, which is the value `none` of the Option
  in which the function returns;
* an error value returned by the Go function is the `error` case of `Except`
  (or the `err` field of the result);
* an `io.Reader` is the byte sequence of its stream together with the outcome of
  its first call of `Read` (how many bytes it delivers at most, and whether it
  returns an error), the call `DecodeConfig` makes; `Reader.ofBytes` is the reader
  over bytes in memory, whose `Read` fills the buffer when enough bytes are left;
* the libraries the codec calls are not part of the repository: the
  compressing stream (`compress/zlib`) and the hue conversion
  (`colorconv`) are parameters of the functions that use them.
-/

namespace ImageFormat

/-! ## data.go -/

/-- Size of the fixed header in bytes. -/
def header_size : Nat := 32

/-- The magic tag `(uint32(B) << 24) | (uint32(L) << 16) | (uint32(U) << 8) | uint32(B)`. -/
def format_tag : Nat := (66 <<< 24) ||| (76 <<< 16) ||| (85 <<< 8) ||| 66

/-- Flag bit 7: the alpha mask is run-length encoded. -/
def flag_compress_alpha : Nat := 0b10000000

/-- Flag bit 6: transparent pixels carry no luma byte. -/
def flag_exclude_masked_pixels : Nat := 0b01000000

/-! ## encode.go: data model -/

/-- The struct `ImageOptions`; `HueShift` and `AlphaThreshold` are `uint8`. -/
structure ImageOptions where
  HueShift : Nat
  AlphaThreshold : Nat
  UseAlphaMask : Bool
  CompressAlphaMask : Bool
  UniformHue : Bool
  ExcludeMaskedPixels : Bool
deriving DecidableEq, Repr

/-- The value `color.RGBA`: four 8-bit channels. -/
structure RGBA where
  R : Nat
  G : Nat
  B : Nat
  A : Nat
deriving DecidableEq, Repr

/-- The interface `image.Image` as the encoder uses it: the bounds (`Min`, `Dx()`, `Dy()`)
and the accessor `At(x, y)`, here already converted by `color.RGBAModel`. -/
structure Raster where
  MinX : Int
  MinY : Int
  Dx : Nat
  Dy : Nat
  At : Int → Int → RGBA

/-- The struct `imageformat`: image data before processing is applied. -/
structure imageformat where
  AlphaMask : List Bool
  PixelData : List Nat
  Opaque : Bool
deriving DecidableEq, Repr

def rweight : Nat := 299
def gweight : Nat := 587
def bweight : Nat := 114

/-- The function `colorToGray`. The colour is the result of `color.RGBAModel.Convert`,
whose dynamic type is always `color.RGBA`, so the `!ok` branch is never taken.
`math.Round(float64(s) / 1000)` rounds half away from zero; for the non-negative
integer `s` it is `(s + 500) / 1000`. The `uint8` conversion is the `% 256`. -/
def colorToGray (c : RGBA) (threshold : Nat) : Nat × Bool :=
  let r := c.R * rweight
  let g := c.G * gweight
  let b := c.B * bweight
  let y := ((r + g + b + 500) / (rweight + gweight + bweight)) % 256
  (y, decide (c.A > threshold))

/-- Body of the inner loop of `formatImage` at row offset `y` and column offset `x`
(both counted from `Bounds().Min`). The slices are allocated with `size` elements and
`index` counts the stores made so far, so the store at `index` is an append. -/
def formatPixel (img : Raster) (opts : ImageOptions) (y x : Nat) (f : imageformat) :
    imageformat :=
  let ya := colorToGray (img.At (img.MinX + x) (img.MinY + y)) opts.AlphaThreshold
  { AlphaMask := f.AlphaMask ++ [ya.2]
    PixelData := f.PixelData ++ [ya.1]
    Opaque := if f.Opaque && !ya.2 then false else f.Opaque }

/-- The function `formatImage`: rows outer, columns inner, both ascending. -/
def formatImage (img : Raster) (opts : ImageOptions) : imageformat :=
  (List.range img.Dy).foldl
    (fun f y => (List.range img.Dx).foldl (fun f x => formatPixel img opts y x f) f)
    { AlphaMask := [], PixelData := [], Opaque := true }

/-- The function `buildFlags`. -/
def buildFlags (opts : ImageOptions) : Nat :=
  let flags := 0
  let flags := if opts.CompressAlphaMask then flags ||| flag_compress_alpha else flags
  let flags := if opts.ExcludeMaskedPixels then flags ||| flag_exclude_masked_pixels else flags
  flags

/-! ## encode.go: processImageFormat -/

/-- Indexed store `buf[i] = v`; out of range aborts. -/
def store (buf : List Nat) (i : Nat) (v : Nat) : Option (List Nat) :=
  if i < buf.length then some (buf.set i v) else none

/-- Local variables of `processImageFormat`. -/
structure EncState where
  alpha : List Nat
  pix : List Nat
  alphaIndex : Nat
  alphaMod : Nat
  alphaByte : Nat
  currentAlpha : Bool
  alphaLength : Nat
  pixelIndex : Nat
deriving DecidableEq, Repr

/-- The run record `ab := byte(alphaLength); if currentAlpha then ab |= 1 << 7`. -/
def runRecord (alphaLength : Nat) (currentAlpha : Bool) : Nat :=
  let ab := alphaLength % 256
  if currentAlpha then ab ||| (1 <<< 7) else ab

/-- The statement `alpha[alphaIndex] = ab; alphaIndex++` with the record of the current run. -/
def flushRun (s : EncState) : Option EncState :=
  (store s.alpha s.alphaIndex (runRecord s.alphaLength s.currentAlpha)).map
    (fun a => { s with alpha := a, alphaIndex := s.alphaIndex + 1 })

/-- The pixel part of the loop body: `if !uniform && (!exclude || av)`. -/
def stepPixel (opts : ImageOptions) (s : EncState) (p : Nat) (av : Bool) : Option EncState :=
  if !opts.UniformHue && (!opts.ExcludeMaskedPixels || av) then
    (store s.pix s.pixelIndex p).map
      (fun px => { s with pix := px, pixelIndex := s.pixelIndex + 1 })
  else some s

/-- The branch `!compress` of the loop body: per bit alpha flags. -/
def stepBitmask (s : EncState) (av : Bool) : Option EncState :=
  let alphaByte := if av then (s.alphaByte ||| (0b10000000 >>> s.alphaMod)) % 256 else s.alphaByte
  let alphaMod := s.alphaMod + 1
  if alphaMod == 8 then
    (store s.alpha s.alphaIndex alphaByte).map
      (fun a => { s with alpha := a, alphaMod := 0, alphaByte := 0,
                         alphaIndex := s.alphaIndex + 1 })
  else some { s with alphaByte := alphaByte, alphaMod := alphaMod }

/-- The branch `compress` of the loop body: run-length encoded alpha flags. -/
def stepRLE (s : EncState) (av : Bool) : Option EncState :=
  if s.alphaLength == 0 then
    some { s with currentAlpha := av, alphaLength := s.alphaLength + 1 }
  else
    let s1 : Option EncState :=
      if s.currentAlpha != av then
        (flushRun s).map (fun t => { t with alphaLength := 1, currentAlpha := av })
      else some { s with alphaLength := s.alphaLength + 1 }
    s1.bind (fun t =>
      if t.alphaLength == 127 then
        (flushRun t).map (fun u => { u with alphaLength := 0 })
      else some t)

/-- One iteration of `for i, p := range f.PixelData` with `av := f.AlphaMask[i]`. -/
def encodeStep (opts : ImageOptions) (s : EncState) (p : Nat) (av : Bool) : Option EncState :=
  (stepPixel opts s p av).bind (fun t =>
    if !opts.CompressAlphaMask then stepBitmask t av else stepRLE t av)

/-- The loop `for i, p := range f.PixelData`; the second list is what remains of
`f.AlphaMask` from index `i` on, so `f.AlphaMask[i]` is out of range when it is empty. -/
def encodeLoop (opts : ImageOptions) : List Nat → List Bool → EncState → Option EncState
  | [], _, s => some s
  | _ :: _, [], _ => none
  | p :: ps, av :: avs, s => (encodeStep opts s p av).bind (encodeLoop opts ps avs)

/-- The statements after the loop: add any buffered alpha values. -/
def encodeFinish (s : EncState) : Option EncState :=
  let s1 : Option EncState :=
    if s.alphaMod > 0 then
      (store s.alpha s.alphaIndex s.alphaByte).map
        (fun a => { s with alpha := a, alphaIndex := s.alphaIndex + 1 })
    else some s
  s1.bind (fun t => if t.alphaLength > 0 then flushRun t else some t)

/-- The function `processImageFormat`; the result is `(pix, alpha)` as in the source. -/
def processImageFormat (f : imageformat) (opts : ImageOptions) :
    Option (List Nat × List Nat) :=
  if f.Opaque then some (f.PixelData, [])
  else
    let s0 : EncState :=
      { alpha := List.replicate ((f.AlphaMask.length + 7) / 8) 0
        pix := List.replicate f.PixelData.length 0
        alphaIndex := 0, alphaMod := 0, alphaByte := 0
        currentAlpha := false, alphaLength := 0, pixelIndex := 0 }
    ((encodeLoop opts f.PixelData f.AlphaMask s0).bind encodeFinish).map
      (fun s => (s.pix.take s.pixelIndex, s.alpha.take s.alphaIndex))

/-! ## External collaborators -/

/-- The compressing stream of `compress/zlib`, which is not part of the repository.
`stream data` is everything the writer created by `zlib.NewWriter(w)` has emitted into `w`
once it is closed, when `data` is what was written to it. `reader rest` is the stream
`zlib.NewReader` opens on the bytes that follow the header: `none` when it reports an
error, otherwise the uncompressed bytes it delivers. -/
structure Zlib where
  stream : List Nat → List Nat
  reader : List Nat → Option (List Nat)

/-- A compressing stream that stores its data unchanged and adds no framing. -/
def Zlib.identity : Zlib :=
  { stream := fun data => data, reader := fun rest => some rest }

/-- The conversion `RGBToHSV` followed by `HSVToRGB(hue, 1, v)` of the library `colorconv`,
as a function of the hue shift byte and the gray value. Only used when the hue is not 0. -/
abbrev HueTransform := Nat → Nat → Nat × Nat × Nat

/-! ## encode.go: Encode -/

/-- The call `binary.BigEndian.PutUint32`. -/
def putUint32BE (v : Nat) : List Nat :=
  [v / 2 ^ 24 % 256, v / 2 ^ 16 % 256, v / 2 ^ 8 % 256, v % 256]

/-- The call `binary.LittleEndian.PutUint16`. -/
def putUint16LE (v : Nat) : List Nat :=
  [v % 256, v / 2 ^ 8 % 256]

/-- The call `binary.LittleEndian.PutUint32`. -/
def putUint32LE (v : Nat) : List Nat :=
  [v % 256, v / 2 ^ 8 % 256, v / 2 ^ 16 % 256, v / 2 ^ 24 % 256]

/-- Writing the bytes `bs` into the slice `buf[off : off + len(bs)]`. -/
def put (buf : List Nat) (off : Nat) (bs : List Nat) : List Nat :=
  buf.take off ++ bs ++ buf.drop (off + bs.length)

/-- The header buffer of `Encode` after all its stores, as a function of the values it is
filled from: the bounds, the options, `imgf.Opaque`, `len(alphad)` and `len(pixd)`. -/
def buildHeader (imgwidth imgheight : Nat) (opts : ImageOptions) (isOpaque : Bool)
    (alphaLen pixLen : Nat) : List Nat :=
  let header := List.replicate header_size 0
  let header := put header 0 (putUint32BE format_tag)
  let header := put header 4 (putUint16LE (imgwidth % 2 ^ 16))
  let header := put header 6 (putUint16LE (imgheight % 2 ^ 16))
  let header := put header 16 [opts.HueShift]
  let header := put header 17 [buildFlags opts]
  let header := if !isOpaque then put header 8 (putUint32LE (alphaLen % 2 ^ 32)) else header
  let header := if !opts.UniformHue then put header 12 (putUint32LE (pixLen % 2 ^ 32)) else header
  header

/-- The errors `Encode` returns. The writer `w` is an in-memory sink that accepts every
byte, so the write errors do not occur and only the size error remains. -/
inductive EncodeError where
  | imageTooLarge (imgwidth imgheight : Nat)
deriving DecidableEq, Repr

/-- What a call of `Encode` leaves behind: `written` is the content of the caller's
stream `w` when `Encode` has returned (the deferred `zw.Close()` has run), `payload` is
what was handed to the compressing stream `zw`, `err` is the returned error. -/
structure EncodeResult where
  written : List Nat
  payload : List Nat
  err : Option EncodeError
deriving DecidableEq, Repr

/-- The function `Encode`. The compressing stream is created, and its `Close` deferred,
in the first two statements, so it is closed on every return path: by then it has emitted
`Z.stream payload` into `w`, after whatever `Encode` wrote to `w` itself. -/
def Encode (Z : Zlib) (img : Raster) (opts : ImageOptions) : Option EncodeResult :=
  let imgwidth := img.Dx
  let imgheight := img.Dy
  if imgwidth > 65535 || imgheight > 65535 then
    some { written := Z.stream [], payload := [],
           err := some (EncodeError.imageTooLarge imgwidth imgheight) }
  else
    let imgf := formatImage img opts
    match processImageFormat imgf opts with
    | none => none
    | some (pixd, alphad) =>
      let header := buildHeader imgwidth imgheight opts imgf.Opaque alphad.length pixd.length
      let payload := []
      let payload := if opts.UseAlphaMask then payload ++ alphad else payload
      let payload := if !opts.UniformHue then payload ++ pixd else payload
      some { written := header ++ Z.stream payload, payload := payload, err := none }

/-! ## decode.go -/

/-- The struct `ImageConfig`. -/
structure ImageConfig where
  Options : ImageOptions
  Width : Nat
  Height : Nat
  alphaLength : Nat
  pixelLength : Nat
deriving DecidableEq, Repr

/-- The errors of `DecodeConfig` and `Decode`, one for each `fmt.Errorf`. -/
inductive DecodeError where
  | readHeader
  | headerSize
  | invalidFormatTag (tag : Nat)
  | zlibReader
  | readAlphaMask
  | readPixelData
deriving DecidableEq, Repr

/-- The byte `header[i]`. -/
def byteAt (header : List Nat) (i : Nat) : Nat := header.getD i 0

/-- The call `binary.BigEndian.Uint32(header[off : off + 4])`. -/
def uint32BE (header : List Nat) (off : Nat) : Nat :=
  byteAt header off * 2 ^ 24 + byteAt header (off + 1) * 2 ^ 16
    + byteAt header (off + 2) * 2 ^ 8 + byteAt header (off + 3)

/-- The call `binary.LittleEndian.Uint16(header[off : off + 2])`. -/
def uint16LE (header : List Nat) (off : Nat) : Nat :=
  byteAt header off + byteAt header (off + 1) * 2 ^ 8

/-- The call `binary.LittleEndian.Uint32(header[off : off + 4])`. -/
def uint32LE (header : List Nat) (off : Nat) : Nat :=
  byteAt header off + byteAt header (off + 1) * 2 ^ 8
    + byteAt header (off + 2) * 2 ^ 16 + byteAt header (off + 3) * 2 ^ 24

/-- A value of `io.Reader` as `DecodeConfig` and `Decode` meet it: `data` is the byte
sequence of the stream, and the two other fields give the outcome of the first call of
`Read`, the only one `DecodeConfig` makes. The contract of `io.Reader` lets a call deliver
fewer bytes than the buffer holds although more will come (a short read), and lets it
return a non-nil error together with the bytes it delivers: the first call delivers at most
`firstRead` bytes, and `firstErr` tells whether its error is non-nil. The later reads of
`Decode` go through `io.ReadFull`, which calls `Read` until the buffer is full. -/
structure Reader where
  data : List Nat
  firstRead : Nat
  firstErr : Bool
deriving DecidableEq, Repr

/-- The first call `r.Read(p)` with a buffer `p` of `k` bytes: the bytes stored in
`p[0 : n]`, and whether `err != nil`. -/
def Reader.Read (r : Reader) (k : Nat) : List Nat × Bool :=
  (r.data.take (min k r.firstRead), r.firstErr)

/-- The reader `bytes.NewReader(data)` over a byte sequence in memory (a file behaves the
same): `Read` delivers as many bytes as the buffer holds or as are left, with a nil error,
and 0 bytes with `io.EOF` when none is left. -/
def Reader.ofBytes (data : List Nat) : Reader :=
  { data := data, firstRead := data.length, firstErr := data.isEmpty }

/-- The function `DecodeConfig`. The header buffer is allocated with `header_size` zero
bytes, the one call `r.Read(header)` stores `n` bytes in it, and the code goes on only when
the error is nil and `n` is `header_size`. -/
def DecodeConfig (r : Reader) : Except DecodeError ImageConfig :=
  let rd := r.Read header_size
  let n := rd.1.length
  let header := rd.1 ++ List.replicate (header_size - n) 0
  if rd.2 then Except.error DecodeError.readHeader
  else if n != header_size then Except.error DecodeError.headerSize
  else
    let tag := uint32BE header 0
    if tag != format_tag then Except.error (DecodeError.invalidFormatTag tag)
    else
      let width := uint16LE header 4
      let height := uint16LE header 6
      let alphaLength := uint32LE header 8
      let pixelLength := uint32LE header 12
      let hueShift := byteAt header 16
      let flags := byteAt header 17
      Except.ok
        { Options :=
            { HueShift := hueShift
              AlphaThreshold := 0
              UseAlphaMask := decide (alphaLength > 0)
              CompressAlphaMask := (flags &&& flag_compress_alpha) != 0
              UniformHue := pixelLength == 0
              ExcludeMaskedPixels := (flags &&& flag_exclude_masked_pixels) != 0 }
          Width := width
          Height := height
          alphaLength := alphaLength
          pixelLength := pixelLength }

/-- The raster `image.RGBA` that `decodeImageData` fills: `Pix` holds the pixels in
row-major order, pixel `(x, y)` at index `y * Width + x`. -/
structure RGBAImage where
  Width : Nat
  Height : Nat
  Pix : List RGBA
deriving DecidableEq, Repr

/-- The pixel `(x, y)` of a decoded raster. -/
def RGBAImage.pixel (img : RGBAImage) (x y : Nat) : Option RGBA :=
  if x < img.Width ∧ y < img.Height then img.Pix[y * img.Width + x]? else none

/-- Local variables of `decodeImageData`, with the pixels set so far. The loops visit the
pixels in row-major order and set each once, so `SetRGBA(x, y, c)` is an append to `Pix`. -/
structure DecState where
  alphaBuffered : Bool
  alphaBufferCount : Nat
  alphaIndex : Nat
  alphaMod : Nat
  pixIndex : Nat
  Pix : List RGBA
deriving DecidableEq, Repr

/-- The mask part of the loop body: the next opacity value `av` and the updated state. -/
def decodeAlpha (conf : ImageConfig) (alpha : List Nat) (s : DecState) :
    Option (Bool × DecState) :=
  if !conf.Options.CompressAlphaMask then
    match alpha[s.alphaIndex]? with
    | none => none
    | some b =>
      let av := ((b >>> (7 - s.alphaMod)) &&& 1) == 1
      let alphaMod := s.alphaMod + 1
      if alphaMod == 8 then
        some (av, { s with alphaMod := 0, alphaIndex := s.alphaIndex + 1 })
      else some (av, { s with alphaMod := alphaMod })
  else
    let s1 : Option DecState :=
      if s.alphaBufferCount == 0 then
        match alpha[s.alphaIndex]? with
        | none => none
        | some ar =>
          some { s with alphaIndex := s.alphaIndex + 1
                        alphaBuffered := (ar &&& 0b10000000) != 0
                        alphaBufferCount := ar &&& 0b01111111 }
      else some s
    s1.map (fun t =>
      (t.alphaBuffered, { t with alphaBufferCount := (t.alphaBufferCount + 255) % 256 }))

/-- The body of the inner loop of `decodeImageData`. -/
def decodePixel (hsv : HueTransform) (conf : ImageConfig) (pix alpha : List Nat)
    (s : DecState) : Option DecState :=
  (decodeAlpha conf alpha s).bind (fun avs =>
    let av := avs.1
    let t := avs.2
    let g : Option (Nat × DecState) :=
      if !conf.Options.UniformHue && (!conf.Options.ExcludeMaskedPixels || av) then
        (pix[t.pixIndex]?).map (fun gray => (gray, { t with pixIndex := t.pixIndex + 1 }))
      else some (0xFF, t)
    g.map (fun gu =>
      let gray := gu.1
      let u := gu.2
      let a := if !av then 0 else 0xFF
      let rgb : Nat × Nat × Nat :=
        if conf.Options.HueShift != 0 then hsv conf.Options.HueShift gray
        else (gray, gray, gray)
      { u with Pix := u.Pix ++ [{ R := rgb.1, G := rgb.2.1, B := rgb.2.2, A := a }] }))

/-- A `for` loop running `n` times a body that may abort. -/
def loopN {σ : Type} (body : σ → Option σ) : Nat → σ → Option σ
  | 0, s => some s
  | n + 1, s => (body s).bind (loopN body n)

/-- The function `decodeImageData`: `Height` rows of `Width` pixels. -/
def decodeImageData (hsv : HueTransform) (conf : ImageConfig) (pix alpha : List Nat) :
    Option RGBAImage :=
  let s0 : DecState :=
    { alphaBuffered := false, alphaBufferCount := 0
      alphaIndex := 0, alphaMod := 0, pixIndex := 0, Pix := [] }
  (loopN (loopN (decodePixel hsv conf pix alpha) conf.Width) conf.Height s0).map
    (fun s => { Width := conf.Width, Height := conf.Height, Pix := s.Pix })

/-- The call `io.ReadFull(zr, buf)` for a buffer of `n` bytes on the remaining data:
the bytes read and the data left, or `none` on a short read. -/
def readFull (data : List Nat) (n : Nat) : Option (List Nat × List Nat) :=
  if n ≤ data.length then some (data.take n, data.drop n) else none

/-- The function `Decode`. When `DecodeConfig` succeeds it has consumed `header_size`
bytes, and `zlib.NewReader(r)` reads what follows them. The outer Option is `none` when the
call aborts with a runtime error. -/
def Decode (Z : Zlib) (hsv : HueTransform) (r : Reader) :
    Option (Except DecodeError RGBAImage) :=
  match DecodeConfig r with
  | Except.error e => some (Except.error e)
  | Except.ok conf =>
    match Z.reader (r.data.drop header_size) with
    | none => some (Except.error DecodeError.zlibReader)
    | some data =>
      let alphaMask := List.replicate conf.alphaLength 0
      let pixelData := List.replicate conf.pixelLength 0
      let ra : Option (List Nat × List Nat) :=
        if conf.Options.UseAlphaMask then readFull data conf.alphaLength
        else some (alphaMask, data)
      match ra with
      | none => some (Except.error DecodeError.readAlphaMask)
      | some (alphaMask, data) =>
        let rp : Option (List Nat × List Nat) :=
          if !conf.Options.UniformHue then readFull data conf.pixelLength
          else some (pixelData, data)
        match rp with
        | none => some (Except.error DecodeError.readPixelData)
        | some (pixelData, _) =>
          (decodeImageData hsv conf pixelData alphaMask).map Except.ok


/-! ## Values named in the statements -/

/-- The value of the header field `alphaLength` after `Encode` has filled the header:
`uint32(len(alphad))` when the image is not opaque, and the initial 0 otherwise. -/
def headerAlphaLength (isOpaque : Bool) (alphaLen : Nat) : Nat :=
  if isOpaque then 0 else alphaLen % 2 ^ 32

/-- The value of the header field `pixelLength` after `Encode` has filled the header:
`uint32(len(pixd))` unless `UniformHue` is set, and the initial 0 otherwise. -/
def headerPixelLength (opts : ImageOptions) (pixLen : Nat) : Nat :=
  if opts.UniformHue then 0 else pixLen % 2 ^ 32

/-- The call `colorToGray(img.At(x, y), opts.AlphaThreshold)` of `formatImage` at row
offset `y` and column offset `x`. -/
def grayAt (img : Raster) (opts : ImageOptions) (y x : Nat) : Nat × Bool :=
  colorToGray (img.At (img.MinX + x) (img.MinY + y)) opts.AlphaThreshold

/-- The luma and opacity of the pixels of a raster in row-major order. -/
def grayPixels (img : Raster) (opts : ImageOptions) : List (Nat × Bool) :=
  (List.range img.Dy).flatMap (fun y => (List.range img.Dx).map (fun x => grayAt img opts y x))

/-- Two states of the encoder have buffers of the same sizes: the steps of the encoder keep the sizes of the two buffers. -/
def SameBuffers (s t : EncState) : Prop :=
  t.alpha.length = s.alpha.length ∧ t.pix.length = s.pix.length

/-- A 2 x 1 raster: an opaque pixel followed by a transparent one. -/
def twoPixelRaster : Raster :=
  { MinX := 0, MinY := 0, Dx := 2, Dy := 1
    At := fun x _ => if x = 0 then { R := 10, G := 20, B := 30, A := 255 }
                     else { R := 200, G := 100, B := 50, A := 0 } }

/-- A 1500 x 1500 raster of opaque white pixels, the size of the image of the tests. -/
def testSizeRaster : Raster :=
  { MinX := 0, MinY := 0, Dx := 1500, Dy := 1500
    At := fun _ _ => { R := 255, G := 255, B := 255, A := 255 } }

/-- The options of `TestEncode`. -/
def testOptions : ImageOptions :=
  { HueShift := 135, AlphaThreshold := 0, UseAlphaMask := true, CompressAlphaMask := true
    UniformHue := true, ExcludeMaskedPixels := true }

/-- Options with the bitmask encoding of the alpha mask. -/
def bitmaskOptions : ImageOptions :=
  { HueShift := 0, AlphaThreshold := 0, UseAlphaMask := true, CompressAlphaMask := false
    UniformHue := false, ExcludeMaskedPixels := true }

/-- A 1 x 1 raster holding one opaque pixel. -/
def opaquePixelRaster : Raster :=
  { MinX := 0, MinY := 0, Dx := 1, Dy := 1
    At := fun _ _ => { R := 10, G := 20, B := 30, A := 255 } }

/-- A well-formed header followed by nothing. -/
def emptyImageBytes : List Nat :=
  [66, 76, 85, 66, 0, 0, 0, 0, 0, 0, 0, 0, 0, 0, 0, 0, 0, 0,
   0, 0, 0, 0, 0, 0, 0, 0, 0, 0, 0, 0, 0, 0]

/-- Options with every flag off, hue 0 and threshold 0, except the three given flags. -/
def grayOptions (useAlphaMask compress exclude : Bool) : ImageOptions :=
  { HueShift := 0, AlphaThreshold := 0, UseAlphaMask := useAlphaMask
    CompressAlphaMask := compress, UniformHue := false, ExcludeMaskedPixels := exclude }

/-- A 1 x 1 raster holding one fully transparent pixel. -/
def transparentPixelRaster : Raster :=
  { MinX := 0, MinY := 0, Dx := 1, Dy := 1
    At := fun _ _ => { R := 10, G := 20, B := 30, A := 0 } }

/-- A raster one pixel wider than the limit. -/
def wideRaster : Raster :=
  { MinX := 0, MinY := 0, Dx := 65536, Dy := 1
    At := fun _ _ => { R := 0, G := 0, B := 0, A := 255 } }

/-- The stream `Encode` writes for `opaquePixelRaster` with every flag off and the
compressing stream the identity: a 1 x 1 image, no alpha mask, one luma byte. -/
def opaquePixelBytes : List Nat :=
  [66, 76, 85, 66, 1, 0, 1, 0, 0, 0, 0, 0, 1, 0, 0, 0, 0, 0,
   0, 0, 0, 0, 0, 0, 0, 0, 0, 0, 0, 0, 0, 0, 18]

/-- A stream whose header declares a 9 x 1 image with a bitmask of 1 byte and 9 luma
bytes, followed by these 10 bytes. -/
def shortMaskBytes : List Nat :=
  [66, 76, 85, 66, 9, 0, 1, 0, 1, 0, 0, 0, 9, 0, 0, 0, 0, 0,
   0, 0, 0, 0, 0, 0, 0, 0, 0, 0, 0, 0, 0, 0,
   255, 1, 2, 3, 4, 5, 6, 7, 8, 9]

/-- A reader over the stream `opaquePixelBytes` whose first `Read` delivers 16 bytes: a
short read, as a network connection or a pipe makes. -/
def shortReadReader : Reader :=
  { data := opaquePixelBytes, firstRead := 16, firstErr := false }

/-- A reader over a bare header whose first `Read` delivers the 32 bytes together with
`io.EOF`, as `io.Reader` allows at the end of the stream. -/
def eofReadReader : Reader :=
  { data := emptyImageBytes, firstRead := 32, firstErr := true }

/-- A 3 x 1 raster: a transparent pixel, an opaque one, a transparent one. -/
def stripedRaster : Raster :=
  { MinX := 0, MinY := 0, Dx := 3, Dy := 1
    At := fun x _ => if x = 1 then { R := 10, G := 20, B := 30, A := 255 }
                     else { R := 10, G := 20, B := 30, A := 0 } }

/-- State of the bitmask encoder after `k` of the `n` pixels: the buffers have the sizes
they were allocated with, `alphaIndex` and `alphaMod` count the pixels, and no run is open. -/
def BitmaskInv (n k : Nat) (s : EncState) : Prop :=
  s.alpha.length = (n + 7) / 8 ∧ s.pix.length = n ∧
  s.alphaIndex = k / 8 ∧ s.alphaMod = k % 8 ∧ s.pixelIndex ≤ k ∧ s.alphaLength = 0

/-- The function `math.Round` on the value of a `float64`: the nearest integer, halves
rounded away from zero. -/
def mathRound (x : ℚ) : ℤ :=
  if 0 ≤ x then ⌊x + 1 / 2⌋ else ⌈x - 1 / 2⌉

/-- The function `colorToGray` with its floating-point expression
`uint8(math.Round(float64(r+g+b) / (rweight + gweight + bweight)))` spelled out. The values
of `float64` are rationals; `fl` is the rounding of a real quotient to the nearest `float64`
that the division performs. The conversion of the integer sum to `float64` is exact, and so
is `math.Round`; `uint8` keeps the low 8 bits of the rounded value. -/
def colorToGrayFloat (fl : ℚ → ℚ) (c : RGBA) (threshold : Nat) : Nat × Bool :=
  let r := c.R * rweight
  let g := c.G * gweight
  let b := c.B * bweight
  let q := fl (((r + g + b : Nat) : ℚ) / ((rweight + gweight + bweight : Nat) : ℚ))
  let y := (mathRound q).toNat % 256
  (y, decide (c.A > threshold))

/-- The inclusion rule of the pixel section: `!uniform && (!exclude || av)`. -/
def included (opts : ImageOptions) (av : Bool) : Bool :=
  !opts.UniformHue && (!opts.ExcludeMaskedPixels || av)

/-- The luma bytes of the pixels the inclusion rule keeps, in traversal order. -/
def includedLuma (opts : ImageOptions) : List Nat → List Bool → List Nat
  | p :: ps, av :: avs =>
    if included opts av then p :: includedLuma opts ps avs else includedLuma opts ps avs
  | _, _ => []

/-- The run length of a run record: its bits 0-6, `ar & 0b0111_1111`. -/
def runLength (ar : Nat) : Nat := ar &&& 0b01111111

/-- The opacity of a run record: its bit 7, `(ar & 0b1000_0000) != 0`. -/
def runOpacity (ar : Nat) : Bool := (ar &&& 0b10000000) != 0

/-- The expansion of a sequence of run records: each record repeats its opacity for its
run length. -/
def rleExpand (alpha : List Nat) : List Bool :=
  alpha.flatMap (fun ar => List.replicate (runLength ar) (runOpacity ar))

/-- State of the run-length encoder after the opacity values `done`: the records stored so
far, followed by the open run, expand to `done`; the stored records have run lengths from
1 to 127 and the open run is shorter than 127. -/
def RleInv (done : List Bool) (s : EncState) : Prop :=
  rleExpand (s.alpha.take s.alphaIndex) ++ List.replicate s.alphaLength s.currentAlpha = done ∧
  (∀ b ∈ s.alpha.take s.alphaIndex, 1 ≤ runLength b ∧ runLength b ≤ 127 ∧ b < 256) ∧
  s.alphaLength < 127 ∧ s.alphaMod = 0

/-- Options with the run-length encoding of the alpha mask. -/
def rleOptions : ImageOptions :=
  { HueShift := 0, AlphaThreshold := 0, UseAlphaMask := true, CompressAlphaMask := true
    UniformHue := false, ExcludeMaskedPixels := false }

/-- State of the run-length encoder after `k` of `n` pixels that are all transparent. -/
def TransparentInv (n k : Nat) (s : EncState) : Prop :=
  s.alpha.length = (n + 7) / 8 ∧ s.pix.length = n ∧ s.pixelIndex ≤ k ∧
  s.alphaIndex = k / 127 ∧ s.alphaLength = k % 127 ∧ s.currentAlpha = false ∧
  s.alphaMod = 0 ∧ s.alpha.take s.alphaIndex = List.replicate (k / 127) 127

/-- Bit `7 - (i mod 8)` of byte `i / 8` of an alpha section: the opacity the bitmask
encoding holds for pixel `i`. -/
def bitAt (alpha : List Nat) (i : Nat) : Bool :=
  (alpha.getD (i / 8) 0).testBit (7 - i % 8)

/-- State of the bitmask encoder after the opacity values `done`: the bytes stored so far
hold the bits of the complete groups of 8, the byte under construction holds the bits of the
last, incomplete group, most significant bit first, and its other bits are 0. -/
def BitsInv (done : List Bool) (s : EncState) : Prop :=
  s.alphaIndex = done.length / 8 ∧ s.alphaMod = done.length % 8 ∧
  (∀ i, i < 8 * (done.length / 8) → bitAt s.alpha i = done.getD i false) ∧
  (∀ j, j < done.length / 8 → s.alpha.getD j 0 < 256) ∧
  (∀ m, m < 8 → s.alphaByte.testBit (7 - m) = done.getD (8 * (done.length / 8) + m) false) ∧
  s.alphaByte < 256

/-- The opacity values an alpha section holds, in order: with the bitmask encoding the
bits of its bytes, most significant first; with the run-length encoding the expansion of
its records. -/
def maskStream (conf : ImageConfig) (alpha : List Nat) : List Bool :=
  if !conf.Options.CompressAlphaMask then (List.range (8 * alpha.length)).map (bitAt alpha)
  else rleExpand alpha

/-- The opacity values the decoder has still to deliver in state `s`: with the bitmask
encoding the bits from position `8 * alphaIndex + alphaMod` on; with the run-length
encoding what is left of the current run, then the expansion of the records not yet read. -/
def pendingMask (conf : ImageConfig) (alpha : List Nat) (s : DecState) : List Bool :=
  if !conf.Options.CompressAlphaMask then
    ((List.range (8 * alpha.length)).map (bitAt alpha)).drop (8 * s.alphaIndex + s.alphaMod)
  else
    List.replicate s.alphaBufferCount s.alphaBuffered ++ rleExpand (alpha.drop s.alphaIndex)

/-- Well-formed state of the decoder: with the bitmask encoding `alphaMod` is a bit
position; with the run-length encoding the rest of the current run is at most 127, the
read position is inside the buffer and no record still to read has run length 0. -/
def DecWf (conf : ImageConfig) (alpha : List Nat) (s : DecState) : Prop :=
  if conf.Options.CompressAlphaMask = false then s.alphaMod < 8
  else s.alphaBufferCount ≤ 127 ∧ s.alphaIndex ≤ alpha.length ∧
    ∀ b ∈ alpha.drop s.alphaIndex, 1 ≤ runLength b

/-- The colour the loop body of `decodeImageData` sets for a gray value and an opacity. -/
def decodedPixel (hsv : HueTransform) (conf : ImageConfig) (gray : Nat) (av : Bool) : RGBA :=
  let a := if !av then 0 else 0xFF
  let rgb : Nat × Nat × Nat :=
    if conf.Options.HueShift != 0 then hsv conf.Options.HueShift gray
    else (gray, gray, gray)
  { R := rgb.1, G := rgb.2.1, B := rgb.2.2, A := a }

/-- The gray value of each pixel of an opacity sequence: the next byte of the pixel
section where the inclusion rule holds, 255 elsewhere. -/
def lumaPerPixel (opts : ImageOptions) : List Bool → List Nat → List Nat
  | [], _ => []
  | av :: avs, pix =>
    if included opts av then pix.headD 0 :: lumaPerPixel opts avs pix.tail
    else 0xFF :: lumaPerPixel opts avs pix

/-- The number of pixels of an opacity sequence that the inclusion rule keeps. -/
def includedCount (opts : ImageOptions) (m : List Bool) : Nat :=
  (m.filter (included opts)).length

/-- The initial values of the local variables of `decodeImageData`. -/
def decodeStart : DecState :=
  { alphaBuffered := false, alphaBufferCount := 0
    alphaIndex := 0, alphaMod := 0, pixIndex := 0, Pix := [] }

/-- The two loops of `decodeImageData`, with the values of the local variables after
the last iteration as result. -/
def decodeLoops (hsv : HueTransform) (conf : ImageConfig) (pix alpha : List Nat) :
    Option DecState :=
  loopN (loopN (decodePixel hsv conf pix alpha) conf.Width) conf.Height decodeStart

/-- An alpha section is valid for `n` pixels when it holds at least `n` opacity values
and, with the run-length encoding, none of its records has run length 0. -/
def ValidAlpha (conf : ImageConfig) (alpha : List Nat) (n : Nat) : Prop :=
  n ≤ (maskStream conf alpha).length ∧
  (conf.Options.CompressAlphaMask = true → ∀ b ∈ alpha, 1 ≤ runLength b)

/-- The opacity values of the `Width * Height` pixels of an image, as its alpha section
holds them. -/
def decodedMask (conf : ImageConfig) (alpha : List Nat) : List Bool :=
  (maskStream conf alpha).take (conf.Width * conf.Height)

/-- Configuration of a 3 x 1 image with uniform hue and a bitmask of one byte. -/
def uniformConfig : ImageConfig :=
  { Options := { HueShift := 0, AlphaThreshold := 0, UseAlphaMask := true
                 CompressAlphaMask := false, UniformHue := true
                 ExcludeMaskedPixels := false }
    Width := 3, Height := 1, alphaLength := 1, pixelLength := 0 }

/-- Configuration of a 3 x 1 image with hue 0, a bitmask of one byte and the luma bytes of
the opaque pixels only. -/
def excludeConfig : ImageConfig :=
  { Options := { HueShift := 0, AlphaThreshold := 0, UseAlphaMask := true
                 CompressAlphaMask := false, UniformHue := false
                 ExcludeMaskedPixels := true }
    Width := 3, Height := 1, alphaLength := 1, pixelLength := 2 }

/-- Configuration of a 9 x 1 image with uniform hue and run-length encoded alpha mask. -/
def rleConfig : ImageConfig :=
  { Options := { HueShift := 0, AlphaThreshold := 0, UseAlphaMask := true
                 CompressAlphaMask := true, UniformHue := true
                 ExcludeMaskedPixels := false }
    Width := 9, Height := 1, alphaLength := 2, pixelLength := 0 }

/-! ## Theorems: the header -/

theorem format_tag_eq : format_tag = 1112298818 := by decide

theorem buildHeader_eq (W H : Nat) (o : ImageOptions) (opq : Bool) (al pl : Nat) :
    buildHeader W H o opq al pl =
      [66, 76, 85, 66,
       W % 2 ^ 16 % 256, W % 2 ^ 16 / 2 ^ 8 % 256,
       H % 2 ^ 16 % 256, H % 2 ^ 16 / 2 ^ 8 % 256]
      ++ (if opq then [0, 0, 0, 0] else putUint32LE (al % 2 ^ 32))
      ++ (if o.UniformHue then [0, 0, 0, 0] else putUint32LE (pl % 2 ^ 32))
      ++ [o.HueShift, buildFlags o] ++ List.replicate 14 0 := by
  cases opq <;> cases hU : o.UniformHue <;>
    simp [buildHeader, hU, put, putUint32LE, putUint16LE, putUint32BE, header_size, format_tag_eq, List.replicate]

theorem buildHeader_length (W H : Nat) (o : ImageOptions) (opq : Bool) (al pl : Nat) :
    (buildHeader W H o opq al pl).length = 32 := by
  rw [buildHeader_eq]
  cases opq <;> cases hU : o.UniformHue <;> simp [putUint32LE]

theorem buildFlags_compress (o : ImageOptions) :
    ((buildFlags o &&& flag_compress_alpha) != 0) = o.CompressAlphaMask := by
  cases hc : o.CompressAlphaMask <;> cases he : o.ExcludeMaskedPixels <;>
    simp [buildFlags, hc, he, flag_compress_alpha, flag_exclude_masked_pixels]
  decide

theorem buildFlags_exclude (o : ImageOptions) :
    ((buildFlags o &&& flag_exclude_masked_pixels) != 0) = o.ExcludeMaskedPixels := by
  cases hc : o.CompressAlphaMask <;> cases he : o.ExcludeMaskedPixels <;>
    simp [buildFlags, hc, he, flag_compress_alpha, flag_exclude_masked_pixels]
  decide

theorem byteAt_zero (a : Nat) (l : List Nat) : byteAt (a :: l) 0 = a := rfl

theorem byteAt_succ (a : Nat) (l : List Nat) (n : Nat) :
    byteAt (a :: l) (n + 1) = byteAt l n := rfl

/-- The header as an explicit list of 32 bytes, the two length fields given by their values. -/
theorem buildHeader_bytes (W H : Nat) (o : ImageOptions) (opq : Bool) (al pl : Nat) :
    buildHeader W H o opq al pl =
      [66, 76, 85, 66,
       W % 2 ^ 16 % 256, W % 2 ^ 16 / 2 ^ 8 % 256,
       H % 2 ^ 16 % 256, H % 2 ^ 16 / 2 ^ 8 % 256,
       headerAlphaLength opq al % 256, headerAlphaLength opq al / 2 ^ 8 % 256,
       headerAlphaLength opq al / 2 ^ 16 % 256, headerAlphaLength opq al / 2 ^ 24 % 256,
       headerPixelLength o pl % 256, headerPixelLength o pl / 2 ^ 8 % 256,
       headerPixelLength o pl / 2 ^ 16 % 256, headerPixelLength o pl / 2 ^ 24 % 256,
       o.HueShift, buildFlags o,
       0, 0, 0, 0, 0, 0, 0, 0, 0, 0, 0, 0, 0, 0] := by
  rw [buildHeader_eq]
  cases opq <;> cases hU : o.UniformHue <;>
    simp [headerAlphaLength, headerPixelLength, hU, putUint32LE, List.replicate]

theorem headerAlphaLength_lt (opq : Bool) (al : Nat) : headerAlphaLength opq al < 2 ^ 32 := by
  unfold headerAlphaLength
  split
  · norm_num
  · exact Nat.mod_lt _ (by norm_num)

theorem headerPixelLength_lt (o : ImageOptions) (pl : Nat) : headerPixelLength o pl < 2 ^ 32 := by
  unfold headerPixelLength
  split
  · norm_num
  · exact Nat.mod_lt _ (by norm_num)

/-- On a reader whose first `Read` fills the header buffer without error, `DecodeConfig`
returns the fields of the header at the start of the stream. -/
theorem DecodeConfig_reader_buildHeader (W H : Nat) (o : ImageOptions) (opq : Bool)
    (al pl : Nat) (rest : List Nat) (r : Reader)
    (hd : r.data = buildHeader W H o opq al pl ++ rest)
    (hn : header_size ≤ r.firstRead) (he : r.firstErr = false)
    (hW : W ≤ 65535) (hH : H ≤ 65535) :
    DecodeConfig r = Except.ok
      { Options :=
          { HueShift := o.HueShift
            AlphaThreshold := 0
            UseAlphaMask := decide (headerAlphaLength opq al > 0)
            CompressAlphaMask := o.CompressAlphaMask
            UniformHue := headerPixelLength o pl == 0
            ExcludeMaskedPixels := o.ExcludeMaskedPixels }
        Width := W
        Height := H
        alphaLength := headerAlphaLength opq al
        pixelLength := headerPixelLength o pl } := by
  have hlen := buildHeader_length W H o opq al pl
  have htake : (buildHeader W H o opq al pl ++ rest).take header_size
      = buildHeader W H o opq al pl := List.take_left' hlen
  have hmin : min header_size r.firstRead = header_size := Nat.min_eq_left hn
  have hA := headerAlphaLength_lt opq al
  have hP := headerPixelLength_lt o pl
  have h2 : (32 != header_size) = false := by decide
  have h3 : header_size - 32 = 0 := by decide
  have htag : uint32BE (buildHeader W H o opq al pl) 0 = format_tag := by
    rw [buildHeader_bytes, format_tag_eq]
    simp only [uint32BE, byteAt_zero, byteAt_succ]
    norm_num
  have hw : uint16LE (buildHeader W H o opq al pl) 4 = W := by
    rw [buildHeader_bytes]
    simp only [uint16LE, byteAt_zero, byteAt_succ]
    omega
  have hh : uint16LE (buildHeader W H o opq al pl) 6 = H := by
    rw [buildHeader_bytes]
    simp only [uint16LE, byteAt_zero, byteAt_succ]
    omega
  have ha : uint32LE (buildHeader W H o opq al pl) 8 = headerAlphaLength opq al := by
    rw [buildHeader_bytes]
    simp only [uint32LE, byteAt_zero, byteAt_succ]
    omega
  have hp : uint32LE (buildHeader W H o opq al pl) 12 = headerPixelLength o pl := by
    rw [buildHeader_bytes]
    simp only [uint32LE, byteAt_zero, byteAt_succ]
    omega
  have hhue : byteAt (buildHeader W H o opq al pl) 16 = o.HueShift := by
    rw [buildHeader_bytes]
    simp only [byteAt_zero, byteAt_succ]
  have hfl : byteAt (buildHeader W H o opq al pl) 17 = buildFlags o := by
    rw [buildHeader_bytes]
    simp only [byteAt_zero, byteAt_succ]
  unfold DecodeConfig Reader.Read
  simp only [hd, he, hmin, htake, hlen, h2, h3, List.replicate_zero, List.append_nil, htag,
    hw, hh, ha, hp, hhue, hfl, bne_self_eq_false, buildFlags_compress, buildFlags_exclude]
  rfl

/-- The same on the in-memory reader over a stream that starts with a header. -/
theorem DecodeConfig_buildHeader (W H : Nat) (o : ImageOptions) (opq : Bool) (al pl : Nat)
    (rest : List Nat) (hW : W ≤ 65535) (hH : H ≤ 65535) :
    DecodeConfig (Reader.ofBytes (buildHeader W H o opq al pl ++ rest)) = Except.ok
      { Options :=
          { HueShift := o.HueShift
            AlphaThreshold := 0
            UseAlphaMask := decide (headerAlphaLength opq al > 0)
            CompressAlphaMask := o.CompressAlphaMask
            UniformHue := headerPixelLength o pl == 0
            ExcludeMaskedPixels := o.ExcludeMaskedPixels }
        Width := W
        Height := H
        alphaLength := headerAlphaLength opq al
        pixelLength := headerPixelLength o pl } := by
  have hlen := buildHeader_length W H o opq al pl
  refine DecodeConfig_reader_buildHeader W H o opq al pl rest _ rfl ?_ ?_ hW hH
  · show header_size ≤ (buildHeader W H o opq al pl ++ rest).length
    rw [List.length_append, hlen, header_size]
    omega
  · show (buildHeader W H o opq al pl ++ rest).isEmpty = false
    cases hb : buildHeader W H o opq al pl with
    | nil => rw [hb] at hlen; simp at hlen
    | cons x xs => rfl

/-! ## Theorems: formatImage -/

theorem formatRow_eq (img : Raster) (o : ImageOptions) (y : Nat) (xs : List Nat)
    (f : imageformat) :
    xs.foldl (fun f x => formatPixel img o y x f) f =
      { AlphaMask := f.AlphaMask ++ (xs.map (fun x => grayAt img o y x)).map Prod.snd
        PixelData := f.PixelData ++ (xs.map (fun x => grayAt img o y x)).map Prod.fst
        Opaque := f.Opaque && (xs.map (fun x => grayAt img o y x)).all Prod.snd } := by
  induction xs generalizing f with
  | nil => simp
  | cons x xs ih =>
    rw [List.foldl_cons, ih]
    cases hf : f.Opaque <;> cases hx : (grayAt img o y x).2 <;>
      simp [formatPixel, hf, hx, grayAt]

theorem formatRows_eq (img : Raster) (o : ImageOptions) (ys : List Nat) (f : imageformat) :
    ys.foldl (fun f y => (List.range img.Dx).foldl (fun f x => formatPixel img o y x f) f) f =
      { AlphaMask := f.AlphaMask ++
          (ys.flatMap (fun y => (List.range img.Dx).map (fun x => grayAt img o y x))).map Prod.snd
        PixelData := f.PixelData ++
          (ys.flatMap (fun y => (List.range img.Dx).map (fun x => grayAt img o y x))).map Prod.fst
        Opaque := f.Opaque &&
          (ys.flatMap (fun y => (List.range img.Dx).map (fun x => grayAt img o y x))).all
            Prod.snd } := by
  induction ys generalizing f with
  | nil => simp
  | cons y ys ih =>
    rw [List.foldl_cons, ih, formatRow_eq]
    simp [Bool.and_assoc]

theorem formatImage_eq (img : Raster) (o : ImageOptions) :
    formatImage img o =
      { AlphaMask := (grayPixels img o).map Prod.snd
        PixelData := (grayPixels img o).map Prod.fst
        Opaque := (grayPixels img o).all Prod.snd } := by
  unfold formatImage grayPixels
  rw [formatRows_eq]
  simp

theorem grayPixels_length (img : Raster) (o : ImageOptions) :
    (grayPixels img o).length = img.Dx * img.Dy := by
  unfold grayPixels
  induction img.Dy with
  | zero => simp
  | succ n ih =>
    rw [List.range_succ, List.flatMap_append, List.length_append, ih]
    simp [Nat.mul_succ]

theorem mem_grayPixels (img : Raster) (o : ImageOptions) (q : Nat × Bool) :
    q ∈ grayPixels img o ↔ ∃ x y, x < img.Dx ∧ y < img.Dy ∧ q = grayAt img o y x := by
  unfold grayPixels
  simp only [List.mem_flatMap, List.mem_map, List.mem_range]
  constructor
  · rintro ⟨y, hy, x, hx, rfl⟩
    exact ⟨x, y, hx, hy, rfl⟩
  · rintro ⟨x, y, hx, hy, rfl⟩
    exact ⟨y, hy, x, hx, rfl⟩

theorem formatImage_opaque_of_all (img : Raster) (o : ImageOptions)
    (hop : ∀ x y : Nat, x < img.Dx → y < img.Dy →
      (img.At (img.MinX + x) (img.MinY + y)).A > o.AlphaThreshold) :
    (formatImage img o).Opaque = true := by
  rw [formatImage_eq]
  simp only [List.all_eq_true]
  intro q hq
  obtain ⟨x, y, hx, hy, rfl⟩ := (mem_grayPixels img o q).1 hq
  simp [grayAt, colorToGray, hop x y hx hy]

/-! ## Theorems: the buffers of processImageFormat -/

theorem store_length {buf : List Nat} {i v : Nat} {b : List Nat}
    (h : store buf i v = some b) : b.length = buf.length := by
  unfold store at h
  split at h
  · cases h; simp
  · cases h

theorem flushRun_buffers {s t : EncState} (h : flushRun s = some t) : SameBuffers s t := by
  unfold flushRun at h
  cases hs : store s.alpha s.alphaIndex (runRecord s.alphaLength s.currentAlpha) with
  | none => simp [hs] at h
  | some a =>
    simp [hs] at h
    subst h
    exact ⟨store_length hs, rfl⟩

theorem stepPixel_buffers {o : ImageOptions} {s t : EncState} {p : Nat} {av : Bool}
    (h : stepPixel o s p av = some t) : SameBuffers s t := by
  unfold stepPixel at h
  split at h
  · cases hs : store s.pix s.pixelIndex p with
    | none => simp [hs] at h
    | some a =>
      simp [hs] at h
      subst h
      exact ⟨rfl, store_length hs⟩
  · cases h; exact ⟨rfl, rfl⟩

theorem stepBitmask_buffers {s t : EncState} {av : Bool}
    (h : stepBitmask s av = some t) : SameBuffers s t := by
  unfold stepBitmask at h
  simp only at h
  split at h
  · rename_i h8
    cases hs : store s.alpha s.alphaIndex
        (if av = true then (s.alphaByte ||| 128 >>> s.alphaMod) % 256 else s.alphaByte) with
    | none => simp [hs] at h
    | some a =>
      simp [hs] at h
      subst h
      exact ⟨store_length hs, rfl⟩
  · cases h; exact ⟨rfl, rfl⟩

theorem SameBuffers.trans {s t u : EncState} (h1 : SameBuffers s t) (h2 : SameBuffers t u) :
    SameBuffers s u := ⟨h2.1.trans h1.1, h2.2.trans h1.2⟩

theorem stepRLE_buffers {s t : EncState} {av : Bool}
    (h : stepRLE s av = some t) : SameBuffers s t := by
  unfold stepRLE at h
  split at h
  · cases h; exact ⟨rfl, rfl⟩
  · simp only at h
    have key : ∀ s1 : EncState, SameBuffers s s1 →
        (if (s1.alphaLength == 127) = true then
           (flushRun s1).map (fun u => { u with alphaLength := 0 }) else some s1) = some t →
        SameBuffers s t := by
      intro s1 h1 h2
      split at h2
      · cases hf : flushRun s1 with
        | none => simp [hf] at h2
        | some u =>
          simp [hf] at h2
          subst h2
          exact h1.trans ⟨(flushRun_buffers hf).1, (flushRun_buffers hf).2⟩
      · cases h2; exact h1
    split at h
    · cases hf : flushRun s with
      | none => simp [hf] at h
      | some u =>
        simp only [hf, Option.map_some', Option.some_bind] at h
        exact key { u with alphaLength := 1, currentAlpha := av }
          ⟨(flushRun_buffers hf).1, (flushRun_buffers hf).2⟩ h
    · simp only [Option.some_bind] at h
      exact key { s with alphaLength := s.alphaLength + 1 } ⟨rfl, rfl⟩ h

theorem encodeStep_buffers {o : ImageOptions} {s t : EncState} {p : Nat} {av : Bool}
    (h : encodeStep o s p av = some t) : SameBuffers s t := by
  unfold encodeStep at h
  cases hp : stepPixel o s p av with
  | none => simp [hp] at h
  | some u =>
    simp only [hp, Option.some_bind] at h
    split at h
    · exact (stepPixel_buffers hp).trans (stepBitmask_buffers h)
    · exact (stepPixel_buffers hp).trans (stepRLE_buffers h)

theorem encodeLoop_buffers (o : ImageOptions) (ps : List Nat) (avs : List Bool)
    (s t : EncState) (h : encodeLoop o ps avs s = some t) : SameBuffers s t := by
  induction ps generalizing avs s with
  | nil => simp [encodeLoop] at h; subst h; exact ⟨rfl, rfl⟩
  | cons p ps ih =>
    cases avs with
    | nil => simp [encodeLoop] at h
    | cons av avs =>
      simp only [encodeLoop] at h
      cases hs : encodeStep o s p av with
      | none => simp [hs] at h
      | some u =>
        simp only [hs, Option.some_bind] at h
        exact (encodeStep_buffers hs).trans (ih avs u h)

theorem encodeFinish_buffers {s t : EncState} (h : encodeFinish s = some t) :
    SameBuffers s t := by
  unfold encodeFinish at h
  simp only at h
  have key : ∀ s1 : EncState, SameBuffers s s1 →
      (if s1.alphaLength > 0 then flushRun s1 else some s1) = some t → SameBuffers s t := by
    intro s1 h1 h2
    split at h2
    · exact h1.trans (flushRun_buffers h2)
    · cases h2; exact h1
  split at h
  · cases hs : store s.alpha s.alphaIndex s.alphaByte with
    | none => simp [hs] at h
    | some a =>
      simp only [hs, Option.map_some', Option.some_bind] at h
      exact key { s with alpha := a, alphaIndex := s.alphaIndex + 1 } ⟨store_length hs, rfl⟩ h
  · simp only [Option.some_bind] at h
    exact key s ⟨rfl, rfl⟩ h

theorem processImageFormat_lengths {f : imageformat} {o : ImageOptions} {pixd alphad : List Nat}
    (h : processImageFormat f o = some (pixd, alphad)) :
    pixd.length ≤ f.PixelData.length ∧ alphad.length ≤ (f.AlphaMask.length + 7) / 8 := by
  unfold processImageFormat at h
  split at h
  · cases h; simp
  · simp only [Option.map_eq_some', Option.bind_eq_some] at h
    obtain ⟨t, ⟨s, hs, ht⟩, hres⟩ := h
    have hb := (encodeLoop_buffers o _ _ _ _ hs).trans (encodeFinish_buffers ht)
    obtain ⟨ha, hp⟩ := hb
    simp only [List.length_replicate] at ha hp
    cases hres
    constructor
    · rw [List.length_take, hp]; exact Nat.min_le_right _ _
    · rw [List.length_take, ha]; exact Nat.min_le_right _ _

theorem processImageFormat_all_opaque_image {f : imageformat} (o : ImageOptions) (h : f.Opaque = true) :
    processImageFormat f o = some (f.PixelData, []) := by
  simp [processImageFormat, h]

/-! ## Theorems: Encode -/

theorem formatImage_lengths (img : Raster) (o : ImageOptions) :
    (formatImage img o).AlphaMask.length = img.Dx * img.Dy ∧
    (formatImage img o).PixelData.length = img.Dx * img.Dy := by
  rw [formatImage_eq]
  simp [grayPixels_length]

/-- What a completed call of `Encode` on a raster within the size limit returns. -/
theorem Encode_of_some (Z : Zlib) (img : Raster) (o : ImageOptions)
    (hW : img.Dx ≤ 65535) (hH : img.Dy ≤ 65535) (r : EncodeResult)
    (h : Encode Z img o = some r) :
    ∃ pixd alphad, processImageFormat (formatImage img o) o = some (pixd, alphad) ∧
      r.payload = (if o.UseAlphaMask then alphad else []) ++ (if o.UniformHue then [] else pixd) ∧
      r.written = buildHeader img.Dx img.Dy o (formatImage img o).Opaque alphad.length pixd.length
        ++ Z.stream r.payload ∧
      r.err = none := by
  unfold Encode at h
  have hs : (decide (img.Dx > 65535) || decide (img.Dy > 65535)) = false := by
    simp; omega
  simp only [hs] at h
  cases hp : processImageFormat (formatImage img o) o with
  | none => simp [hp] at h
  | some pa =>
    obtain ⟨pixd, alphad⟩ := pa
    simp only [hp, Bool.false_eq_true, if_false, Option.some.injEq] at h
    subst h
    refine ⟨pixd, alphad, rfl, ?_, ?_, rfl⟩
    · cases o.UseAlphaMask <;> cases o.UniformHue <;> simp
    · rfl

/-- The converse: when `processImageFormat` completes, so does `Encode`. -/
theorem Encode_of_process (Z : Zlib) (img : Raster) (o : ImageOptions)
    (hW : img.Dx ≤ 65535) (hH : img.Dy ≤ 65535) (pixd alphad : List Nat)
    (hp : processImageFormat (formatImage img o) o = some (pixd, alphad)) :
    ∃ r, Encode Z img o = some r := by
  unfold Encode
  have hs : (decide (img.Dx > 65535) || decide (img.Dy > 65535)) = false := by
    simp; omega
  simp only [hs, hp]
  exact ⟨_, rfl⟩

theorem section_lengths_lt (img : Raster) (o : ImageOptions)
    (hW : img.Dx ≤ 65535) (hH : img.Dy ≤ 65535) (pixd alphad : List Nat)
    (hp : processImageFormat (formatImage img o) o = some (pixd, alphad)) :
    pixd.length < 2 ^ 32 ∧ alphad.length < 2 ^ 32 := by
  obtain ⟨h1, h2⟩ := processImageFormat_lengths hp
  obtain ⟨ha, hx⟩ := formatImage_lengths img o
  rw [hx] at h1
  rw [ha] at h2
  have hmul : img.Dx * img.Dy ≤ 65535 * 65535 := Nat.mul_le_mul hW hH
  constructor <;> omega

/-- On a raster all of whose pixels are opaque `Encode` completes, whatever the options. -/
theorem Encode_opaque_completes (Z : Zlib) (img : Raster) (o : ImageOptions)
    (hW : img.Dx ≤ 65535) (hH : img.Dy ≤ 65535)
    (hop : ∀ x y : Nat, x < img.Dx → y < img.Dy →
      (img.At (img.MinX + x) (img.MinY + y)).A > o.AlphaThreshold) :
    ∃ r, Encode Z img o = some r :=
  Encode_of_process Z img o hW hH _ _
    (processImageFormat_all_opaque_image o (formatImage_opaque_of_all img o hop))

/-! ## Theorems: the bitmask encoding completes -/

theorem store_some (buf : List Nat) (i v : Nat) (h : i < buf.length) :
    store buf i v = some (buf.set i v) := by
  simp [store, h]

theorem encodeStep_bitmask (o : ImageOptions) (hc : o.CompressAlphaMask = false)
    (n k : Nat) (hk : k < n) (s : EncState) (p : Nat) (av : Bool) (hs : BitmaskInv n k s) :
    ∃ t, encodeStep o s p av = some t ∧ BitmaskInv n (k + 1) t := by
  obtain ⟨hal, hpl, hai, ham, hpi, hrl⟩ := hs
  have hpix : ∃ u, stepPixel o s p av = some u ∧ u.alpha = s.alpha ∧ u.pix.length = n ∧
      u.alphaIndex = s.alphaIndex ∧ u.alphaMod = s.alphaMod ∧ u.pixelIndex ≤ k + 1 ∧
      u.alphaLength = 0 ∧ u.alphaByte = s.alphaByte := by
    unfold stepPixel
    split
    · rw [store_some _ _ _ (by omega)]
      exact ⟨_, rfl, rfl, by simp [hpl], rfl, rfl, by simp; omega, hrl, rfl⟩
    · exact ⟨_, rfl, rfl, hpl, rfl, rfl, by omega, hrl, rfl⟩
  obtain ⟨u, hu, ua, upl, uai, uam, upi, url, _⟩ := hpix
  unfold encodeStep
  simp only [hu, Option.some_bind, hc, Bool.not_false, if_true]
  unfold stepBitmask
  simp only
  by_cases h8 : u.alphaMod + 1 = 8
  · have hb : (u.alphaMod + 1 == 8) = true := by simpa using h8
    simp only [hb, if_true]
    rw [store_some _ _ _ (by rw [ua, hal, uai, hai]; omega)]
    refine ⟨_, rfl, ?_, upl, ?_, ?_, upi, url⟩
    · simp [ua, hal]
    · simp only [uai, hai]; omega
    · simp only; omega
  · have hb : (u.alphaMod + 1 == 8) = false := by simpa using h8
    simp only [hb]
    refine ⟨_, rfl, ?_, upl, ?_, ?_, upi, url⟩
    · simp [ua, hal]
    · simp only [uai, hai]; omega
    · simp only; omega

theorem encodeLoop_bitmask (o : ImageOptions) (hc : o.CompressAlphaMask = false) (n : Nat)
    (ps : List Nat) (avs : List Bool) (hlen : ps.length = avs.length)
    (k : Nat) (hk : k + ps.length = n) (s : EncState) (hs : BitmaskInv n k s) :
    ∃ t, encodeLoop o ps avs s = some t ∧ BitmaskInv n n t := by
  induction ps generalizing avs k s with
  | nil =>
    simp only [List.length_nil, Nat.add_zero] at hk
    subst hk
    exact ⟨s, by simp [encodeLoop], hs⟩
  | cons p ps ih =>
    cases avs with
    | nil => simp at hlen
    | cons av avs =>
      simp only [List.length_cons] at hk hlen
      obtain ⟨t, ht, hinv⟩ := encodeStep_bitmask o hc n k (by omega) s p av hs
      obtain ⟨u, hu, huinv⟩ := ih avs (by omega) (k + 1) (by omega) t hinv
      exact ⟨u, by simp only [encodeLoop, ht, Option.some_bind, hu], huinv⟩

theorem encodeFinish_bitmask (n : Nat) (s : EncState) (hs : BitmaskInv n n s) :
    ∃ t, encodeFinish s = some t := by
  obtain ⟨hal, _, hai, ham, _, hrl⟩ := hs
  unfold encodeFinish
  simp only
  by_cases hm : s.alphaMod > 0
  · simp only [hm, if_true]
    rw [store_some _ _ _ (by rw [hal, hai]; omega)]
    simp [hrl]
  · simp [hm, hrl]

/-- With the bitmask encoding `processImageFormat` never stores out of range. -/
theorem processImageFormat_bitmask_completes (f : imageformat) (o : ImageOptions)
    (hc : o.CompressAlphaMask = false) (hlen : f.PixelData.length = f.AlphaMask.length) :
    ∃ pa, processImageFormat f o = some pa := by
  unfold processImageFormat
  split
  · exact ⟨_, rfl⟩
  · obtain ⟨t, ht, hinv⟩ := encodeLoop_bitmask o hc f.PixelData.length f.PixelData f.AlphaMask
      hlen 0 (by simp)
      { alpha := List.replicate ((f.AlphaMask.length + 7) / 8) 0
        pix := List.replicate f.PixelData.length 0
        alphaIndex := 0, alphaMod := 0, alphaByte := 0
        currentAlpha := false, alphaLength := 0, pixelIndex := 0 }
      ⟨by simp [hlen], by simp, rfl, rfl, Nat.le_refl _, rfl⟩
    obtain ⟨u, hu⟩ := encodeFinish_bitmask _ t hinv
    simp only [ht, Option.some_bind, hu, Option.map_some']
    exact ⟨_, rfl⟩

/-- With the bitmask encoding `Encode` completes on every raster within the size limit. -/
theorem Encode_bitmask_completes (Z : Zlib) (img : Raster) (o : ImageOptions)
    (hW : img.Dx ≤ 65535) (hH : img.Dy ≤ 65535) (hc : o.CompressAlphaMask = false) :
    ∃ r, Encode Z img o = some r := by
  obtain ⟨ha, hp⟩ := formatImage_lengths img o
  obtain ⟨⟨pixd, alphad⟩, h⟩ := processImageFormat_bitmask_completes (formatImage img o) o hc
    (by rw [ha, hp])
  exact Encode_of_process Z img o hW hH pixd alphad h

/-! ## Theorems: the header that Encode writes -/

/-- Header round trip on the encodings that complete: for a raster of width and height at
most 65535 and any options, `DecodeConfig` applied to the header that `Encode` fills
(whatever the opacity flag and the two section lengths it is filled from, and whatever
follows it in the stream) succeeds and returns the width, the height, `HueShift`,
`CompressAlphaMask` and `ExcludeMaskedPixels` that were encoded and `AlphaThreshold = 0`;
and every call of `Encode` that completes returns no error and has written a stream on
which `DecodeConfig` returns these values. With the bitmask encoding of the alpha mask
`Encode` always completes; with run-length encoding it may abort before the header is
written. -/
theorem header_round_trip (Z : Zlib) (img : Raster) (o : ImageOptions)
    (hW : img.Dx ≤ 65535) (hH : img.Dy ≤ 65535) :
    (∀ (isOpaque : Bool) (alphaLen pixLen : Nat) (rest : List Nat), ∃ conf,
      DecodeConfig (Reader.ofBytes (buildHeader img.Dx img.Dy o isOpaque alphaLen pixLen ++ rest))
        = Except.ok conf ∧
      conf.Width = img.Dx ∧ conf.Height = img.Dy ∧
      conf.Options.HueShift = o.HueShift ∧
      conf.Options.CompressAlphaMask = o.CompressAlphaMask ∧
      conf.Options.ExcludeMaskedPixels = o.ExcludeMaskedPixels ∧
      conf.Options.AlphaThreshold = 0) ∧
    (∀ r, Encode Z img o = some r → r.err = none ∧ ∃ conf,
      DecodeConfig (Reader.ofBytes r.written) = Except.ok conf ∧
      conf.Width = img.Dx ∧ conf.Height = img.Dy ∧
      conf.Options.HueShift = o.HueShift ∧
      conf.Options.CompressAlphaMask = o.CompressAlphaMask ∧
      conf.Options.ExcludeMaskedPixels = o.ExcludeMaskedPixels ∧
      conf.Options.AlphaThreshold = 0) ∧
    (o.CompressAlphaMask = false → ∃ r, Encode Z img o = some r) := by
  refine ⟨?_, ?_, Encode_bitmask_completes Z img o hW hH⟩
  · intro isOpaque alphaLen pixLen rest
    exact ⟨_, DecodeConfig_buildHeader img.Dx img.Dy o isOpaque alphaLen pixLen rest hW hH,
      rfl, rfl, rfl, rfl, rfl, rfl⟩
  · intro r hr
    obtain ⟨pixd, alphad, _, _, hw, he⟩ := Encode_of_some Z img o hW hH r hr
    refine ⟨he, ?_⟩
    rw [hw]
    exact ⟨_, DecodeConfig_buildHeader img.Dx img.Dy o _ _ _ _ hW hH,
      rfl, rfl, rfl, rfl, rfl, rfl⟩

theorem twoPixel_encode :
    Encode Zlib.identity twoPixelRaster bitmaskOptions = some
      { written := [66, 76, 85, 66, 2, 0, 1, 0, 1, 0, 0, 0, 1, 0, 0, 0, 0, 64,
                    0, 0, 0, 0, 0, 0, 0, 0, 0, 0, 0, 0, 0, 0, 128, 18]
        payload := [128, 18]
        err := none } := by
  decide



/-- Examples of `header_round_trip`: the two-pixel raster meets the size hypotheses, `Encode`
completes on it with the bitmask encoding, and the header it wrote decodes to the encoded
values; and a 1500 x 1500 raster of opaque pixels encoded with `CompressAlphaMask` and
`ExcludeMaskedPixels` set decodes to width 1500, height 1500 and both flags set. -/
theorem header_round_trip_witness :
    twoPixelRaster.Dx ≤ 65535 ∧ twoPixelRaster.Dy ≤ 65535 ∧
    (∃ r, Encode Zlib.identity twoPixelRaster bitmaskOptions = some r ∧ r.err = none ∧
      ∃ conf, DecodeConfig (Reader.ofBytes r.written) = Except.ok conf ∧
        conf.Width = 2 ∧ conf.Height = 1 ∧ conf.Options.HueShift = 0 ∧
        conf.Options.CompressAlphaMask = false ∧ conf.Options.ExcludeMaskedPixels = true ∧
        conf.Options.AlphaThreshold = 0) ∧
    (∃ r, Encode Zlib.identity testSizeRaster testOptions = some r ∧
      ∃ conf, DecodeConfig (Reader.ofBytes r.written) = Except.ok conf ∧
        conf.Width = 1500 ∧ conf.Height = 1500 ∧
        conf.Options.CompressAlphaMask = true ∧ conf.Options.ExcludeMaskedPixels = true) :=
  ⟨by decide, by decide,
   ⟨_, twoPixel_encode,
    ((header_round_trip Zlib.identity twoPixelRaster bitmaskOptions (by decide) (by decide)).2.1
      _ twoPixel_encode).1,
    ((header_round_trip Zlib.identity twoPixelRaster bitmaskOptions (by decide) (by decide)).2.1
      _ twoPixel_encode).2⟩,
   (let ⟨r, hr⟩ := Encode_opaque_completes Zlib.identity testSizeRaster testOptions
      (by decide) (by decide) (fun _ _ _ _ => Nat.lt_of_lt_of_le (by decide) (Nat.le_refl 255))
    let ⟨_, conf, h, hw, hh, _, hc, he, _⟩ :=
      (header_round_trip Zlib.identity testSizeRaster testOptions (by decide) (by decide)).2.1
        r hr
    ⟨r, hr, conf, h, hw, hh, hc, he⟩)⟩

/-- C3, evaluation at a failing input: the 2 x 1 raster of an opaque pixel followed by a
transparent one, within the size limit, encoded with the options of `TestEncode`
(`CompressAlphaMask` and `ExcludeMaskedPixels` set). `formatImage` finds the opacity
sequence `[opaque, transparent]`; `processImageFormat` stores the record of the second
run at index 1 of an alpha buffer of `(2 + 7) / 8 = 1` byte and aborts, and so does
`Encode`, before the header is written: there is no header for `DecodeConfig` to read the
width, the height and the flags from. With `CompressAlphaMask` cleared the same raster is
encoded, and `DecodeConfig` returns the encoded values from the header. -/
theorem header_round_trip_aborts (Z : Zlib) :
    twoPixelRaster.Dx ≤ 65535 ∧ twoPixelRaster.Dy ≤ 65535 ∧
    (formatImage twoPixelRaster testOptions).AlphaMask = [true, false] ∧
    (formatImage twoPixelRaster testOptions).Opaque = false ∧
    processImageFormat (formatImage twoPixelRaster testOptions) testOptions = none ∧
    Encode Z twoPixelRaster testOptions = none ∧
    (∃ r conf,
      Encode Zlib.identity twoPixelRaster { testOptions with CompressAlphaMask := false }
        = some r ∧
      DecodeConfig (Reader.ofBytes r.written) = Except.ok conf ∧
      conf.Width = 2 ∧ conf.Height = 1 ∧ conf.Options.HueShift = 135 ∧
      conf.Options.CompressAlphaMask = false ∧ conf.Options.ExcludeMaskedPixels = true ∧
      conf.Options.AlphaThreshold = 0) := by
  have h : processImageFormat (formatImage twoPixelRaster testOptions) testOptions = none := by
    decide
  refine ⟨by decide, by decide, by decide, by decide, h, ?_, ?_⟩
  · unfold Encode
    simp only [h]
    rfl
  · exact ⟨{ written := [66, 76, 85, 66, 2, 0, 1, 0, 1, 0, 0, 0, 0, 0, 0, 0, 135, 64,
                         0, 0, 0, 0, 0, 0, 0, 0, 0, 0, 0, 0, 0, 0, 128]
             payload := [128], err := none }, _, by decide, rfl, rfl, rfl, rfl, rfl, rfl, rfl⟩

theorem buildFlags_bits (o : ImageOptions) :
    (buildFlags o).testBit 7 = o.CompressAlphaMask ∧
    (buildFlags o).testBit 6 = o.ExcludeMaskedPixels ∧
    buildFlags o % 64 = 0 ∧ buildFlags o < 256 := by
  cases hc : o.CompressAlphaMask <;> cases he : o.ExcludeMaskedPixels <;>
    simp [buildFlags, hc, he, flag_compress_alpha, flag_exclude_masked_pixels] <;> decide

/-- Header layout on the encodings that complete: for a raster of width `W` and height `H`
at most 65535 and any options, the header `Encode` fills is 32 bytes long: bytes 0-3 are `B`, `L`, `U`, `B`,
bytes 4-5 are `W` and bytes 6-7 are `H` in little-endian order, bytes 8-11 and 12-15 are
the little-endian 32-bit values of the header fields alphaLength and pixelLength, byte 16
is `HueShift`, byte 17 has bit 7 equal to `CompressAlphaMask`, bit 6 equal to
`ExcludeMaskedPixels` and its low six bits zero, and bytes 18-31 are zero. Every call of
`Encode` that completes has written this header first, filled from the lengths of the two
sections `processImageFormat` returned, and these lengths fit in 32 bits. With the bitmask
encoding of the alpha mask `Encode` always completes; with run-length encoding it may abort
before the header is written. -/
theorem header_layout (Z : Zlib) (img : Raster) (o : ImageOptions)
    (hW : img.Dx ≤ 65535) (hH : img.Dy ≤ 65535) :
    (∀ (isOpaque : Bool) (alphaLen pixLen : Nat), ∃ AL PL flags,
      AL = headerAlphaLength isOpaque alphaLen ∧ PL = headerPixelLength o pixLen ∧
      flags = buildFlags o ∧
      buildHeader img.Dx img.Dy o isOpaque alphaLen pixLen =
        [66, 76, 85, 66,
         img.Dx % 256, img.Dx / 256, img.Dy % 256, img.Dy / 256,
         AL % 256, AL / 2 ^ 8 % 256, AL / 2 ^ 16 % 256, AL / 2 ^ 24,
         PL % 256, PL / 2 ^ 8 % 256, PL / 2 ^ 16 % 256, PL / 2 ^ 24,
         o.HueShift, flags,
         0, 0, 0, 0, 0, 0, 0, 0, 0, 0, 0, 0, 0, 0] ∧
      (buildHeader img.Dx img.Dy o isOpaque alphaLen pixLen).length = 32 ∧
      img.Dx / 256 < 256 ∧ img.Dy / 256 < 256 ∧ AL / 2 ^ 24 < 256 ∧ PL / 2 ^ 24 < 256 ∧
      flags.testBit 7 = o.CompressAlphaMask ∧ flags.testBit 6 = o.ExcludeMaskedPixels ∧
      flags % 64 = 0 ∧ flags < 256) ∧
    (∀ r, Encode Z img o = some r → ∃ pixd alphad,
      processImageFormat (formatImage img o) o = some (pixd, alphad) ∧
      r.written = buildHeader img.Dx img.Dy o (formatImage img o).Opaque
        alphad.length pixd.length ++ Z.stream r.payload ∧
      headerAlphaLength (formatImage img o).Opaque alphad.length
        = (if (formatImage img o).Opaque then 0 else alphad.length) ∧
      headerPixelLength o pixd.length = (if o.UniformHue then 0 else pixd.length)) ∧
    (o.CompressAlphaMask = false → ∃ r, Encode Z img o = some r) := by
  refine ⟨?_, ?_, Encode_bitmask_completes Z img o hW hH⟩
  · intro isOpaque alphaLen pixLen
    have hA := headerAlphaLength_lt isOpaque alphaLen
    have hP := headerPixelLength_lt o pixLen
    obtain ⟨f7, f6, f0, fl⟩ := buildFlags_bits o
    refine ⟨_, _, _, rfl, rfl, rfl, ?_, buildHeader_length _ _ _ _ _ _, by omega, by omega,
      by omega, by omega, f7, f6, f0, fl⟩
    rw [buildHeader_bytes]
    have e1 : img.Dx % 2 ^ 16 % 256 = img.Dx % 256 := by omega
    have e2 : img.Dx % 2 ^ 16 / 2 ^ 8 % 256 = img.Dx / 256 := by omega
    have e3 : img.Dy % 2 ^ 16 % 256 = img.Dy % 256 := by omega
    have e4 : img.Dy % 2 ^ 16 / 2 ^ 8 % 256 = img.Dy / 256 := by omega
    have e5 : headerAlphaLength isOpaque alphaLen / 2 ^ 24 % 256
        = headerAlphaLength isOpaque alphaLen / 2 ^ 24 := by omega
    have e6 : headerPixelLength o pixLen / 2 ^ 24 % 256
        = headerPixelLength o pixLen / 2 ^ 24 := by omega
    rw [e1, e2, e3, e4, e5, e6]
  · intro r hr
    obtain ⟨pixd, alphad, hp, _, hw, _⟩ := Encode_of_some Z img o hW hH r hr
    obtain ⟨h1, h2⟩ := section_lengths_lt img o hW hH pixd alphad hp
    refine ⟨pixd, alphad, hp, hw, ?_, ?_⟩
    · unfold headerAlphaLength
      rw [Nat.mod_eq_of_lt h2]
    · unfold headerPixelLength
      rw [Nat.mod_eq_of_lt h1]

/-- Example of `header_layout`: the header of the two-pixel raster with the bitmask
options. -/
theorem header_layout_witness :
    twoPixelRaster.Dx ≤ 65535 ∧ twoPixelRaster.Dy ≤ 65535 ∧
    buildHeader 2 1 bitmaskOptions false 1 1 =
      [66, 76, 85, 66, 2, 0, 1, 0, 1, 0, 0, 0, 1, 0, 0, 0, 0, 64,
       0, 0, 0, 0, 0, 0, 0, 0, 0, 0, 0, 0, 0, 0] ∧
    (∃ r pixd alphad, Encode Zlib.identity twoPixelRaster bitmaskOptions = some r ∧
      processImageFormat (formatImage twoPixelRaster bitmaskOptions) bitmaskOptions
        = some (pixd, alphad) ∧
      r.written = buildHeader 2 1 bitmaskOptions
        (formatImage twoPixelRaster bitmaskOptions).Opaque alphad.length pixd.length
        ++ Zlib.identity.stream r.payload) :=
  ⟨by decide, by decide, by decide,
   (let ⟨pixd, alphad, hp, hw, _, _⟩ :=
      (header_layout Zlib.identity twoPixelRaster bitmaskOptions (by decide) (by decide)).2.1
        _ twoPixel_encode
    ⟨_, pixd, alphad, twoPixel_encode, hp, hw⟩)⟩

/-- C4, evaluation at a failing input: a 3 x 1 raster of a transparent, an opaque and a
transparent pixel, within the size limit, encoded with `CompressAlphaMask` set.
`formatImage` finds the opacity sequence `[transparent, opaque, transparent]`, three runs
of length 1; `processImageFormat` stores the first record at index 0 of an alpha buffer of
`(3 + 7) / 8 = 1` byte and aborts on the store of the second record at index 1, and so does
`Encode`, before the header is built and written: no header byte reaches the stream. With
`CompressAlphaMask` cleared the same raster is encoded, and the stream starts with the 32
bytes of the layout. -/
theorem header_layout_aborts (Z : Zlib) :
    stripedRaster.Dx ≤ 65535 ∧ stripedRaster.Dy ≤ 65535 ∧
    (formatImage stripedRaster rleOptions).AlphaMask = [false, true, false] ∧
    (formatImage stripedRaster rleOptions).Opaque = false ∧
    processImageFormat (formatImage stripedRaster rleOptions) rleOptions = none ∧
    Encode Z stripedRaster rleOptions = none ∧
    (∃ r,
      Encode Zlib.identity stripedRaster { rleOptions with CompressAlphaMask := false }
        = some r ∧
      r.written.take 32 = [66, 76, 85, 66, 3, 0, 1, 0, 1, 0, 0, 0, 3, 0, 0, 0, 0, 0,
                           0, 0, 0, 0, 0, 0, 0, 0, 0, 0, 0, 0, 0, 0]) := by
  have h : processImageFormat (formatImage stripedRaster rleOptions) rleOptions = none := by
    decide
  refine ⟨by decide, by decide, by decide, by decide, h, ?_, ?_⟩
  · unfold Encode
    simp only [h]
    rfl
  · exact ⟨{ written := [66, 76, 85, 66, 3, 0, 1, 0, 1, 0, 0, 0, 3, 0, 0, 0, 0, 0,
                         0, 0, 0, 0, 0, 0, 0, 0, 0, 0, 0, 0, 0, 0, 64, 18, 18, 18]
             payload := [64, 18, 18, 18], err := none }, by decide, by decide⟩

/-! ## Theorems: opacity -/

/-- C7. Opaque short-circuit on encode: for a raster of width and height at most 65535 in
which every pixel has alpha strictly greater than `AlphaThreshold`, and for any options
(so for every value of `CompressAlphaMask` and `UseAlphaMask`), `processImageFormat`
completes with an empty alpha section, `Encode` completes without error, bytes 8-11 of the
header it writes are zero, and `DecodeConfig` reads `alphaLength = 0` from it. -/
theorem opaque_short_circuit (Z : Zlib) (img : Raster) (o : ImageOptions)
    (hW : img.Dx ≤ 65535) (hH : img.Dy ≤ 65535)
    (hop : ∀ x y : Nat, x < img.Dx → y < img.Dy →
      (img.At (img.MinX + x) (img.MinY + y)).A > o.AlphaThreshold) :
    (formatImage img o).Opaque = true ∧
    processImageFormat (formatImage img o) o = some ((formatImage img o).PixelData, []) ∧
    ∃ r, Encode Z img o = some r ∧ r.err = none ∧
      (r.written.drop 8).take 4 = [0, 0, 0, 0] ∧
      ∃ conf, DecodeConfig (Reader.ofBytes r.written) = Except.ok conf ∧ conf.alphaLength = 0 ∧
        conf.Options.UseAlphaMask = false := by
  have hO := formatImage_opaque_of_all img o hop
  have hp := processImageFormat_all_opaque_image o hO
  obtain ⟨r, hr⟩ := Encode_of_process Z img o hW hH _ _ hp
  obtain ⟨pixd, alphad, hp2, _, hw, he⟩ := Encode_of_some Z img o hW hH r hr
  refine ⟨hO, hp, r, hr, he, ?_, ?_⟩
  · rw [hw, hO, buildHeader_bytes]
    simp [headerAlphaLength]
  · rw [hw, hO]
    exact ⟨_, DecodeConfig_buildHeader img.Dx img.Dy o true _ _ _ hW hH, rfl, rfl⟩

/-- C7 witness: a single opaque pixel, encoded with the options of the tests. -/
theorem opaque_short_circuit_witness :
    opaquePixelRaster.Dx ≤ 65535 ∧ opaquePixelRaster.Dy ≤ 65535 ∧
    (∀ x y : Nat, x < opaquePixelRaster.Dx → y < opaquePixelRaster.Dy →
      (opaquePixelRaster.At (opaquePixelRaster.MinX + x) (opaquePixelRaster.MinY + y)).A
        > testOptions.AlphaThreshold) ∧
    processImageFormat (formatImage opaquePixelRaster testOptions) testOptions
      = some ((formatImage opaquePixelRaster testOptions).PixelData, []) ∧
    ∃ r, Encode Zlib.identity opaquePixelRaster testOptions = some r ∧ r.err = none ∧
      (r.written.drop 8).take 4 = [0, 0, 0, 0] :=
  have hop : ∀ x y : Nat, x < opaquePixelRaster.Dx → y < opaquePixelRaster.Dy →
      (opaquePixelRaster.At (opaquePixelRaster.MinX + x) (opaquePixelRaster.MinY + y)).A
        > testOptions.AlphaThreshold := fun _ _ _ _ => Nat.lt_of_lt_of_le (by decide) (Nat.le_refl 255)
  have h := opaque_short_circuit Zlib.identity opaquePixelRaster testOptions
    (by decide) (by decide) hop
  ⟨by decide, by decide, hop, h.2.1,
    (let ⟨r, hr, he, hz, _⟩ := h.2.2
     ⟨r, hr, he, hz⟩)⟩

/-- C10. Threshold boundary: for an 8-bit colour `c` and a threshold `t`, `colorToGray`
reports the pixel opaque exactly when `alpha(c) > t`; a pixel with alpha equal to `t` is
transparent, one with alpha `t + 1` is opaque, and with `t = 255` no pixel is opaque. -/
theorem threshold_boundary (c : RGBA) (t : Nat) (hA : c.A ≤ 255) :
    ((colorToGray c t).2 = true ↔ c.A > t) ∧
    (c.A = t → (colorToGray c t).2 = false) ∧
    (c.A = t + 1 → (colorToGray c t).2 = true) ∧
    (colorToGray c 255).2 = false := by
  simp [colorToGray]
  refine ⟨?_, ?_, ?_⟩ <;> omega

/-- C10 witness: alpha 128 against the thresholds 127, 128 and 255. -/
theorem threshold_boundary_witness :
    (128 : Nat) ≤ 255 ∧
    (colorToGray { R := 1, G := 2, B := 3, A := 128 } 127).2 = true ∧
    (colorToGray { R := 1, G := 2, B := 3, A := 128 } 128).2 = false ∧
    (colorToGray { R := 1, G := 2, B := 3, A := 128 } 255).2 = false :=
  ⟨by decide,
   (threshold_boundary { R := 1, G := 2, B := 3, A := 128 } 127 (by decide)).2.2.1 rfl,
   (threshold_boundary { R := 1, G := 2, B := 3, A := 128 } 128 (by decide)).2.1 rfl,
   (threshold_boundary { R := 1, G := 2, B := 3, A := 128 } 128 (by decide)).2.2.2⟩

/-! ## Theorems: DecodeConfig -/

theorem DecodeConfig_read_error (r : Reader) (he : r.firstErr = true) :
    DecodeConfig r = Except.error DecodeError.readHeader := by
  unfold DecodeConfig Reader.Read
  simp only [he, if_true]

theorem DecodeConfig_short_read (r : Reader) (he : r.firstErr = false)
    (hn : r.firstRead < 32 ∨ r.data.length < 32) :
    DecodeConfig r = Except.error DecodeError.headerSize := by
  have hl : ((r.data.take (min header_size r.firstRead)).length != header_size) = true := by
    rw [List.length_take, header_size]
    simp only [bne_iff_ne, ne_eq]
    omega
  unfold DecodeConfig Reader.Read
  simp only [he, hl, if_true, Bool.false_eq_true, if_false]

theorem DecodeConfig_short (r : Reader) (h : r.data.length < 32) :
    ∃ e, DecodeConfig r = Except.error e := by
  cases he : r.firstErr
  · exact ⟨_, DecodeConfig_short_read r he (Or.inr h)⟩
  · exact ⟨_, DecodeConfig_read_error r he⟩

theorem DecodeConfig_long (r : Reader) (h : 32 ≤ r.data.length) (hn : 32 ≤ r.firstRead)
    (he : r.firstErr = false) :
    (uint32BE (r.data.take header_size) 0 ≠ format_tag →
      ∃ e, DecodeConfig r = Except.error e) ∧
    (uint32BE (r.data.take header_size) 0 = format_tag →
      ∃ conf, DecodeConfig r = Except.ok conf) := by
  have hmin : min header_size r.firstRead = header_size := Nat.min_eq_left hn
  have hl : (r.data.take header_size).length = 32 := by
    rw [List.length_take, header_size]; omega
  have h2 : (32 != header_size) = false := by decide
  have h3 : header_size - 32 = 0 := by decide
  constructor
  · intro ht
    have h4 : (uint32BE (r.data.take header_size) 0 != format_tag) = true := by simpa using ht
    unfold DecodeConfig Reader.Read
    simp only [he, hmin, hl, h2, h3, h4, List.replicate_zero, List.append_nil]
    exact ⟨_, rfl⟩
  · intro ht
    have h4 : (uint32BE (r.data.take header_size) 0 != format_tag) = false := by simpa using ht
    unfold DecodeConfig Reader.Read
    simp only [he, hmin, hl, h2, h3, h4, List.replicate_zero, List.append_nil]
    exact ⟨_, rfl⟩

/-- On a reader whose first `Read` delivers the 32 bytes of the header with a nil error,
`DecodeConfig` and `Decode` return what they return on the in-memory reader over the same
bytes. -/
theorem DecodeConfig_of_full_read (Z : Zlib) (hsv : HueTransform) (r : Reader)
    (he : r.firstErr = false) (hn : header_size ≤ r.firstRead)
    (hl : header_size ≤ r.data.length) :
    DecodeConfig r = DecodeConfig (Reader.ofBytes r.data) ∧
    Decode Z hsv r = Decode Z hsv (Reader.ofBytes r.data) := by
  have h1 : min header_size r.firstRead = header_size := Nat.min_eq_left hn
  have h2 : min header_size r.data.length = header_size := Nat.min_eq_left hl
  have h3 : r.data.isEmpty = false := by
    cases hd : r.data with
    | nil => rw [hd, header_size] at hl; simp at hl
    | cons x xs => rfl
  have h : DecodeConfig r = DecodeConfig (Reader.ofBytes r.data) := by
    unfold DecodeConfig Reader.Read Reader.ofBytes
    simp only [he, h1, h2, h3]
  refine ⟨h, ?_⟩
  unfold Decode
  rw [h]
  rfl

theorem tag_of_bytes (r : List Nat) (h : 32 ≤ r.length) (hb : ∀ b ∈ r, b < 256) :
    uint32BE (r.take header_size) 0 = format_tag ↔ r.take 4 = [66, 76, 85, 66] := by
  match r, h, hb with
  | b0 :: b1 :: b2 :: b3 :: rest, _, hb =>
    have h0 : b0 < 256 := hb b0 (by simp)
    have h1 : b1 < 256 := hb b1 (by simp)
    have h2 : b2 < 256 := hb b2 (by simp)
    have h3 : b3 < 256 := hb b3 (by simp)
    have e : (b0 :: b1 :: b2 :: b3 :: rest).take header_size
        = b0 :: b1 :: b2 :: b3 :: rest.take 28 := by
      simp [header_size]
    rw [e, format_tag_eq]
    simp only [uint32BE, byteAt_zero, byteAt_succ, List.take_succ_cons, List.take_zero,
      List.cons.injEq, and_true]
    constructor
    · intro h; omega
    · rintro ⟨rfl, rfl, rfl, rfl⟩; norm_num

theorem Decode_of_config_error (Z : Zlib) (hsv : HueTransform) (r : Reader)
    (e : DecodeError) (h : DecodeConfig r = Except.error e) :
    Decode Z hsv r = some (Except.error e) := by
  unfold Decode
  rw [h]

/-- When `DecodeConfig` accepts and when it rejects, on every reader over bytes: it returns
an error (and `Decode` returns that error and no raster) when fewer than 32 bytes are
available, when the first 4 bytes are not the tag `BLUB`, when the first `Read` delivers
fewer than 32 bytes, and when it returns an error; it succeeds when at least 32 bytes are
available, the first 4 bytes are `BLUB`, and the first `Read` delivers 32 bytes with a nil
error. -/
theorem header_acceptance (Z : Zlib) (hsv : HueTransform) (r : Reader)
    (hb : ∀ b ∈ r.data, b < 256) :
    ((r.data.length < 32 ∨ r.data.take 4 ≠ [66, 76, 85, 66] ∨
        r.firstRead < 32 ∨ r.firstErr = true) →
      ∃ e, DecodeConfig r = Except.error e ∧ Decode Z hsv r = some (Except.error e)) ∧
    ((32 ≤ r.data.length ∧ r.data.take 4 = [66, 76, 85, 66] ∧
        32 ≤ r.firstRead ∧ r.firstErr = false) →
      ∃ conf, DecodeConfig r = Except.ok conf) := by
  constructor
  · intro h
    have he : ∃ e, DecodeConfig r = Except.error e := by
      cases hf : r.firstErr
      · by_cases hl : r.data.length < 32
        · exact ⟨_, DecodeConfig_short_read r hf (Or.inr hl)⟩
        · by_cases hn : r.firstRead < 32
          · exact ⟨_, DecodeConfig_short_read r hf (Or.inl hn)⟩
          · have hl2 : 32 ≤ r.data.length := by omega
            have hn2 : 32 ≤ r.firstRead := by omega
            rcases h with h | h | h | h
            · exact absurd h hl
            · exact (DecodeConfig_long r hl2 hn2 hf).1
                (fun ht => h ((tag_of_bytes r.data hl2 hb).1 ht))
            · exact absurd h hn
            · rw [hf] at h; cases h
      · exact ⟨_, DecodeConfig_read_error r hf⟩
    obtain ⟨e, he⟩ := he
    exact ⟨e, he, Decode_of_config_error Z hsv r e he⟩
  · rintro ⟨hl, ht, hn, hf⟩
    exact (DecodeConfig_long r hl hn hf).2 ((tag_of_bytes r.data hl hb).2 ht)

/-- Example of `header_acceptance`: on the in-memory reader a bare well-formed header is
accepted, its first 31 bytes are rejected, and so is the same header with the last letter of
the tag changed. -/
theorem header_acceptance_witness :
    (∀ b ∈ emptyImageBytes, b < 256) ∧
    (∃ conf, DecodeConfig (Reader.ofBytes emptyImageBytes) = Except.ok conf) ∧
    (∃ e, DecodeConfig (Reader.ofBytes (emptyImageBytes.take 31)) = Except.error e ∧
      Decode Zlib.identity (fun _ g => (g, g, g)) (Reader.ofBytes (emptyImageBytes.take 31))
        = some (Except.error e)) ∧
    (∃ e, DecodeConfig (Reader.ofBytes (emptyImageBytes.set 3 67)) = Except.error e ∧
      Decode Zlib.identity (fun _ g => (g, g, g)) (Reader.ofBytes (emptyImageBytes.set 3 67))
        = some (Except.error e)) :=
  ⟨by decide,
   (header_acceptance Zlib.identity (fun _ g => (g, g, g)) (Reader.ofBytes emptyImageBytes)
     (by decide)).2 ⟨by decide, by decide, by decide, by decide⟩,
   (header_acceptance Zlib.identity (fun _ g => (g, g, g))
     (Reader.ofBytes (emptyImageBytes.take 31)) (by decide)).1 (Or.inl (by decide)),
   (header_acceptance Zlib.identity (fun _ g => (g, g, g))
     (Reader.ofBytes (emptyImageBytes.set 3 67)) (by decide)).1 (Or.inr (Or.inl (by decide)))⟩

/-- C2, evaluation at a failing input: a reader over the 33 bytes of a well-formed stream
(a header that starts with `BLUB` and one payload byte) whose first `Read` delivers 16
bytes, as `io.Reader` allows. At least 32 bytes are available and the first 4 are `BLUB`,
yet `DecodeConfig` returns the error "header size is not 32", and `Decode` returns it too:
the header is read with one call of `Read`, not with `io.ReadFull` as the two sections are.
The same bytes are accepted from the in-memory reader, whose first `Read` fills the buffer.
A reader that delivers all 32 bytes of a bare header together with `io.EOF` is rejected as
well, with the error "unable to read header". -/
theorem header_rejected_on_short_read (Z : Zlib) (hsv : HueTransform) :
    32 ≤ shortReadReader.data.length ∧
    shortReadReader.data.take 4 = [66, 76, 85, 66] ∧
    DecodeConfig shortReadReader = Except.error DecodeError.headerSize ∧
    Decode Z hsv shortReadReader = some (Except.error DecodeError.headerSize) ∧
    (∃ conf, DecodeConfig (Reader.ofBytes shortReadReader.data) = Except.ok conf) ∧
    32 ≤ eofReadReader.data.length ∧
    eofReadReader.data.take 4 = [66, 76, 85, 66] ∧
    DecodeConfig eofReadReader = Except.error DecodeError.readHeader ∧
    Decode Z hsv eofReadReader = some (Except.error DecodeError.readHeader) :=
  ⟨by decide, by decide, rfl, rfl, ⟨_, rfl⟩, by decide, by decide, rfl, rfl⟩

/-! ## Theorems: decoding -/

theorem decodeAlpha_empty (conf : ImageConfig) (s : DecState) (h : s.alphaBufferCount = 0) :
    decodeAlpha conf [] s = none := by
  unfold decodeAlpha
  cases conf.Options.CompressAlphaMask <;> simp [h]

theorem decodePixel_empty (hsv : HueTransform) (conf : ImageConfig) (pix : List Nat)
    (s : DecState) (h : s.alphaBufferCount = 0) : decodePixel hsv conf pix [] s = none := by
  unfold decodePixel
  rw [decodeAlpha_empty conf s h]
  rfl

/-- The decoder aborts on an empty alpha buffer as soon as there is a pixel to decode:
the loop body reads `alpha[alphaIndex]` whether or not the image has an alpha mask. -/
theorem decodeImageData_empty_alpha (hsv : HueTransform) (conf : ImageConfig)
    (pix : List Nat) (hW : 0 < conf.Width) (hH : 0 < conf.Height) :
    decodeImageData hsv conf pix [] = none := by
  unfold decodeImageData
  obtain ⟨w, hw⟩ := Nat.exists_eq_succ_of_ne_zero (Nat.pos_iff_ne_zero.1 hW)
  obtain ⟨h, hh⟩ := Nat.exists_eq_succ_of_ne_zero (Nat.pos_iff_ne_zero.1 hH)
  simp only [hw, hh, loopN, Nat.succ_eq_add_one]
  rw [decodePixel_empty hsv conf pix _ rfl]
  rfl

/-- C1, evaluation at a failing input: a 1 x 1 raster whose pixel is opaque, encoded with
hue 0 and `UniformHue = false` (any value of the other three flags). `Encode` completes:
the header declares a 1 x 1 image with `alphaLength = 0` and `pixelLength = 1`, the payload
is the single luma byte 18. Decoding that output does not return a raster:
`decodeImageData` reads `alpha[0]` of the empty alpha buffer and the call aborts. -/
theorem round_trip_aborts_on_opaque_pixel (hsv : HueTransform)
    (useAlphaMask compress exclude : Bool) :
    ∃ r conf,
      Encode Zlib.identity opaquePixelRaster (grayOptions useAlphaMask compress exclude)
        = some r ∧
      r.err = none ∧ r.payload = [18] ∧
      processImageFormat
        (formatImage opaquePixelRaster (grayOptions useAlphaMask compress exclude))
        (grayOptions useAlphaMask compress exclude) = some ([18], []) ∧
      DecodeConfig (Reader.ofBytes r.written) = Except.ok conf ∧
      conf.Width = 1 ∧ conf.Height = 1 ∧ conf.alphaLength = 0 ∧ conf.pixelLength = 1 ∧
      decodeImageData hsv conf [18] [] = none ∧
      Decode Zlib.identity hsv (Reader.ofBytes r.written) = none := by
  refine ⟨{ written := buildHeader 1 1 (grayOptions useAlphaMask compress exclude) true 0 1
                ++ [18], payload := [18], err := none },
    { Options := { HueShift := 0, AlphaThreshold := 0, UseAlphaMask := false
                   CompressAlphaMask := compress, UniformHue := false
                   ExcludeMaskedPixels := exclude }
      Width := 1, Height := 1, alphaLength := 0, pixelLength := 1 },
    ?_, rfl, rfl, ?_, ?_, rfl, rfl, rfl, rfl, ?_, ?_⟩
  · cases useAlphaMask <;> cases compress <;> cases exclude <;> decide
  · cases useAlphaMask <;> cases compress <;> cases exclude <;> decide
  · cases useAlphaMask <;> cases compress <;> cases exclude <;> rfl
  · exact decodeImageData_empty_alpha hsv _ [18] Nat.one_pos Nat.one_pos
  · cases useAlphaMask <;> cases compress <;> cases exclude <;> rfl

/-! ## Theorems: where the code departs from the format contract -/

/-- C5, evaluation at a failing input: a 1 x 1 raster whose pixel is transparent, encoded
with `UseAlphaMask = false`. `processImageFormat` returns the alpha section `[0]` and the
pixel section `[18]`; the header records `alphaLength = 1` and `pixelLength = 1`, so
`DecodeConfig` derives `UseAlphaMask = true`; but the payload handed to the compressing
stream is the pixel byte alone, 1 byte instead of 2, and `Decode` fails on it with a short
read of the pixel section. -/
theorem header_alpha_length_without_alpha_section (hsv : HueTransform) :
    ∃ r conf,
      Encode Zlib.identity transparentPixelRaster (grayOptions false false false) = some r ∧
      r.err = none ∧
      processImageFormat
        (formatImage transparentPixelRaster (grayOptions false false false))
        (grayOptions false false false) = some ([18], [0]) ∧
      r.payload = [18] ∧
      DecodeConfig (Reader.ofBytes r.written) = Except.ok conf ∧
      conf.alphaLength = 1 ∧ conf.pixelLength = 1 ∧ conf.Options.UseAlphaMask = true ∧
      r.payload.length ≠ conf.alphaLength + conf.pixelLength ∧
      Decode Zlib.identity hsv (Reader.ofBytes r.written) = some (Except.error DecodeError.readPixelData) :=
  ⟨{ written := buildHeader 1 1 (grayOptions false false false) false 1 1 ++ [18]
     payload := [18], err := none },
   { Options := { HueShift := 0, AlphaThreshold := 0, UseAlphaMask := true
                  CompressAlphaMask := false, UniformHue := false
                  ExcludeMaskedPixels := false }
     Width := 1, Height := 1, alphaLength := 1, pixelLength := 1 },
   by decide, rfl, by decide, rfl, rfl, rfl, rfl, rfl, by decide, rfl⟩

/-- C6, evaluation at the failing inputs: for every configuration of an image with at
least one pixel (width `W + 1`, height `H + 1`), whatever its options (so with
`UseAlphaMask = false` and either value of `CompressAlphaMask`), and every pixel buffer,
`decodeImageData` on the empty alpha buffer does not complete: it reads `alpha[0]`. -/
theorem decode_without_alpha_mask_aborts (hsv : HueTransform) (o : ImageOptions)
    (W H : Nat) (pix : List Nat) :
    decodeImageData hsv
      { Options := o, Width := W + 1, Height := H + 1
        alphaLength := 0, pixelLength := pix.length } pix [] = none :=
  decodeImageData_empty_alpha hsv _ pix (Nat.succ_pos W) (Nat.succ_pos H)

/-- C8, evaluation at a failing input: a raster 65536 pixels wide. `Encode` returns the
size error, and the caller's stream holds what the compressing stream emits when it is
closed without any data: the deferred `zw.Close()` runs on this return path too. Nothing
was handed to the compressing stream and no header byte was written. -/
theorem oversize_closes_compressing_stream (Z : Zlib) (o : ImageOptions) :
    Encode Z wideRaster o = some
      { written := Z.stream [], payload := []
        err := some (EncodeError.imageTooLarge 65536 1) } := by
  simp [Encode, wideRaster]

/-- C9, evaluation at two failing inputs: on the stream `Encode` itself produces for a
single opaque pixel, and on a stream whose header declares 9 pixels and a bitmask of 1
byte, `Decode` accepts the header and reads both sections in full, and then returns neither
a raster nor an error: `decodeImageData` indexes the alpha buffer out of range. -/
theorem decode_aborts (hsv : HueTransform) :
    (∃ conf, DecodeConfig (Reader.ofBytes opaquePixelBytes) = Except.ok conf) ∧
    Encode Zlib.identity opaquePixelRaster (grayOptions false false false)
      = some { written := opaquePixelBytes, payload := [18], err := none } ∧
    Decode Zlib.identity hsv (Reader.ofBytes opaquePixelBytes) = none ∧
    (∃ conf, DecodeConfig (Reader.ofBytes shortMaskBytes) = Except.ok conf ∧
      conf.Width = 9 ∧ conf.Height = 1 ∧ conf.alphaLength = 1 ∧ conf.pixelLength = 9) ∧
    Decode Zlib.identity hsv (Reader.ofBytes shortMaskBytes) = none :=
  ⟨⟨_, rfl⟩, by decide, rfl, ⟨_, rfl, rfl, rfl, rfl, rfl⟩, rfl⟩

/-! ## Theorems: the luma formula -/

/-- Rounding a quotient `s / 1000` to a `float64` and then to the nearest integer gives
`(s + 500) / 1000`: the halves `k + 1/2` and the values `k + 511/1024` are `float64` values
and the rounding is monotone. -/
theorem mathRound_fl_div (fl : ℚ → ℚ) (hmono : Monotone fl)
    (hexact : ∀ m : Nat, m < 2 ^ 53 → fl ((m : ℚ) / 1024) = (m : ℚ) / 1024)
    (s : Nat) (hs : s ≤ 255000) :
    mathRound (fl ((s : ℚ) / ((1000 : Nat) : ℚ))) = (((s + 500) / 1000 : Nat) : ℤ) := by
  have hk1 : 1000 * ((s + 500) / 1000) ≤ s + 500 := Nat.mul_div_le _ _
  have hk2 : s + 500 < 1000 * ((s + 500) / 1000) + 1000 := by
    have := Nat.lt_mul_div_succ (s + 500) (by norm_num : 0 < 1000)
    omega
  generalize (s + 500) / 1000 = k at hk1 hk2
  have hp : (2 : Nat) ^ 53 = 9007199254740992 := by norm_num
  have hlo : ((1024 * k - 512 : Nat) : ℚ) / 1024 ≤ (s : ℚ) / ((1000 : Nat) : ℚ) := by
    have h : ((1024 * k - 512 : Nat) : ℚ) * 1000 ≤ (s : ℚ) * 1024 := by
      exact_mod_cast (by omega : (1024 * k - 512) * 1000 ≤ s * 1024)
    rw [Nat.cast_ofNat, div_le_div_iff₀ (by norm_num) (by norm_num)]
    exact h
  have hhi : (s : ℚ) / ((1000 : Nat) : ℚ) ≤ ((1024 * k + 511 : Nat) : ℚ) / 1024 := by
    have h : (s : ℚ) * 1024 ≤ ((1024 * k + 511 : Nat) : ℚ) * 1000 := by
      exact_mod_cast (by omega : s * 1024 ≤ (1024 * k + 511) * 1000)
    rw [Nat.cast_ofNat, div_le_div_iff₀ (by norm_num) (by norm_num)]
    exact h
  have h1 := hmono hlo
  have h2 := hmono hhi
  rw [hexact (1024 * k - 512) (by rw [hp]; omega)] at h1
  rw [hexact (1024 * k + 511) (by rw [hp]; omega)] at h2
  have hnn : (0 : ℚ) ≤ fl ((s : ℚ) / ((1000 : Nat) : ℚ)) :=
    le_trans (div_nonneg (Nat.cast_nonneg _) (by norm_num)) h1
  unfold mathRound
  rw [if_pos hnn, Int.floor_eq_iff]
  constructor
  · have : ((k : ℤ) : ℚ) - 1 / 2 ≤ ((1024 * k - 512 : Nat) : ℚ) / 1024 := by
      rw [le_div_iff₀ (by norm_num)]
      by_cases hk : 1 ≤ k
      · have e : ((1024 * k - 512 : Nat) : ℚ) = 1024 * (k : ℚ) - 512 := by
          rw [Nat.cast_sub (by omega)]; push_cast; ring
        rw [e]; push_cast; linarith
      · have hk0 : k = 0 := by omega
        subst hk0
        norm_num
    linarith
  · have : ((1024 * k + 511 : Nat) : ℚ) / 1024 < ((k : ℤ) : ℚ) + 1 / 2 := by
      rw [div_lt_iff₀ (by norm_num)]
      push_cast
      linarith
    linarith

theorem colorToGrayFloat_eq (fl : ℚ → ℚ) (hmono : Monotone fl)
    (hexact : ∀ m : Nat, m < 2 ^ 53 → fl ((m : ℚ) / 1024) = (m : ℚ) / 1024)
    (c : RGBA) (t : Nat) (hR : c.R ≤ 255) (hG : c.G ≤ 255) (hB : c.B ≤ 255) :
    colorToGrayFloat fl c t = colorToGray c t := by
  unfold colorToGrayFloat colorToGray
  simp only [rweight, gweight, bweight]
  have e : (299 + 587 + 114 : Nat) = 1000 := rfl
  rw [e, mathRound_fl_div fl hmono hexact _ (by omega), Int.toNat_ofNat]

/-- C11. Luma formula: for 8-bit `R`, `G`, `B` the luma `colorToGray` returns is
`(299 R + 587 G + 114 B + 500) / 1000` rounded down, both when the floating-point expression
of the source is evaluated (with a division that rounds monotonically and is exact on the
`float64` values `m / 1024`) and in the integer form used in this development; it is the
integer nearest to `(299 R + 587 G + 114 B) / 1000` with halves rounded up, it is at most
255, so the conversion to a byte does not wrap, and for a gray colour `R = G = B = v` it
is `v`. -/
theorem luma_formula (fl : ℚ → ℚ) (hmono : Monotone fl)
    (hexact : ∀ m : Nat, m < 2 ^ 53 → fl ((m : ℚ) / 1024) = (m : ℚ) / 1024)
    (c : RGBA) (t : Nat) (hR : c.R ≤ 255) (hG : c.G ≤ 255) (hB : c.B ≤ 255) :
    (colorToGrayFloat fl c t).1 = (299 * c.R + 587 * c.G + 114 * c.B + 500) / 1000 ∧
    (colorToGray c t).1 = (299 * c.R + 587 * c.G + 114 * c.B + 500) / 1000 ∧
    1000 * (colorToGray c t).1 ≤ 299 * c.R + 587 * c.G + 114 * c.B + 500 ∧
    299 * c.R + 587 * c.G + 114 * c.B < 1000 * (colorToGray c t).1 + 500 ∧
    (colorToGray c t).1 ≤ 255 ∧
    (c.R = c.G → c.G = c.B → (colorToGray c t).1 = c.R) := by
  have hf := colorToGrayFloat_eq fl hmono hexact c t hR hG hB
  have hi : (colorToGray c t).1 = (299 * c.R + 587 * c.G + 114 * c.B + 500) / 1000 := by
    simp only [colorToGray, rweight, gweight, bweight, Nat.reduceAdd]
    have e : c.R * 299 + c.G * 587 + c.B * 114 + 500
        = 299 * c.R + 587 * c.G + 114 * c.B + 500 := by omega
    have hlt : (299 * c.R + 587 * c.G + 114 * c.B + 500) / 1000 < 256 := by omega
    rw [e, Nat.mod_eq_of_lt hlt]
  refine ⟨by rw [hf, hi], hi, ?_, ?_, ?_, ?_⟩
  · rw [hi]; omega
  · rw [hi]; omega
  · rw [hi]; omega
  · intro h1 h2
    rw [hi]; omega

/-- C11 witness: with the exact division as rounding, the colour (10, 20, 30) has luma 18
and the gray colour (77, 77, 77) has luma 77. -/
theorem luma_formula_witness :
    Monotone (fun x : ℚ => x) ∧
    (∀ m : Nat, m < 2 ^ 53 → (fun x : ℚ => x) ((m : ℚ) / 1024) = (m : ℚ) / 1024) ∧
    (colorToGrayFloat (fun x => x) { R := 10, G := 20, B := 30, A := 255 } 0).1 = 18 ∧
    (colorToGray { R := 10, G := 20, B := 30, A := 255 } 0).1 = 18 ∧
    (colorToGray { R := 77, G := 77, B := 77, A := 255 } 0).1 = 77 :=
  ⟨fun _ _ h => h, fun _ _ => rfl,
   (luma_formula (fun x => x) (fun _ _ h => h) (fun _ _ => rfl)
     { R := 10, G := 20, B := 30, A := 255 } 0 (by decide) (by decide) (by decide)).1,
   (luma_formula (fun x => x) (fun _ _ h => h) (fun _ _ => rfl)
     { R := 10, G := 20, B := 30, A := 255 } 0 (by decide) (by decide) (by decide)).2.1,
   (luma_formula (fun x => x) (fun _ _ h => h) (fun _ _ => rfl)
     { R := 77, G := 77, B := 77, A := 255 } 0 (by decide) (by decide) (by decide)).2.2.2.2.2
     rfl rfl⟩

/-! ## Theorems: the pixel section of processImageFormat -/

theorem take_succ_set (l : List Nat) (i a : Nat) (h : i < l.length) :
    (l.set i a).take (i + 1) = l.take i ++ [a] := by
  rw [List.take_succ, List.getElem?_set_self h, List.set_take,
    List.set_eq_of_length_le (by simp)]
  rfl

theorem take_set_self (l : List Nat) (i a : Nat) :
    (l.set i a).take i = l.take i := by
  rw [List.set_take, List.set_eq_of_length_le (by simp)]

theorem store_eq {buf : List Nat} {i v : Nat} {b : List Nat} (h : store buf i v = some b) :
    i < buf.length ∧ b = buf.set i v := by
  unfold store at h
  split at h
  · cases h; exact ⟨‹_›, rfl⟩
  · cases h

theorem flushRun_eq {s t : EncState} (h : flushRun s = some t) :
    s.alphaIndex < s.alpha.length ∧
    t = { s with alpha := s.alpha.set s.alphaIndex (runRecord s.alphaLength s.currentAlpha)
                 alphaIndex := s.alphaIndex + 1 } := by
  unfold flushRun at h
  cases hs : store s.alpha s.alphaIndex (runRecord s.alphaLength s.currentAlpha) with
  | none => simp [hs] at h
  | some a =>
    simp only [hs, Option.map_some', Option.some.injEq] at h
    obtain ⟨h1, h2⟩ := store_eq hs
    subst h2
    exact ⟨h1, h.symm⟩

theorem stepPixel_eq {o : ImageOptions} {s t : EncState} {p : Nat} {av : Bool}
    (h : stepPixel o s p av = some t) :
    (included o av = true ∧ s.pixelIndex < s.pix.length ∧
      t = { s with pix := s.pix.set s.pixelIndex p, pixelIndex := s.pixelIndex + 1 }) ∨
    (included o av = false ∧ t = s) := by
  unfold stepPixel at h
  by_cases hi : included o av = true
  · have hi2 : (!o.UniformHue && (!o.ExcludeMaskedPixels || av)) = true := hi
    rw [if_pos hi2] at h
    cases hs : store s.pix s.pixelIndex p with
    | none => simp [hs] at h
    | some a =>
      simp only [hs, Option.map_some', Option.some.injEq] at h
      obtain ⟨h1, h2⟩ := store_eq hs
      subst h2
      exact Or.inl ⟨hi, h1, h.symm⟩
  · have hi2 : ¬ (!o.UniformHue && (!o.ExcludeMaskedPixels || av)) = true := hi
    rw [if_neg hi2] at h
    cases h
    exact Or.inr ⟨by simpa using hi, rfl⟩

theorem stepBitmask_pix {s t : EncState} {av : Bool} (h : stepBitmask s av = some t) :
    t.pix = s.pix ∧ t.pixelIndex = s.pixelIndex := by
  unfold stepBitmask at h
  simp only at h
  split at h
  · cases hs : store s.alpha s.alphaIndex
        (if av = true then (s.alphaByte ||| 128 >>> s.alphaMod) % 256 else s.alphaByte) with
    | none => simp [hs] at h
    | some a =>
      simp [hs] at h
      subst h
      exact ⟨rfl, rfl⟩
  · cases h; exact ⟨rfl, rfl⟩

theorem flushRun_pix {s t : EncState} (h : flushRun s = some t) :
    t.pix = s.pix ∧ t.pixelIndex = s.pixelIndex := by
  obtain ⟨_, rfl⟩ := flushRun_eq h
  exact ⟨rfl, rfl⟩

theorem stepRLE_pix {s t : EncState} {av : Bool} (h : stepRLE s av = some t) :
    t.pix = s.pix ∧ t.pixelIndex = s.pixelIndex := by
  unfold stepRLE at h
  split at h
  · cases h; exact ⟨rfl, rfl⟩
  · simp only at h
    have key : ∀ s1 : EncState, (s1.pix = s.pix ∧ s1.pixelIndex = s.pixelIndex) →
        (if (s1.alphaLength == 127) = true then
           (flushRun s1).map (fun u => { u with alphaLength := 0 }) else some s1) = some t →
        t.pix = s.pix ∧ t.pixelIndex = s.pixelIndex := by
      intro s1 h1 h2
      split at h2
      · cases hf : flushRun s1 with
        | none => simp [hf] at h2
        | some u =>
          simp [hf] at h2
          subst h2
          obtain ⟨e1, e2⟩ := flushRun_pix hf
          exact ⟨e1.trans h1.1, e2.trans h1.2⟩
      · cases h2; exact h1
    split at h
    · cases hf : flushRun s with
      | none => simp [hf] at h
      | some u =>
        simp only [hf, Option.map_some', Option.some_bind] at h
        obtain ⟨e1, e2⟩ := flushRun_pix hf
        exact key { u with alphaLength := 1, currentAlpha := av } ⟨e1, e2⟩ h
    · simp only [Option.some_bind] at h
      exact key { s with alphaLength := s.alphaLength + 1 } ⟨rfl, rfl⟩ h

theorem encodeStep_pix {o : ImageOptions} {s t : EncState} {p : Nat} {av : Bool}
    (h : encodeStep o s p av = some t) :
    t.pix.take t.pixelIndex
      = s.pix.take s.pixelIndex ++ (if included o av then [p] else []) := by
  unfold encodeStep at h
  cases hp : stepPixel o s p av with
  | none => simp [hp] at h
  | some u =>
    simp only [hp, Option.some_bind] at h
    have hu : t.pix = u.pix ∧ t.pixelIndex = u.pixelIndex := by
      split at h
      · exact stepBitmask_pix h
      · exact stepRLE_pix h
    rw [hu.1, hu.2]
    rcases stepPixel_eq hp with ⟨hi, hlt, rfl⟩ | ⟨hi, rfl⟩
    · simp only [hi, if_true]
      exact take_succ_set _ _ _ hlt
    · simp [hi]

theorem encodeLoop_pix (o : ImageOptions) (ps : List Nat) (avs : List Bool)
    (s t : EncState) (h : encodeLoop o ps avs s = some t) :
    t.pix.take t.pixelIndex = s.pix.take s.pixelIndex ++ includedLuma o ps avs := by
  induction ps generalizing avs s with
  | nil =>
    simp [encodeLoop] at h
    subst h
    simp [includedLuma]
  | cons p ps ih =>
    cases avs with
    | nil => simp [encodeLoop] at h
    | cons av avs =>
      simp only [encodeLoop] at h
      cases hs : encodeStep o s p av with
      | none => simp [hs] at h
      | some u =>
        simp only [hs, Option.some_bind] at h
        rw [ih avs u h, encodeStep_pix hs]
        cases hi : included o av <;> simp [includedLuma, hi]

theorem encodeFinish_pix {s t : EncState} (h : encodeFinish s = some t) :
    t.pix = s.pix ∧ t.pixelIndex = s.pixelIndex := by
  unfold encodeFinish at h
  simp only at h
  have key : ∀ s1 : EncState, (s1.pix = s.pix ∧ s1.pixelIndex = s.pixelIndex) →
      (if s1.alphaLength > 0 then flushRun s1 else some s1) = some t →
      t.pix = s.pix ∧ t.pixelIndex = s.pixelIndex := by
    intro s1 h1 h2
    split at h2
    · obtain ⟨e1, e2⟩ := flushRun_pix h2
      exact ⟨e1.trans h1.1, e2.trans h1.2⟩
    · cases h2; exact h1
  split at h
  · cases hs : store s.alpha s.alphaIndex s.alphaByte with
    | none => simp [hs] at h
    | some a =>
      simp only [hs, Option.map_some', Option.some_bind] at h
      exact key { s with alpha := a, alphaIndex := s.alphaIndex + 1 } ⟨rfl, rfl⟩ h
  · simp only [Option.some_bind] at h
    exact key s ⟨rfl, rfl⟩ h

/-- The parts of a completed run of `processImageFormat` on an image that is not opaque. -/
theorem processImageFormat_parts {f : imageformat} {o : ImageOptions}
    {pixd alphad : List Nat} (hO : f.Opaque = false)
    (h : processImageFormat f o = some (pixd, alphad)) :
    ∃ s t, encodeLoop o f.PixelData f.AlphaMask
        { alpha := List.replicate ((f.AlphaMask.length + 7) / 8) 0
          pix := List.replicate f.PixelData.length 0
          alphaIndex := 0, alphaMod := 0, alphaByte := 0
          currentAlpha := false, alphaLength := 0, pixelIndex := 0 } = some s ∧
      encodeFinish s = some t ∧
      pixd = t.pix.take t.pixelIndex ∧ alphad = t.alpha.take t.alphaIndex := by
  unfold processImageFormat at h
  simp only [hO, Bool.false_eq_true, if_false, Option.map_eq_some', Option.bind_eq_some] at h
  obtain ⟨t, ⟨s, hs, ht⟩, hres⟩ := h
  cases hres
  exact ⟨s, t, hs, ht, rfl, rfl⟩

/-- The pixel section `processImageFormat` returns for an image that is not opaque. -/
theorem processImageFormat_pix {f : imageformat} {o : ImageOptions}
    {pixd alphad : List Nat} (hO : f.Opaque = false)
    (h : processImageFormat f o = some (pixd, alphad)) :
    pixd = includedLuma o f.PixelData f.AlphaMask := by
  obtain ⟨s, t, hs, ht, hp, _⟩ := processImageFormat_parts hO h
  obtain ⟨e1, e2⟩ := encodeFinish_pix ht
  rw [hp, e1, e2, encodeLoop_pix o _ _ _ _ hs]
  simp

/-! ## Theorems: the pixel section that Encode writes -/

theorem includedLuma_map (o : ImageOptions) (gp : List (Nat × Bool)) :
    includedLuma o (gp.map Prod.fst) (gp.map Prod.snd)
      = (gp.filter (fun q => included o q.2)).map Prod.fst := by
  induction gp with
  | nil => simp [includedLuma]
  | cons q gp ih =>
    simp only [List.map_cons, includedLuma, ih, List.filter_cons]
    cases hi : included o q.2 <;> simp

theorem filter_included_of_all (o : ImageOptions) (hU : o.UniformHue = false)
    (gp : List (Nat × Bool)) (hall : gp.all Prod.snd = true) :
    gp.filter (fun q => included o q.2) = gp := by
  rw [List.filter_eq_self]
  intro q hq
  have := List.all_eq_true.1 hall q hq
  simp [included, hU, this]

theorem filter_included_uniform (o : ImageOptions) (hU : o.UniformHue = true)
    (gp : List (Nat × Bool)) :
    gp.filter (fun q => included o q.2) = [] := by
  rw [List.filter_eq_nil_iff]
  intro q _
  simp [included, hU]

/-- The pixel section that `Encode` hands to the compressing stream. -/
theorem Encode_pixel_section (img : Raster) (o : ImageOptions) (pixd alphad : List Nat)
    (hp : processImageFormat (formatImage img o) o = some (pixd, alphad)) :
    (if o.UniformHue then [] else pixd)
      = ((grayPixels img o).filter (fun q => included o q.2)).map Prod.fst := by
  cases hU : o.UniformHue
  · simp only [Bool.false_eq_true, if_false]
    cases hO : (formatImage img o).Opaque
    · rw [processImageFormat_pix hO hp, formatImage_eq]
      exact includedLuma_map o _
    · rw [processImageFormat_all_opaque_image o hO] at hp
      cases hp
      have hall : (grayPixels img o).all Prod.snd = true := by
        rw [formatImage_eq] at hO; exact hO
      rw [filter_included_of_all o hU _ hall, formatImage_eq]
  · simp [filter_included_uniform o hU]

/-- C15. Pixel inclusion rule: for a raster of width and height at most 65535 and any
options, every call of `Encode` that completes hands to the compressing stream, after the
alpha section (when `UseAlphaMask` is set), exactly the luma bytes, in row-major order, of
the pixels for which `not UniformHue and (not ExcludeMaskedPixels or opaque)` holds, and
the header it writes records the length of that pixel section as pixelLength; with
`UniformHue` set no pixel byte is written and pixelLength is 0. With the bitmask encoding
of the alpha mask `Encode` always completes. -/
theorem pixel_inclusion_rule (Z : Zlib) (img : Raster) (o : ImageOptions)
    (hW : img.Dx ≤ 65535) (hH : img.Dy ≤ 65535) :
    (∀ r, Encode Z img o = some r → ∃ pixd alphad conf,
      processImageFormat (formatImage img o) o = some (pixd, alphad) ∧
      r.payload = (if o.UseAlphaMask then alphad else [])
        ++ ((grayPixels img o).filter (fun q => included o q.2)).map Prod.fst ∧
      DecodeConfig (Reader.ofBytes r.written) = Except.ok conf ∧
      conf.pixelLength
        = (((grayPixels img o).filter (fun q => included o q.2)).map Prod.fst).length ∧
      (o.UniformHue = true →
        ((grayPixels img o).filter (fun q => included o q.2)).map Prod.fst = [] ∧
        conf.pixelLength = 0)) ∧
    (o.CompressAlphaMask = false → ∃ r, Encode Z img o = some r) := by
  refine ⟨?_, Encode_bitmask_completes Z img o hW hH⟩
  intro r hr
  obtain ⟨pixd, alphad, hp, hpay, hw, _⟩ := Encode_of_some Z img o hW hH r hr
  obtain ⟨h1, _⟩ := section_lengths_lt img o hW hH pixd alphad hp
  have hsec := Encode_pixel_section img o pixd alphad hp
  have hlen : headerPixelLength o pixd.length
      = (((grayPixels img o).filter (fun q => included o q.2)).map Prod.fst).length := by
    rw [← hsec]
    unfold headerPixelLength
    cases o.UniformHue
    · simp only [Bool.false_eq_true, if_false]
      exact Nat.mod_eq_of_lt h1
    · simp
  obtain ⟨conf, hc, hcl⟩ : ∃ conf, DecodeConfig (Reader.ofBytes r.written) = Except.ok conf ∧
      conf.pixelLength = headerPixelLength o pixd.length :=
    ⟨_, by rw [hw]; exact DecodeConfig_buildHeader img.Dx img.Dy o _ _ _ _ hW hH, rfl⟩
  refine ⟨pixd, alphad, conf, hp, ?_, hc, hcl.trans hlen, ?_⟩
  · rw [hpay, hsec]
  · intro hU
    have := filter_included_uniform o hU (grayPixels img o)
    refine ⟨by rw [this]; rfl, ?_⟩
    rw [hcl]
    simp [headerPixelLength, hU]

/-- C15 witness: the two-pixel raster with `ExcludeMaskedPixels` set: the payload is the
bitmask byte 128 followed by the luma 18 of the opaque pixel alone. -/
theorem pixel_inclusion_rule_witness :
    twoPixelRaster.Dx ≤ 65535 ∧ twoPixelRaster.Dy ≤ 65535 ∧
    (∃ r pixd alphad conf,
      Encode Zlib.identity twoPixelRaster bitmaskOptions = some r ∧
      processImageFormat (formatImage twoPixelRaster bitmaskOptions) bitmaskOptions
        = some (pixd, alphad) ∧
      r.payload = (if bitmaskOptions.UseAlphaMask then alphad else [])
        ++ ((grayPixels twoPixelRaster bitmaskOptions).filter
              (fun q => included bitmaskOptions q.2)).map Prod.fst ∧
      DecodeConfig (Reader.ofBytes r.written) = Except.ok conf ∧
      conf.pixelLength = (((grayPixels twoPixelRaster bitmaskOptions).filter
              (fun q => included bitmaskOptions q.2)).map Prod.fst).length) ∧
    ((grayPixels twoPixelRaster bitmaskOptions).filter
      (fun q => included bitmaskOptions q.2)).map Prod.fst = [18] :=
  ⟨by decide, by decide,
   (let ⟨pixd, alphad, conf, hp, hpay, hc, hl, _⟩ :=
      (pixel_inclusion_rule Zlib.identity twoPixelRaster bitmaskOptions
        (by decide) (by decide)).1 _ twoPixel_encode
    ⟨_, pixd, alphad, conf, twoPixel_encode, hp, hpay, hc, hl⟩),
   by decide⟩

/-! ## Theorems: the run-length encoding of the alpha mask -/

theorem runLength_eq_mod (ar : Nat) : runLength ar = ar % 128 :=
  Nat.and_pow_two_sub_one_eq_mod ar 7

set_option maxRecDepth 100000 in
theorem runRecord_spec : ∀ len : Nat, len < 128 → ∀ cur : Bool,
    runLength (runRecord len cur) = len ∧ runOpacity (runRecord len cur) = cur ∧
    runRecord len cur < 256 := by
  decide

theorem rleExpand_append (l1 l2 : List Nat) :
    rleExpand (l1 ++ l2) = rleExpand l1 ++ rleExpand l2 := by
  simp [rleExpand]

theorem rleExpand_singleton (ar : Nat) :
    rleExpand [ar] = List.replicate (runLength ar) (runOpacity ar) := by
  simp [rleExpand]

theorem rleExpand_length (l : List Nat) :
    (rleExpand l).length = (l.map runLength).sum := by
  induction l with
  | nil => rfl
  | cons a l ih =>
    have : rleExpand (a :: l) = List.replicate (runLength a) (runOpacity a) ++ rleExpand l := by
      simp [rleExpand]
    rw [this, List.length_append, ih]
    simp

theorem stepPixel_alpha {o : ImageOptions} {s t : EncState} {p : Nat} {av : Bool}
    (h : stepPixel o s p av = some t) :
    t.alpha = s.alpha ∧ t.alphaIndex = s.alphaIndex ∧ t.alphaMod = s.alphaMod ∧
    t.alphaByte = s.alphaByte ∧ t.currentAlpha = s.currentAlpha ∧
    t.alphaLength = s.alphaLength := by
  rcases stepPixel_eq h with ⟨_, _, rfl⟩ | ⟨_, rfl⟩ <;> exact ⟨rfl, rfl, rfl, rfl, rfl, rfl⟩

theorem RleInv_of_alpha {done : List Bool} {s t : EncState} (h : RleInv done s)
    (e : t.alpha = s.alpha ∧ t.alphaIndex = s.alphaIndex ∧ t.alphaMod = s.alphaMod ∧
      t.alphaByte = s.alphaByte ∧ t.currentAlpha = s.currentAlpha ∧
      t.alphaLength = s.alphaLength) : RleInv done t := by
  obtain ⟨e1, e2, e3, _, e5, e6⟩ := e
  unfold RleInv
  rw [e1, e2, e3, e5, e6]
  exact h

/-- Flushing a run of length 1 to 127 appends its record to the stored records. -/
theorem RleInv_flush {done : List Bool} {s u : EncState} (h : RleInv done s)
    (hlen : 1 ≤ s.alphaLength) (hf : flushRun s = some u) :
    rleExpand (u.alpha.take u.alphaIndex) = done ∧
    (∀ b ∈ u.alpha.take u.alphaIndex, 1 ≤ runLength b ∧ runLength b ≤ 127 ∧ b < 256) ∧
    u.alphaMod = 0 := by
  obtain ⟨h1, h2, h3, h4⟩ := h
  obtain ⟨hlt, rfl⟩ := flushRun_eq hf
  obtain ⟨r1, r2, r3⟩ := runRecord_spec s.alphaLength (by omega) s.currentAlpha
  simp only
  rw [take_succ_set _ _ _ hlt]
  refine ⟨?_, ?_, h4⟩
  · rw [rleExpand_append, rleExpand_singleton, r1, r2]
    exact h1
  · intro b hb
    rcases List.mem_append.1 hb with hb | hb
    · exact h2 b hb
    · rw [List.mem_singleton] at hb
      subst hb
      rw [r1]
      exact ⟨hlen, by omega, r3⟩

theorem stepRLE_inv {done : List Bool} {s t : EncState} {av : Bool}
    (h : RleInv done s) (hs : stepRLE s av = some t) : RleInv (done ++ [av]) t := by
  have hinv := h
  obtain ⟨h1, h2, h3, h4⟩ := h
  unfold stepRLE at hs
  by_cases h0 : s.alphaLength = 0
  · simp only [h0, beq_self_eq_true, if_true, Option.some.injEq] at hs
    subst hs
    refine ⟨?_, h2, by simp, h4⟩
    simp only [h0, List.replicate_zero, List.append_nil] at h1
    simp [h1]
  · have hb0 : (s.alphaLength == 0) = false := by simpa using h0
    simp only [hb0, Bool.false_eq_true, if_false] at hs
    by_cases hc : s.currentAlpha = av
    · have hne : (s.currentAlpha != av) = false := by simp [hc]
      simp only [hne, Bool.false_eq_true, if_false, Option.some_bind] at hs
      by_cases h127 : s.alphaLength + 1 = 127
      · have hb : (s.alphaLength + 1 == 127) = true := by simpa using h127
        simp only [hb, if_true] at hs
        cases hf : flushRun { s with alphaLength := s.alphaLength + 1 } with
        | none => simp [hf] at hs
        | some u =>
          simp only [hf, Option.map_some', Option.some.injEq] at hs
          subst hs
          obtain ⟨hlt, rfl⟩ := flushRun_eq hf
          obtain ⟨r1, r2, r3⟩ := runRecord_spec (s.alphaLength + 1) (by omega) s.currentAlpha
          simp only at hlt
          refine ⟨?_, ?_, by simp, h4⟩
          · simp only [List.replicate_zero, List.append_nil]
            rw [take_succ_set _ _ _ hlt, rleExpand_append, rleExpand_singleton, r1, r2,
              List.replicate_succ', ← List.append_assoc, h1, hc]
          · intro b hb
            simp only at hb
            rw [take_succ_set _ _ _ hlt] at hb
            rcases List.mem_append.1 hb with hb | hb
            · exact h2 b hb
            · rw [List.mem_singleton] at hb
              subst hb
              rw [r1]
              exact ⟨by omega, by omega, r3⟩
      · have hb : (s.alphaLength + 1 == 127) = false := by simpa using h127
        simp only [hb, Bool.false_eq_true, if_false, Option.some.injEq] at hs
        subst hs
        refine ⟨?_, h2, by simp only; omega, h4⟩
        simp only
        rw [List.replicate_succ', ← List.append_assoc, h1, hc]
    · have hne : (s.currentAlpha != av) = true := by simpa using hc
      simp only [hne, if_true] at hs
      cases hf : flushRun s with
      | none => simp [hf] at hs
      | some u =>
        simp only [hf, Option.map_some', Option.some_bind] at hs
        have hb : ((1 : Nat) == 127) = false := by decide
        simp only [hb, Bool.false_eq_true, if_false, Option.some.injEq] at hs
        subst hs
        obtain ⟨f1, f2, f3⟩ := RleInv_flush hinv (by omega) hf
        refine ⟨?_, f2, by simp, f3⟩
        simp only
        rw [f1]
        rfl

theorem encodeStep_rle {o : ImageOptions} (hc : o.CompressAlphaMask = true)
    {done : List Bool} {s t : EncState} {p : Nat} {av : Bool}
    (h : RleInv done s) (hs : encodeStep o s p av = some t) : RleInv (done ++ [av]) t := by
  unfold encodeStep at hs
  cases hp : stepPixel o s p av with
  | none => simp [hp] at hs
  | some u =>
    simp only [hp, Option.some_bind, hc, Bool.not_true, Bool.false_eq_true, if_false] at hs
    exact stepRLE_inv (RleInv_of_alpha h (stepPixel_alpha hp)) hs

theorem encodeLoop_rle {o : ImageOptions} (hc : o.CompressAlphaMask = true)
    (ps : List Nat) (avs : List Bool) (hlen : ps.length = avs.length)
    (done : List Bool) (s t : EncState)
    (h : RleInv done s) (hs : encodeLoop o ps avs s = some t) : RleInv (done ++ avs) t := by
  induction ps generalizing avs done s with
  | nil =>
    cases avs with
    | nil => simp [encodeLoop] at hs; subst hs; simpa using h
    | cons av avs => simp at hlen
  | cons p ps ih =>
    cases avs with
    | nil => simp at hlen
    | cons av avs =>
      simp only [encodeLoop] at hs
      cases hu : encodeStep o s p av with
      | none => simp [hu] at hs
      | some u =>
        simp only [hu, Option.some_bind] at hs
        have := ih avs (by simpa using hlen) (done ++ [av]) u (encodeStep_rle hc h hu) hs
        simpa using this

theorem encodeFinish_rle {done : List Bool} {s t : EncState}
    (h : RleInv done s) (hs : encodeFinish s = some t) :
    rleExpand (t.alpha.take t.alphaIndex) = done ∧
    (∀ b ∈ t.alpha.take t.alphaIndex, 1 ≤ runLength b ∧ runLength b ≤ 127 ∧ b < 256) := by
  have hinv := h
  obtain ⟨h1, h2, h3, h4⟩ := h
  unfold encodeFinish at hs
  have hm : ¬ s.alphaMod > 0 := by omega
  simp only [hm, if_false, Option.some_bind] at hs
  by_cases h0 : s.alphaLength > 0
  · simp only [h0, if_true] at hs
    obtain ⟨f1, f2, _⟩ := RleInv_flush hinv h0 hs
    exact ⟨f1, f2⟩
  · simp only [h0, if_false, Option.some.injEq] at hs
    subst hs
    have : s.alphaLength = 0 := by omega
    simp only [this, List.replicate_zero, List.append_nil] at h1
    exact ⟨h1, h2⟩

/-- The alpha section `processImageFormat` returns with the run-length encoding, when it
completes on an image that is not opaque: the records expand to the opacity sequence and
every run length is between 1 and 127. -/
theorem processImageFormat_rle {f : imageformat} {o : ImageOptions}
    {pixd alphad : List Nat} (hO : f.Opaque = false) (hc : o.CompressAlphaMask = true)
    (hlen : f.PixelData.length = f.AlphaMask.length)
    (h : processImageFormat f o = some (pixd, alphad)) :
    rleExpand alphad = f.AlphaMask ∧
    (∀ b ∈ alphad, 1 ≤ runLength b ∧ runLength b ≤ 127 ∧ b < 256) := by
  obtain ⟨s, t, hs, ht, _, ha⟩ := processImageFormat_parts hO h
  have h0 : RleInv []
      { alpha := List.replicate ((f.AlphaMask.length + 7) / 8) 0
        pix := List.replicate f.PixelData.length 0
        alphaIndex := 0, alphaMod := 0, alphaByte := 0
        currentAlpha := false, alphaLength := 0, pixelIndex := 0 } := by
    refine ⟨by simp [rleExpand], by simp, by simp, rfl⟩
  have h1 := encodeLoop_rle hc _ _ hlen [] _ _ h0 hs
  rw [List.nil_append] at h1
  rw [ha]
  exact encodeFinish_rle h1 ht

/-! ## Theorems: run records: validity, run boundary and the size of the buffer -/

/-- C14. RLE record validity, for an image that is not opaque: when `processImageFormat`
completes with `CompressAlphaMask` set on an opacity sequence that has a transparent pixel
(so that `Opaque` is false), every byte of the alpha section it returns has a run length,
its low 7 bits, between 1 and 127 and never 0, and the run lengths of all records sum to
the number of pixels. -/
theorem rle_record_validity (f : imageformat) (o : ImageOptions) (pixd alphad : List Nat)
    (hO : f.Opaque = false) (hc : o.CompressAlphaMask = true)
    (hlen : f.PixelData.length = f.AlphaMask.length)
    (h : processImageFormat f o = some (pixd, alphad)) :
    (∀ b ∈ alphad, 1 ≤ b % 128 ∧ b % 128 ≤ 127 ∧ b % 128 ≠ 0) ∧
    (alphad.map (fun b => b % 128)).sum = f.AlphaMask.length := by
  obtain ⟨h1, h2⟩ := processImageFormat_rle hO hc hlen h
  constructor
  · intro b hb
    obtain ⟨a1, a2, _⟩ := h2 b hb
    rw [runLength_eq_mod] at a1 a2
    exact ⟨a1, a2, by omega⟩
  · have e : (fun b => b % 128) = runLength := by
      funext b; exact (runLength_eq_mod b).symm
    rw [e, ← rleExpand_length, h1]

/-- C14 counterexample: the claim as stated, for every opacity sequence, fails on the
image of a single opaque pixel. `processImageFormat` completes with `CompressAlphaMask`
set and returns the empty alpha section, whose run lengths sum to 0, while the image has 1
pixel. -/
theorem rle_sum_fails_on_opaque_image :
    testOptions.CompressAlphaMask = true ∧
    (formatImage opaquePixelRaster testOptions).AlphaMask = [true] ∧
    processImageFormat (formatImage opaquePixelRaster testOptions) testOptions
      = some ([18], []) ∧
    (([] : List Nat).map (fun b => b % 128)).sum
      ≠ (formatImage opaquePixelRaster testOptions).AlphaMask.length := by
  decide

/-- C14 witness: two opaque pixels followed by seven transparent ones give the records 130
(opaque, run length 2) and 7 (transparent, run length 7), whose run lengths sum to 9. -/
theorem rle_record_validity_witness :
    processImageFormat
      { AlphaMask := [true, true, false, false, false, false, false, false, false]
        PixelData := [1, 2, 3, 4, 5, 6, 7, 8, 9], Opaque := false } rleOptions
      = some ([1, 2, 3, 4, 5, 6, 7, 8, 9], [130, 7]) ∧
    (∀ b ∈ [130, 7], 1 ≤ b % 128 ∧ b % 128 ≤ 127 ∧ b % 128 ≠ 0) ∧
    (([130, 7] : List Nat).map (fun b => b % 128)).sum = 9 :=
  have h : processImageFormat
      { AlphaMask := [true, true, false, false, false, false, false, false, false]
        PixelData := [1, 2, 3, 4, 5, 6, 7, 8, 9], Opaque := false } rleOptions
      = some ([1, 2, 3, 4, 5, 6, 7, 8, 9], [130, 7]) := by decide
  ⟨h, rle_record_validity _ rleOptions _ _ rfl rfl rfl h⟩

/-- C18, evaluation at a failing input: the 2 x 1 raster of an opaque pixel followed by a
transparent one, with `CompressAlphaMask` set. The alpha buffer is allocated with
`(2 + 7) / 8 = 1` byte; the first record is stored at index 0 when the opacity changes, and
the record of the last run is stored at index 1, out of range: `processImageFormat` and
`Encode` abort. -/
theorem rle_buffer_overflow (Z : Zlib) :
    formatImage twoPixelRaster rleOptions
      = { AlphaMask := [true, false], PixelData := [18, 124], Opaque := false } ∧
    processImageFormat (formatImage twoPixelRaster rleOptions) rleOptions = none ∧
    Encode Z twoPixelRaster rleOptions = none := by
  refine ⟨by decide, by decide, ?_⟩
  have h : processImageFormat (formatImage twoPixelRaster rleOptions) rleOptions = none := by
    decide
  unfold Encode
  simp only [h]
  rfl

theorem runRecord_false (len : Nat) (h : len < 256) : runRecord len false = len := by
  simp [runRecord, Nat.mod_eq_of_lt h]

theorem encodeStep_transparent (o : ImageOptions) (hc : o.CompressAlphaMask = true)
    (n k : Nat) (hk : k < n) (s : EncState) (p : Nat) (hs : TransparentInv n k s) :
    ∃ t, encodeStep o s p false = some t ∧ TransparentInv n (k + 1) t := by
  obtain ⟨hal, hpl, hpi, hai, hrl, hcur, ham, htk⟩ := hs
  have hpix : ∃ u, stepPixel o s p false = some u ∧ u.alpha = s.alpha ∧ u.pix.length = n ∧
      u.alphaIndex = s.alphaIndex ∧ u.alphaMod = s.alphaMod ∧ u.pixelIndex ≤ k + 1 ∧
      u.alphaLength = s.alphaLength ∧ u.currentAlpha = s.currentAlpha := by
    unfold stepPixel
    split
    · rw [store_some _ _ _ (by omega)]
      exact ⟨_, rfl, rfl, by simp [hpl], rfl, rfl, by simp; omega, rfl, rfl⟩
    · exact ⟨_, rfl, rfl, hpl, rfl, rfl, by omega, rfl, rfl⟩
  obtain ⟨u, hu, ua, upl, uai, uam, upi, url, ucur⟩ := hpix
  unfold encodeStep
  simp only [hu, Option.some_bind, hc, Bool.not_true, Bool.false_eq_true, if_false]
  unfold stepRLE
  by_cases h0 : u.alphaLength = 0
  · simp only [h0, beq_self_eq_true, if_true]
    refine ⟨_, rfl, ?_, upl, upi, ?_, ?_, rfl, ?_, ?_⟩
    · simp [ua, hal]
    · simp only [uai, hai]; omega
    · simp only; omega
    · simp [uam, ham]
    · simp only [ua, uai]
      rw [htk]
      congr 1
      omega
  · have hb0 : (u.alphaLength == 0) = false := by simpa using h0
    have hne : (u.currentAlpha != false) = false := by simp [ucur, hcur]
    simp only [hb0, Bool.false_eq_true, if_false, hne, Option.some_bind]
    by_cases h127 : u.alphaLength + 1 = 127
    · have hb : (u.alphaLength + 1 == 127) = true := by simpa using h127
      simp only [hb, if_true]
      unfold flushRun
      simp only
      rw [store_some _ _ _ (by rw [ua, hal, uai, hai]; omega)]
      simp only [Option.map_some']
      refine ⟨_, rfl, ?_, upl, upi, ?_, ?_, ?_, ?_, ?_⟩
      · simp [ua, hal]
      · simp only [uai, hai]; omega
      · simp only; omega
      · simp only [ucur, hcur]
      · simp [uam, ham]
      · simp only
        rw [take_succ_set _ _ _ (by rw [ua, hal, uai, hai]; omega), ua, uai, htk, h127,
          ucur, hcur, runRecord_false 127 (by norm_num)]
        have e : (k + 1) / 127 = k / 127 + 1 := by omega
        rw [e, List.replicate_succ']
    · have hb : (u.alphaLength + 1 == 127) = false := by simpa using h127
      simp only [hb, Bool.false_eq_true, if_false]
      refine ⟨_, rfl, ?_, upl, upi, ?_, ?_, ?_, ?_, ?_⟩
      · simp [ua, hal]
      · simp only [uai, hai]; omega
      · simp only; omega
      · simp only [ucur, hcur]
      · simp [uam, ham]
      · simp only [ua, uai]
        rw [htk]
        congr 1
        omega

theorem encodeLoop_transparent (o : ImageOptions) (hc : o.CompressAlphaMask = true) (n : Nat)
    (ps : List Nat) (k : Nat) (hk : k + ps.length = n) (s : EncState)
    (hs : TransparentInv n k s) :
    ∃ t, encodeLoop o ps (List.replicate ps.length false) s = some t ∧
      TransparentInv n n t := by
  induction ps generalizing k s with
  | nil =>
    simp only [List.length_nil, Nat.add_zero] at hk
    subst hk
    exact ⟨s, by simp [encodeLoop], hs⟩
  | cons p ps ih =>
    simp only [List.length_cons] at hk
    obtain ⟨t, ht, hinv⟩ := encodeStep_transparent o hc n k (by omega) s p hs
    obtain ⟨u, hu, huinv⟩ := ih (k + 1) (by omega) t hinv
    refine ⟨u, ?_, huinv⟩
    simp only [List.length_cons, List.replicate_succ, encodeLoop, ht, Option.some_bind, hu]

theorem encodeFinish_transparent (n : Nat) (hn : 1 ≤ n) (s : EncState)
    (hs : TransparentInv n n s) :
    ∃ t, encodeFinish s = some t ∧
      t.alpha.take t.alphaIndex
        = List.replicate (n / 127) 127 ++ (if n % 127 = 0 then [] else [n % 127]) := by
  obtain ⟨hal, _, _, hai, hrl, hcur, ham, htk⟩ := hs
  unfold encodeFinish
  have hm : ¬ s.alphaMod > 0 := by omega
  simp only [hm, if_false, Option.some_bind]
  by_cases h0 : n % 127 = 0
  · have : ¬ s.alphaLength > 0 := by omega
    simp only [this, if_false, h0, if_true, List.append_nil]
    exact ⟨s, rfl, htk⟩
  · have : s.alphaLength > 0 := by omega
    simp only [this, if_true, h0, if_false]
    unfold flushRun
    rw [store_some _ _ _ (by rw [hal, hai]; omega)]
    simp only [Option.map_some']
    refine ⟨_, rfl, ?_⟩
    simp only
    rw [take_succ_set _ _ _ (by rw [hal, hai]; omega), htk, hrl, hcur,
      runRecord_false _ (by omega)]

/-- C13. RLE run boundary: an image of `n >= 1` pixels that are all transparent is encoded
with `CompressAlphaMask` set, without abort, to `n / 127` records of run length 127
followed, when `n mod 127` is not 0, by one record of run length `n mod 127`; every record
is below 128, so its opacity bit is 0 and its low 7 bits are the record itself. -/
theorem rle_run_boundary (f : imageformat) (o : ImageOptions) (n : Nat) (hn : 1 ≤ n)
    (hmask : f.AlphaMask = List.replicate n false) (hpix : f.PixelData.length = n)
    (hO : f.Opaque = false) (hc : o.CompressAlphaMask = true) :
    ∃ pixd, processImageFormat f o = some
        (pixd, List.replicate (n / 127) 127 ++ (if n % 127 = 0 then [] else [n % 127])) ∧
      ∀ b ∈ List.replicate (n / 127) 127 ++ (if n % 127 = 0 then [] else [n % 127]),
        b < 128 ∧ b.testBit 7 = false ∧ b % 128 = b ∧ 1 ≤ b := by
  have h0 : TransparentInv n 0
      { alpha := List.replicate ((f.AlphaMask.length + 7) / 8) 0
        pix := List.replicate f.PixelData.length 0
        alphaIndex := 0, alphaMod := 0, alphaByte := 0
        currentAlpha := false, alphaLength := 0, pixelIndex := 0 } := by
    refine ⟨by simp [hmask], by simp [hpix], Nat.le_refl _, rfl, rfl, rfl, rfl, by simp⟩
  obtain ⟨s, hs, hinv⟩ := encodeLoop_transparent o hc n f.PixelData 0 (by omega) _ h0
  obtain ⟨t, ht, hres⟩ := encodeFinish_transparent n hn s hinv
  have e : f.AlphaMask = List.replicate f.PixelData.length false := by rw [hmask, hpix]
  rw [← e] at hs
  refine ⟨t.pix.take t.pixelIndex, ?_, ?_⟩
  · unfold processImageFormat
    simp only [hO, Bool.false_eq_true, if_false, hs, Option.some_bind, ht, Option.map_some',
      hres]
  · intro b hb
    have hb128 : b < 128 ∧ 1 ≤ b := by
      rcases List.mem_append.1 hb with hb | hb
      · rw [List.eq_of_mem_replicate hb]; omega
      · split at hb
        · cases hb
        · rw [List.mem_singleton] at hb
          omega
    exact ⟨hb128.1, Nat.testBit_lt_two_pow hb128.1, Nat.mod_eq_of_lt hb128.1, hb128.2⟩

/-- C13 witness: 254 transparent pixels give the run lengths 127, 127; 255 give
127, 127, 1; 300 give 127, 127, 46. -/
theorem rle_run_boundary_witness :
    (∃ pixd, processImageFormat
      { AlphaMask := List.replicate 254 false, PixelData := List.replicate 254 0
        Opaque := false } rleOptions = some (pixd, [127, 127])) ∧
    (∃ pixd, processImageFormat
      { AlphaMask := List.replicate 255 false, PixelData := List.replicate 255 0
        Opaque := false } rleOptions = some (pixd, [127, 127, 1])) ∧
    (∃ pixd, processImageFormat
      { AlphaMask := List.replicate 300 false, PixelData := List.replicate 300 0
        Opaque := false } rleOptions = some (pixd, [127, 127, 46])) :=
  ⟨(rle_run_boundary _ rleOptions 254 (by decide) rfl (List.length_replicate _ _) rfl rfl).imp
      (fun _ h => h.1),
   (rle_run_boundary _ rleOptions 255 (by decide) rfl (List.length_replicate _ _) rfl rfl).imp
      (fun _ h => h.1),
   (rle_run_boundary _ rleOptions 300 (by decide) rfl (List.length_replicate _ _) rfl rfl).imp
      (fun _ h => h.1)⟩

/-! ## Theorems: the bitmask encoding of the alpha mask -/

theorem getD_set_self (l : List Nat) (i a d : Nat) (h : i < l.length) :
    (l.set i a).getD i d = a := by
  simp [List.getD_eq_getElem?_getD, List.getElem?_set_self h]

theorem getD_set_ne (l : List Nat) (i j a d : Nat) (h : i ≠ j) :
    (l.set i a).getD j d = l.getD j d := by
  simp [List.getD_eq_getElem?_getD, List.getElem?_set_ne h]

theorem getD_take (l : List Nat) (m j d : Nat) (h : j < m) :
    (l.take m).getD j d = l.getD j d := by
  simp [List.getD_eq_getElem?_getD, List.getElem?_take_of_lt h]

theorem getD_append_singleton (l : List Bool) (a : Bool) (i : Nat) :
    (l ++ [a]).getD i false
      = if i < l.length then l.getD i false else (decide (i = l.length) && a) := by
  simp only [List.getD_eq_getElem?_getD]
  by_cases h : i < l.length
  · simp [h, List.getElem?_append_left h]
  · simp only [h, if_false]
    rw [List.getElem?_append_right (by omega)]
    by_cases e : i = l.length
    · simp [e]
    · have : i - l.length ≠ 0 := by omega
      obtain ⟨k, hk⟩ := Nat.exists_eq_succ_of_ne_zero this
      simp [hk, e]

theorem getD_false_of_le (l : List Bool) (i : Nat) (h : l.length ≤ i) :
    l.getD i false = false := by
  simp [List.getD_eq_getElem?_getD, List.getElem?_eq_none h]

/-- Bit `7 - j` of a byte after `alphaByte |= 0b1000_0000 >> m`. -/
theorem testBit_or_shift (x m j : Nat) (hj : j < 8) :
    ((x ||| (128 >>> m)) % 256).testBit (7 - j) = (x.testBit (7 - j) || decide (j = m)) := by
  have e256 : (256 : Nat) = 2 ^ 8 := rfl
  have e128 : (128 : Nat) = 2 ^ 7 := rfl
  rw [e256, Nat.testBit_mod_two_pow, Nat.testBit_or, e128, Nat.testBit_shiftRight,
    Nat.testBit_two_pow]
  have h1 : decide (7 - j < 8) = true := by simp; omega
  have h2 : decide (7 = m + (7 - j)) = decide (j = m) := by
    congr 1
    apply propext
    omega
  rw [h1, h2, Bool.true_and]

theorem testBit_mod_256 (x j : Nat) (hj : j < 8) :
    (x % 256).testBit (7 - j) = x.testBit (7 - j) := by
  have e256 : (256 : Nat) = 2 ^ 8 := rfl
  rw [e256, Nat.testBit_mod_two_pow]
  have h1 : decide (7 - j < 8) = true := by simp; omega
  rw [h1, Bool.true_and]

/-- The byte under construction after the opacity `av` has been added to it. -/
theorem alphaByte_bits (done : List Bool) (s : EncState) (av : Bool) (h : BitsInv done s) :
    (∀ m, m < 8 →
      (if av = true then (s.alphaByte ||| 128 >>> s.alphaMod) % 256 else s.alphaByte).testBit
          (7 - m)
        = (done ++ [av]).getD (8 * (done.length / 8) + m) false) ∧
    (if av = true then (s.alphaByte ||| 128 >>> s.alphaMod) % 256 else s.alphaByte) < 256 := by
  obtain ⟨_, hmod, _, _, hbits, hlt⟩ := h
  constructor
  · intro m hm
    rw [getD_append_singleton]
    have hb := hbits m hm
    by_cases hin : 8 * (done.length / 8) + m < done.length
    · rw [if_pos hin]
      cases av
      · simpa using hb
      · simp only [if_true]
        rw [testBit_or_shift _ _ _ hm, hb]
        have : decide (m = s.alphaMod) = false := by
          simp only [decide_eq_false_iff_not]; omega
        rw [this, Bool.or_false]
    · rw [if_neg hin]
      have hf : done.getD (8 * (done.length / 8) + m) false = false :=
        getD_false_of_le _ _ (by omega)
      rw [hf] at hb
      cases av
      · simpa using hb
      · simp only [if_true, Bool.and_true]
        rw [testBit_or_shift _ _ _ hm, hb, Bool.false_or]
        congr 1
        apply propext
        omega
  · cases av
    · simpa using hlt
    · simp only [if_true]
      exact Nat.mod_lt _ (by norm_num)

theorem stepBitmask_bits {done : List Bool} {s t : EncState} {av : Bool}
    (h : BitsInv done s) (hs : stepBitmask s av = some t) : BitsInv (done ++ [av]) t := by
  obtain ⟨hF, hFlt⟩ := alphaByte_bits done s av h
  obtain ⟨hidx, hmod, hfull, hbytes, _, _⟩ := h
  unfold stepBitmask at hs
  simp only at hs
  have hlen : (done ++ [av]).length = done.length + 1 := by simp
  by_cases h8 : s.alphaMod + 1 = 8
  · have hb : (s.alphaMod + 1 == 8) = true := by simpa using h8
    simp only [hb, if_true] at hs
    cases hst : store s.alpha s.alphaIndex
        (if av = true then (s.alphaByte ||| 128 >>> s.alphaMod) % 256 else s.alphaByte) with
    | none => simp [hst] at hs
    | some a =>
      simp only [hst, Option.map_some', Option.some.injEq] at hs
      obtain ⟨hin, rfl⟩ := store_eq hst
      subst hs
      have e1 : (done.length + 1) / 8 = done.length / 8 + 1 := by omega
      have e2 : (done.length + 1) % 8 = 0 := by omega
      refine ⟨?_, ?_, ?_, ?_, ?_, by norm_num⟩
      · simp only [hlen, e1, hidx]
      · simp only [hlen, e2]
      · intro i hi
        rw [hlen, e1] at hi
        unfold bitAt
        simp only
        by_cases hq : i / 8 = done.length / 8
        · rw [hq, ← hidx, getD_set_self _ _ _ _ hin, hF (i % 8) (Nat.mod_lt _ (by norm_num))]
          congr 1
          omega
        · rw [getD_set_ne _ _ _ _ _ (by rw [hidx]; omega)]
          have hi2 : i < 8 * (done.length / 8) := by omega
          have := hfull i hi2
          unfold bitAt at this
          rw [this, getD_append_singleton, if_pos (by omega)]
      · intro j hj
        rw [hlen, e1] at hj
        simp only
        by_cases hq : j = done.length / 8
        · rw [hq, ← hidx, getD_set_self _ _ _ _ hin]
          exact hFlt
        · rw [getD_set_ne _ _ _ _ _ (by rw [hidx]; omega)]
          exact hbytes j (by omega)
      · intro m hm
        simp only [Nat.zero_testBit]
        rw [getD_false_of_le _ _ (by rw [hlen, e1]; omega)]
  · have hb : (s.alphaMod + 1 == 8) = false := by simpa using h8
    simp only [hb, Bool.false_eq_true, if_false, Option.some.injEq] at hs
    subst hs
    have e1 : (done.length + 1) / 8 = done.length / 8 := by omega
    have e2 : (done.length + 1) % 8 = done.length % 8 + 1 := by omega
    refine ⟨?_, ?_, ?_, ?_, ?_, hFlt⟩
    · simp only [hlen, e1, hidx]
    · simp only [hlen, e2, hmod]
    · intro i hi
      rw [hlen, e1] at hi
      simp only
      rw [hfull i hi, getD_append_singleton, if_pos (by omega)]
    · intro j hj
      rw [hlen, e1] at hj
      exact hbytes j hj
    · intro m hm
      simp only [hlen, e1]
      exact hF m hm

theorem BitsInv_of_alpha {done : List Bool} {s t : EncState} (h : BitsInv done s)
    (e : t.alpha = s.alpha ∧ t.alphaIndex = s.alphaIndex ∧ t.alphaMod = s.alphaMod ∧
      t.alphaByte = s.alphaByte ∧ t.currentAlpha = s.currentAlpha ∧
      t.alphaLength = s.alphaLength) : BitsInv done t := by
  obtain ⟨e1, e2, e3, e4, _, _⟩ := e
  unfold BitsInv
  rw [e1, e2, e3, e4]
  exact h

theorem encodeStep_bits {o : ImageOptions} (hc : o.CompressAlphaMask = false)
    {done : List Bool} {s t : EncState} {p : Nat} {av : Bool}
    (h : BitsInv done s) (hs : encodeStep o s p av = some t) : BitsInv (done ++ [av]) t := by
  unfold encodeStep at hs
  cases hp : stepPixel o s p av with
  | none => simp [hp] at hs
  | some u =>
    simp only [hp, Option.some_bind, hc, Bool.not_false, if_true] at hs
    exact stepBitmask_bits (BitsInv_of_alpha h (stepPixel_alpha hp)) hs

theorem encodeLoop_bits {o : ImageOptions} (hc : o.CompressAlphaMask = false)
    (ps : List Nat) (avs : List Bool) (hlen : ps.length = avs.length)
    (done : List Bool) (s t : EncState)
    (h : BitsInv done s) (hs : encodeLoop o ps avs s = some t) : BitsInv (done ++ avs) t := by
  induction ps generalizing avs done s with
  | nil =>
    cases avs with
    | nil => simp [encodeLoop] at hs; subst hs; simpa using h
    | cons av avs => simp at hlen
  | cons p ps ih =>
    cases avs with
    | nil => simp at hlen
    | cons av avs =>
      simp only [encodeLoop] at hs
      cases hu : encodeStep o s p av with
      | none => simp [hu] at hs
      | some u =>
        simp only [hu, Option.some_bind] at hs
        have := ih avs (by simpa using hlen) (done ++ [av]) u (encodeStep_bits hc h hu) hs
        simpa using this

theorem bitAt_take (l : List Nat) (m i : Nat) (h : i / 8 < m) :
    bitAt (l.take m) i = bitAt l i := by
  unfold bitAt
  rw [getD_take _ _ _ _ h]

/-- The alpha section `processImageFormat` returns with the bitmask encoding for an image
that is not opaque: `(n + 7) / 8` bytes whose bits, most significant first, are the
opacity values followed by zeros. -/
theorem processImageFormat_bitmask {f : imageformat} {o : ImageOptions}
    {pixd alphad : List Nat} (hO : f.Opaque = false) (hc : o.CompressAlphaMask = false)
    (hlen : f.PixelData.length = f.AlphaMask.length)
    (h : processImageFormat f o = some (pixd, alphad)) :
    alphad.length = (f.AlphaMask.length + 7) / 8 ∧
    (∀ i, i < 8 * alphad.length → bitAt alphad i = f.AlphaMask.getD i false) ∧
    (∀ j, j < alphad.length → alphad.getD j 0 < 256) := by
  obtain ⟨s, t, hs, ht, _, ha⟩ := processImageFormat_parts hO h
  have hB0 : BitmaskInv f.PixelData.length 0
      { alpha := List.replicate ((f.AlphaMask.length + 7) / 8) 0
        pix := List.replicate f.PixelData.length 0
        alphaIndex := 0, alphaMod := 0, alphaByte := 0
        currentAlpha := false, alphaLength := 0, pixelIndex := 0 } :=
    ⟨by simp [hlen], by simp, rfl, rfl, Nat.le_refl _, rfl⟩
  obtain ⟨s', hs', hsz⟩ := encodeLoop_bitmask o hc f.PixelData.length f.PixelData f.AlphaMask
    hlen 0 (by simp) _ hB0
  rw [hs] at hs'
  cases hs'
  obtain ⟨hal, _, hai, ham, _, hrl⟩ := hsz
  have hI0 : BitsInv []
      { alpha := List.replicate ((f.AlphaMask.length + 7) / 8) 0
        pix := List.replicate f.PixelData.length 0
        alphaIndex := 0, alphaMod := 0, alphaByte := 0
        currentAlpha := false, alphaLength := 0, pixelIndex := 0 } := by
    refine ⟨rfl, rfl, ?_, ?_, ?_, by norm_num⟩
    · intro i hi; simp at hi
    · intro j hj; simp at hj
    · intro m _; simp
  have hI := encodeLoop_bits hc _ _ hlen [] _ _ hI0 hs
  rw [List.nil_append] at hI
  obtain ⟨_, _, hfull, hbytes, hbits, hblt⟩ := hI
  rw [hlen] at hal hai ham
  unfold encodeFinish at ht
  simp only at ht
  by_cases hm : s.alphaMod > 0
  · have hin : s.alphaIndex < s.alpha.length := by rw [hal, hai]; omega
    simp only [hm, if_true] at ht
    rw [store_some _ _ _ hin] at ht
    simp only [Option.map_some', Option.some_bind, hrl, gt_iff_lt, Nat.lt_irrefl, if_false,
      Option.some.injEq] at ht
    subst ht
    simp only at ha
    subst ha
    have hl : (List.take (s.alphaIndex + 1) (s.alpha.set s.alphaIndex s.alphaByte)).length
        = f.AlphaMask.length / 8 + 1 := by
      rw [List.length_take, List.length_set, hal, hai]; omega
    refine ⟨by rw [hl]; omega, ?_, ?_⟩
    · intro i hi
      rw [hl] at hi
      rw [bitAt_take _ _ _ (by rw [hai]; omega)]
      unfold bitAt
      by_cases hq : i / 8 = f.AlphaMask.length / 8
      · rw [hq, ← hai, getD_set_self _ _ _ _ hin, hbits (i % 8) (Nat.mod_lt _ (by norm_num))]
        congr 1
        omega
      · rw [getD_set_ne _ _ _ _ _ (by rw [hai]; omega)]
        exact hfull i (by omega)
    · intro j hj
      rw [hl] at hj
      rw [getD_take _ _ _ _ (by rw [hai]; omega)]
      by_cases hq : j = f.AlphaMask.length / 8
      · rw [hq, ← hai, getD_set_self _ _ _ _ hin]
        exact hblt
      · rw [getD_set_ne _ _ _ _ _ (by rw [hai]; omega)]
        exact hbytes j (by omega)
  · simp only [hm, if_false, Option.some_bind, hrl, gt_iff_lt, Nat.lt_irrefl,
      Option.some.injEq] at ht
    subst ht
    subst ha
    have hl : (List.take s.alphaIndex s.alpha).length = f.AlphaMask.length / 8 := by
      rw [List.length_take, hal, hai]; omega
    refine ⟨by rw [hl]; omega, ?_, ?_⟩
    · intro i hi
      rw [hl] at hi
      rw [bitAt_take _ _ _ (by rw [hai]; omega)]
      exact hfull i hi
    · intro j hj
      rw [hl] at hj
      rw [getD_take _ _ _ _ (by rw [hai]; omega)]
      exact hbytes j hj

/-- C12. Bitmask packing: for an image of `n` pixels that is not opaque (it has a
transparent pixel), with `CompressAlphaMask = false` `processImageFormat` completes and the
alpha section it returns has exactly `(n + 7) / 8` bytes, each below 256; for every `i < n`
bit `7 - (i mod 8)` of byte `i / 8` equals the opacity of pixel `i`, and the remaining low
bits of the last byte are 0. -/
theorem bitmask_packing (f : imageformat) (o : ImageOptions)
    (hO : f.Opaque = false) (hc : o.CompressAlphaMask = false)
    (hlen : f.PixelData.length = f.AlphaMask.length) :
    ∃ pixd alphad, processImageFormat f o = some (pixd, alphad) ∧
      alphad.length = (f.AlphaMask.length + 7) / 8 ∧
      (∀ i, i < f.AlphaMask.length →
        (alphad.getD (i / 8) 0).testBit (7 - i % 8) = f.AlphaMask.getD i false) ∧
      (∀ i, f.AlphaMask.length ≤ i → i < 8 * alphad.length →
        (alphad.getD (i / 8) 0).testBit (7 - i % 8) = false) ∧
      (∀ b ∈ alphad, b < 256) := by
  obtain ⟨⟨pixd, alphad⟩, h⟩ := processImageFormat_bitmask_completes f o hc hlen
  obtain ⟨h1, h2, h3⟩ := processImageFormat_bitmask hO hc hlen h
  refine ⟨pixd, alphad, h, h1, ?_, ?_, ?_⟩
  · intro i hi
    exact h2 i (by rw [h1]; omega)
  · intro i hi1 hi2
    have := h2 i hi2
    unfold bitAt at this
    rw [this]
    exact getD_false_of_le _ _ hi1
  · intro b hb
    obtain ⟨j, hj, rfl⟩ := List.getElem_of_mem hb
    have := h3 j hj
    simpa [List.getD_eq_getElem?_getD, List.getElem?_eq_getElem hj] using this

/-- C12 witness: the opacities 1, 0, 1, 1, 0, 0, 0, 0, 1 pack to the bytes `0b10110000`
and `0b10000000`. -/
theorem bitmask_packing_witness :
    processImageFormat
      { AlphaMask := [true, false, true, true, false, false, false, false, true]
        PixelData := [1, 2, 3, 4, 5, 6, 7, 8, 9], Opaque := false }
      (grayOptions true false false)
      = some ([1, 2, 3, 4, 5, 6, 7, 8, 9], [0b10110000, 0b10000000]) ∧
    ∃ pixd alphad, processImageFormat
      { AlphaMask := [true, false, true, true, false, false, false, false, true]
        PixelData := [1, 2, 3, 4, 5, 6, 7, 8, 9], Opaque := false }
      (grayOptions true false false) = some (pixd, alphad) ∧
      alphad.length = 2 :=
  ⟨by decide,
   (let ⟨pixd, alphad, h, hl, _⟩ := bitmask_packing
      { AlphaMask := [true, false, true, true, false, false, false, false, true]
        PixelData := [1, 2, 3, 4, 5, 6, 7, 8, 9], Opaque := false }
      (grayOptions true false false) rfl rfl rfl
    ⟨pixd, alphad, h, hl⟩)⟩

/-! ## Theorems: decodeImageData on valid sections -/

/-- The expression `(b >> (7 - m)) & 1 == 1` of the decoder is bit `7 - m` of `b`. -/
theorem maskBit_eq_testBit (b k : Nat) : (((b >>> k) &&& 1) == 1) = b.testBit k := by
  rw [Nat.testBit_to_div_mod, Nat.and_one_is_mod, Nat.shiftRight_eq_div_pow]
  by_cases h : b / 2 ^ k % 2 = 1 <;> simp [h]

theorem drop_eq_cons {α : Type} (l : List α) (p : Nat) (a : α) (rest : List α)
    (h : l.drop p = a :: rest) : l[p]? = some a ∧ l.drop (p + 1) = rest ∧ p < l.length := by
  have hp : p < l.length := by
    by_contra hc
    rw [List.drop_eq_nil_of_le (by omega)] at h
    cases h
  rw [List.drop_eq_getElem_cons hp] at h
  injection h with h1 h2
  exact ⟨by rw [List.getElem?_eq_getElem hp, h1], h2, hp⟩

theorem runLength_le (ar : Nat) : runLength ar ≤ 127 := by
  rw [runLength_eq_mod]; omega

theorem rleExpand_cons (ar : Nat) (l : List Nat) :
    rleExpand (ar :: l) = List.replicate (runLength ar) (runOpacity ar) ++ rleExpand l := by
  simp [rleExpand]

/-- One run of the mask part of the loop body of `decodeImageData`: it delivers the next
pending opacity value and leaves the rest pending; it does not touch the pixel state. -/
theorem decodeAlpha_step (conf : ImageConfig) (alpha : List Nat) (s : DecState)
    (av : Bool) (rest : List Bool) (hwf : DecWf conf alpha s)
    (hp : pendingMask conf alpha s = av :: rest) :
    ∃ t, decodeAlpha conf alpha s = some (av, t) ∧ DecWf conf alpha t ∧
      pendingMask conf alpha t = rest ∧ t.pixIndex = s.pixIndex ∧ t.Pix = s.Pix := by
  unfold pendingMask at hp
  unfold DecWf at hwf
  unfold decodeAlpha
  cases hc : conf.Options.CompressAlphaMask
  · simp only [hc, Bool.not_false, if_true] at hp hwf ⊢
    obtain ⟨h1, h2, h3⟩ := drop_eq_cons _ _ _ _ hp
    simp only [List.length_map, List.length_range] at h3
    rw [List.getElem?_map, List.getElem?_range h3] at h1
    simp only [Option.map_some', Option.some.injEq] at h1
    have hidx : s.alphaIndex < alpha.length := by omega
    have hq : (8 * s.alphaIndex + s.alphaMod) / 8 = s.alphaIndex := by omega
    have hr : (8 * s.alphaIndex + s.alphaMod) % 8 = s.alphaMod := by omega
    have hav : av = (alpha.getD s.alphaIndex 0).testBit (7 - s.alphaMod) := by
      rw [← h1]; unfold bitAt; rw [hq, hr]
    have hget : alpha[s.alphaIndex]? = some (alpha.getD s.alphaIndex 0) := by
      simp [List.getD_eq_getElem?_getD, List.getElem?_eq_getElem hidx]
    rw [hget]
    simp only [maskBit_eq_testBit, ← hav]
    by_cases h8 : s.alphaMod + 1 = 8
    · have hb : (s.alphaMod + 1 == 8) = true := by simpa using h8
      simp only [hb, if_true]
      refine ⟨_, rfl, ?_, ?_, rfl, rfl⟩
      · simp [DecWf, hc]
      · simp only [pendingMask, hc, Bool.not_false, if_true]
        rw [← h2]
        congr 1
        omega
    · have hb : (s.alphaMod + 1 == 8) = false := by simpa using h8
      simp only [hb, Bool.false_eq_true, if_false]
      refine ⟨_, rfl, ?_, ?_, rfl, rfl⟩
      · simp only [DecWf, hc, if_true]; omega
      · simp only [pendingMask, hc, Bool.not_false, if_true]
        rw [← h2]
        congr 1
  · simp only [hc, Bool.not_true, Bool.false_eq_true, if_false] at hp hwf ⊢
    obtain ⟨w1, w2, w3⟩ := hwf
    by_cases h0 : s.alphaBufferCount = 0
    · have hb : (s.alphaBufferCount == 0) = true := by simpa using h0
      simp only [hb, if_true]
      rw [h0, List.replicate_zero, List.nil_append] at hp
      cases hd : alpha.drop s.alphaIndex with
      | nil => rw [hd] at hp; simp [rleExpand] at hp
      | cons ar tl =>
        obtain ⟨g1, g2, g3⟩ := drop_eq_cons _ _ _ _ hd
        have hr1 : 1 ≤ runLength ar := w3 ar (by rw [hd]; simp)
        have hr2 := runLength_le ar
        rw [hd, rleExpand_cons] at hp
        obtain ⟨r, hr⟩ : ∃ r, runLength ar = r + 1 := ⟨runLength ar - 1, by omega⟩
        rw [hr, List.replicate_succ, List.cons_append] at hp
        injection hp with hp1 hp2
        rw [g1]
        simp only [Option.map_some']
        refine ⟨{ s with alphaIndex := s.alphaIndex + 1, alphaBuffered := runOpacity ar
                         alphaBufferCount := (runLength ar + 255) % 256 }, ?_, ?_, ?_, rfl, rfl⟩
        · rw [← hp1]
          rfl
        · simp only [DecWf, hc, Bool.true_eq_false, if_false]
          refine ⟨by omega, by omega, ?_⟩
          intro b hb
          rw [g2] at hb
          exact w3 b (by rw [hd]; exact List.mem_cons_of_mem _ hb)
        · simp only [pendingMask, hc, Bool.not_true, Bool.false_eq_true, if_false]
          rw [g2, ← hp2]
          congr 2
          omega
    · have hb : (s.alphaBufferCount == 0) = false := by simpa using h0
      simp only [hb, Bool.false_eq_true, if_false, Option.map_some']
      obtain ⟨c, hcount⟩ : ∃ c, s.alphaBufferCount = c + 1 :=
        ⟨s.alphaBufferCount - 1, by omega⟩
      rw [hcount, List.replicate_succ, List.cons_append] at hp
      injection hp with hp1 hp2
      refine ⟨{ s with alphaBufferCount := (s.alphaBufferCount + 255) % 256 },
        ?_, ?_, ?_, rfl, rfl⟩
      · rw [hp1]
      · simp only [DecWf, hc, Bool.true_eq_false, if_false]
        exact ⟨by omega, w2, w3⟩
      · simp only [pendingMask, hc, Bool.not_true, Bool.false_eq_true, if_false]
        rw [← hp2]
        congr 2
        omega

theorem decodeImageData_eq_loops (hsv : HueTransform) (conf : ImageConfig)
    (pix alpha : List Nat) :
    decodeImageData hsv conf pix alpha = (decodeLoops hsv conf pix alpha).map
      (fun s => { Width := conf.Width, Height := conf.Height, Pix := s.Pix }) := rfl

theorem loopN_add {σ : Type} (body : σ → Option σ) (a b : Nat) (s : σ) :
    loopN body (a + b) s = (loopN body a s).bind (loopN body b) := by
  induction a generalizing s with
  | zero => simp [loopN]
  | succ a ih =>
    rw [Nat.succ_add]
    simp only [loopN]
    cases h : body s with
    | none => simp
    | some t => simp [ih]

/-- The nested loops run the body `Height * Width` times. -/
theorem loopN_mul {σ : Type} (body : σ → Option σ) (w h : Nat) (s : σ) :
    loopN (loopN body w) h s = loopN body (h * w) s := by
  induction h generalizing s with
  | zero => simp [loopN]
  | succ h ih =>
    have e : (h + 1) * w = w + h * w := by rw [Nat.succ_mul, Nat.add_comm]
    rw [e, loopN_add body w (h * w) s]
    simp only [loopN]
    cases hb : loopN body w s with
    | none => simp
    | some t => simp [ih]

/-- One run of the loop body of `decodeImageData`. -/
theorem decodePixel_step (hsv : HueTransform) (conf : ImageConfig) (pix alpha : List Nat)
    (s : DecState) (av : Bool) (rest : List Bool) (hwf : DecWf conf alpha s)
    (hp : pendingMask conf alpha s = av :: rest)
    (hpix : included conf.Options av = true → s.pixIndex < pix.length) :
    ∃ t, decodePixel hsv conf pix alpha s = some t ∧ DecWf conf alpha t ∧
      pendingMask conf alpha t = rest ∧
      t.pixIndex = s.pixIndex + (if included conf.Options av then 1 else 0) ∧
      t.Pix = s.Pix ++ [decodedPixel hsv conf
        (if included conf.Options av then pix.getD s.pixIndex 0 else 0xFF) av] := by
  obtain ⟨u, hu, uwf, up, upi, upx⟩ := decodeAlpha_step conf alpha s av rest hwf hp
  unfold decodePixel
  simp only [hu, Option.some_bind]
  by_cases hi : included conf.Options av = true
  · have hi2 : (!conf.Options.UniformHue && (!conf.Options.ExcludeMaskedPixels || av)) = true :=
      hi
    have hlt := hpix hi
    have hget : pix[u.pixIndex]? = some (pix.getD s.pixIndex 0) := by
      rw [upi]
      simp [List.getD_eq_getElem?_getD, List.getElem?_eq_getElem hlt]
    simp only [hi2, if_true, hget, Option.map_some', hi]
    refine ⟨_, rfl, uwf, up, by simp [upi], ?_⟩
    simp only [upx]
    rfl
  · have hi2 : ¬ (!conf.Options.UniformHue && (!conf.Options.ExcludeMaskedPixels || av)) = true :=
      hi
    have hif : included conf.Options av = false := by simpa using hi
    simp only [hi2, if_false, Option.map_some', hif, Bool.false_eq_true]
    refine ⟨_, rfl, uwf, up, by simp [upi], ?_⟩
    simp only [upx]
    rfl

/-- The loop body of `decodeImageData` run over the pending opacity values `m`. -/
theorem decodeLoop_spec (hsv : HueTransform) (conf : ImageConfig) (pix alpha : List Nat)
    (m : List Bool) (s : DecState) (rest : List Bool) (hwf : DecWf conf alpha s)
    (hp : pendingMask conf alpha s = m ++ rest)
    (hpix : s.pixIndex + includedCount conf.Options m ≤ pix.length) :
    ∃ t, loopN (decodePixel hsv conf pix alpha) m.length s = some t ∧ DecWf conf alpha t ∧
      pendingMask conf alpha t = rest ∧
      t.pixIndex = s.pixIndex + includedCount conf.Options m ∧
      t.Pix = s.Pix ++ List.zipWith (decodedPixel hsv conf)
        (lumaPerPixel conf.Options m (pix.drop s.pixIndex)) m := by
  induction m generalizing s with
  | nil =>
    refine ⟨s, rfl, hwf, by simpa using hp, by simp [includedCount], ?_⟩
    simp [lumaPerPixel]
  | cons av avs ih =>
    rw [List.cons_append] at hp
    have hcount : includedCount conf.Options (av :: avs)
        = (if included conf.Options av then 1 else 0) + includedCount conf.Options avs := by
      unfold includedCount
      rw [List.filter_cons]
      cases included conf.Options av <;> simp
      omega
    obtain ⟨u, hu, uwf, up, upi, upx⟩ := decodePixel_step hsv conf pix alpha s av _ hwf hp
      (by
        intro hi
        rw [hcount, hi] at hpix
        simp only [if_true] at hpix
        omega)
    obtain ⟨t, ht, twf, tp, tpi, tpx⟩ := ih u uwf up (by rw [upi]; rw [hcount] at hpix; omega)
    refine ⟨t, ?_, twf, tp, by rw [tpi, upi, hcount]; omega, ?_⟩
    · simp only [List.length_cons, loopN, hu, Option.some_bind, ht]
    · rw [tpx, upx, upi, List.append_assoc]
      congr 1
      by_cases hi : included conf.Options av = true
      · have hlt : s.pixIndex < pix.length := by
          rw [hcount, hi] at hpix
          simp only [if_true] at hpix
          omega
        simp only [hi, if_true, lumaPerPixel, List.zipWith_cons_cons, List.singleton_append]
        have hd : pix.drop s.pixIndex = pix.getD s.pixIndex 0 :: pix.drop (s.pixIndex + 1) := by
          rw [List.drop_eq_getElem_cons hlt]
          simp [List.getD_eq_getElem?_getD, List.getElem?_eq_getElem hlt]
        rw [hd]
        simp
      · have hif : included conf.Options av = false := by simpa using hi
        simp only [hif, Bool.false_eq_true, if_false, lumaPerPixel, List.zipWith_cons_cons,
          List.singleton_append, Nat.add_zero]

theorem pendingMask_start (conf : ImageConfig) (alpha : List Nat) :
    pendingMask conf alpha decodeStart = maskStream conf alpha := by
  unfold pendingMask maskStream decodeStart
  cases conf.Options.CompressAlphaMask <;> simp

theorem DecWf_start (conf : ImageConfig) (alpha : List Nat)
    (h : conf.Options.CompressAlphaMask = true → ∀ b ∈ alpha, 1 ≤ runLength b) :
    DecWf conf alpha decodeStart := by
  unfold DecWf decodeStart
  cases hc : conf.Options.CompressAlphaMask
  · simp
  · simp only [Bool.true_eq_false, if_false, List.drop_zero]
    exact ⟨by omega, by omega, h hc⟩

theorem decodedMask_length (conf : ImageConfig) (alpha : List Nat)
    (hv : ValidAlpha conf alpha (conf.Width * conf.Height)) :
    (decodedMask conf alpha).length = conf.Width * conf.Height := by
  unfold decodedMask
  rw [List.length_take]
  exact Nat.min_eq_left hv.1

theorem lumaPerPixel_length (opts : ImageOptions) (m : List Bool) (pix : List Nat) :
    (lumaPerPixel opts m pix).length = m.length := by
  induction m generalizing pix with
  | nil => rfl
  | cons av avs ih =>
    simp only [lumaPerPixel]
    split <;> simp [ih]

/-- What `decodeImageData` computes on a valid alpha section and a pixel section with
enough bytes: it completes, it has consumed one pixel byte for each pixel the inclusion
rule keeps, and pixel `i` is the colour of the gray value and the opacity of pixel `i`. -/
theorem decodeImageData_spec (hsv : HueTransform) (conf : ImageConfig) (pix alpha : List Nat)
    (hv : ValidAlpha conf alpha (conf.Width * conf.Height))
    (hpix : includedCount conf.Options (decodedMask conf alpha) ≤ pix.length) :
    ∃ t, decodeLoops hsv conf pix alpha = some t ∧ DecWf conf alpha t ∧
      pendingMask conf alpha t = (maskStream conf alpha).drop (conf.Width * conf.Height) ∧
      t.pixIndex = includedCount conf.Options (decodedMask conf alpha) ∧
      decodeImageData hsv conf pix alpha = some
        { Width := conf.Width, Height := conf.Height
          Pix := List.zipWith (decodedPixel hsv conf)
            (lumaPerPixel conf.Options (decodedMask conf alpha) pix)
            (decodedMask conf alpha) } := by
  have hlen := decodedMask_length conf alpha hv
  have hp0 : pendingMask conf alpha decodeStart
      = decodedMask conf alpha ++ (maskStream conf alpha).drop (conf.Width * conf.Height) := by
    rw [pendingMask_start]
    unfold decodedMask
    rw [List.take_append_drop]
  obtain ⟨t, ht, twf, tp, tpi, tpx⟩ := decodeLoop_spec hsv conf pix alpha
    (decodedMask conf alpha) decodeStart _ (DecWf_start conf alpha hv.2) hp0
    (by simpa [decodeStart] using hpix)
  have hl : decodeLoops hsv conf pix alpha = some t := by
    unfold decodeLoops
    rw [loopN_mul, Nat.mul_comm, ← hlen]
    exact ht
  refine ⟨t, hl, twf, tp, by simpa [decodeStart] using tpi, ?_⟩
  rw [decodeImageData_eq_loops, hl]
  simp only [Option.map_some', tpx]
  simp [decodeStart]

theorem included_uniform (opts : ImageOptions) (hU : opts.UniformHue = true) (av : Bool) :
    included opts av = false := by
  simp [included, hU]

theorem lumaPerPixel_uniform (opts : ImageOptions) (hU : opts.UniformHue = true)
    (m : List Bool) (pix : List Nat) :
    lumaPerPixel opts m pix = List.replicate m.length 0xFF := by
  induction m generalizing pix with
  | nil => rfl
  | cons av avs ih =>
    simp only [lumaPerPixel, included_uniform opts hU, Bool.false_eq_true, if_false, ih,
      List.length_cons, List.replicate_succ]

theorem includedCount_uniform (opts : ImageOptions) (hU : opts.UniformHue = true)
    (m : List Bool) : includedCount opts m = 0 := by
  unfold includedCount
  rw [List.length_eq_zero, List.filter_eq_nil_iff]
  intro a _
  simp [included_uniform opts hU]

theorem zipWith_replicate_left {α β γ : Type} (f : α → β → γ) (a : α) (l : List β) :
    List.zipWith f (List.replicate l.length a) l = l.map (f a) := by
  induction l with
  | nil => rfl
  | cons b l ih => simp [List.replicate_succ, ih]

/-- C16. Uniform hue on decode: for a configuration with `UniformHue` set and an alpha
section valid for `Width x Height` pixels, `decodeImageData` completes for every pixel
buffer, the empty one included, with the same result; it consumes no pixel byte
(`pixIndex` is still 0 after the loops) and every pixel gets the colour of the gray value
255, so that with `HueShift = 0` every pixel has `R = G = B = 255`. -/
theorem uniform_hue_decode (hsv : HueTransform) (conf : ImageConfig) (pix alpha : List Nat)
    (hU : conf.Options.UniformHue = true)
    (hv : ValidAlpha conf alpha (conf.Width * conf.Height)) :
    ∃ t img, decodeLoops hsv conf pix alpha = some t ∧ t.pixIndex = 0 ∧
      decodeImageData hsv conf pix alpha = some img ∧
      decodeImageData hsv conf [] alpha = some img ∧
      img.Width = conf.Width ∧ img.Height = conf.Height ∧
      img.Pix = (decodedMask conf alpha).map (decodedPixel hsv conf 0xFF) ∧
      img.Pix.length = conf.Width * conf.Height ∧
      (conf.Options.HueShift = 0 → ∀ p ∈ img.Pix, p.R = 255 ∧ p.G = 255 ∧ p.B = 255) := by
  have hc := includedCount_uniform conf.Options hU (decodedMask conf alpha)
  obtain ⟨t, ht, _, _, tpi, himg⟩ := decodeImageData_spec hsv conf pix alpha hv
    (by rw [hc]; omega)
  obtain ⟨_, _, _, _, _, himg0⟩ := decodeImageData_spec hsv conf [] alpha hv
    (by rw [hc]; omega)
  rw [lumaPerPixel_uniform conf.Options hU, zipWith_replicate_left] at himg himg0
  refine ⟨t, _, ht, by rw [tpi, hc], himg, himg0, rfl, rfl, rfl, ?_, ?_⟩
  · simp [decodedMask_length conf alpha hv]
  · intro hH p hp
    simp only [List.mem_map] at hp
    obtain ⟨av, _, rfl⟩ := hp
    simp [decodedPixel, hH]

/-- C16 witness: a 3 x 1 image with uniform hue and the bitmask byte `0b10100000` decodes,
whatever the pixel buffer, to three white pixels of alpha 255, 0, 255. -/
theorem uniform_hue_decode_witness :
    uniformConfig.Options.UniformHue = true ∧
    ValidAlpha uniformConfig [0b10100000] (uniformConfig.Width * uniformConfig.Height) ∧
    decodeImageData (fun _ g => (g, g, g)) uniformConfig [] [0b10100000] = some
      { Width := 3, Height := 1
        Pix := [{ R := 255, G := 255, B := 255, A := 255 },
                { R := 255, G := 255, B := 255, A := 0 },
                { R := 255, G := 255, B := 255, A := 255 }] } ∧
    ∃ t img, decodeLoops (fun _ g => (g, g, g)) uniformConfig [7, 8, 9] [0b10100000] = some t ∧
      t.pixIndex = 0 ∧
      decodeImageData (fun _ g => (g, g, g)) uniformConfig [7, 8, 9] [0b10100000] = some img ∧
      decodeImageData (fun _ g => (g, g, g)) uniformConfig [] [0b10100000] = some img :=
  have hv : ValidAlpha uniformConfig [0b10100000]
      (uniformConfig.Width * uniformConfig.Height) :=
    ⟨by decide, fun h => absurd h (by decide)⟩
  ⟨rfl, hv, by decide,
   (let ⟨t, img, h1, h2, h3, h4, _⟩ :=
      uniform_hue_decode (fun _ g => (g, g, g)) uniformConfig [7, 8, 9] [0b10100000] rfl hv
    ⟨t, img, h1, h2, h3, h4⟩)⟩

theorem decodedPixel_hue_zero (hsv : HueTransform) (conf : ImageConfig)
    (hH : conf.Options.HueShift = 0) (g : Nat) (av : Bool) :
    decodedPixel hsv conf g av = { R := g, G := g, B := g, A := if av then 255 else 0 } := by
  cases av <;> simp [decodedPixel, hH]

/-- Decoding at hue 0: for a configuration with `HueShift = 0`, an alpha
section valid for `Width x Height` pixels and a pixel section with a byte for every pixel
the inclusion rule keeps, `decodeImageData` completes and pixel `i` has `R = G = B = g`,
where `g` is the pixel byte consumed for it, or 255 when none is consumed, and alpha 255
when its opacity is true and 0 when it is false; the hue conversion has no part in the
result. -/
theorem decodeImageData_gray (hsv : HueTransform) (conf : ImageConfig) (pix alpha : List Nat)
    (hH : conf.Options.HueShift = 0)
    (hv : ValidAlpha conf alpha (conf.Width * conf.Height))
    (hpix : includedCount conf.Options (decodedMask conf alpha) ≤ pix.length) :
    ∃ img, decodeImageData hsv conf pix alpha = some img ∧
      img.Width = conf.Width ∧ img.Height = conf.Height ∧
      img.Pix = List.zipWith (fun g av => { R := g, G := g, B := g, A := if av then 255 else 0 })
        (lumaPerPixel conf.Options (decodedMask conf alpha) pix) (decodedMask conf alpha) ∧
      img.Pix.length = conf.Width * conf.Height ∧
      (lumaPerPixel conf.Options (decodedMask conf alpha) pix).length
        = conf.Width * conf.Height := by
  obtain ⟨t, _, _, _, _, himg⟩ := decodeImageData_spec hsv conf pix alpha hv hpix
  have hl := decodedMask_length conf alpha hv
  have hf : decodedPixel hsv conf
      = fun g av => ({ R := g, G := g, B := g, A := if av then 255 else 0 } : RGBA) := by
    funext g av
    exact decodedPixel_hue_zero hsv conf hH g av
  rw [hf] at himg
  refine ⟨_, himg, rfl, rfl, rfl, ?_, ?_⟩
  · simp [lumaPerPixel_length, hl]
  · rw [lumaPerPixel_length, hl]

/-- C17. Exact grayscale at hue 0: for a configuration with `HueShift = 0`, an alpha
section valid for `Width x Height` pixels and a pixel section with a byte for every pixel
the inclusion rule keeps, `decodeImageData` completes and pixel `i` has `R = G = B = g`,
where `g` is the pixel byte consumed for it, or 255 when none is consumed, and alpha 255
when its opacity is true and 0 when it is false; the hue conversion has no part in the
result. -/
theorem exact_grayscale (hsv : HueTransform) (conf : ImageConfig) (pix alpha : List Nat)
    (hH : conf.Options.HueShift = 0)
    (hv : ValidAlpha conf alpha (conf.Width * conf.Height))
    (hpix : includedCount conf.Options (decodedMask conf alpha) ≤ pix.length) :
    ∃ img, decodeImageData hsv conf pix alpha = some img ∧
      img.Width = conf.Width ∧ img.Height = conf.Height ∧
      img.Pix = List.zipWith (fun g av => { R := g, G := g, B := g, A := if av then 255 else 0 })
        (lumaPerPixel conf.Options (decodedMask conf alpha) pix) (decodedMask conf alpha) ∧
      img.Pix.length = conf.Width * conf.Height ∧
      (lumaPerPixel conf.Options (decodedMask conf alpha) pix).length
        = conf.Width * conf.Height :=
  decodeImageData_gray hsv conf pix alpha hH hv hpix

/-- C17 witness: a 3 x 1 image with the bitmask byte `0b10100000`, `ExcludeMaskedPixels`
set and the pixel bytes 7, 9: the opaque pixels get the grays 7 and 9, the transparent
one gets 255. -/
theorem exact_grayscale_witness :
    excludeConfig.Options.HueShift = 0 ∧
    ValidAlpha excludeConfig [0b10100000] (excludeConfig.Width * excludeConfig.Height) ∧
    includedCount excludeConfig.Options (decodedMask excludeConfig [0b10100000])
      ≤ ([7, 9] : List Nat).length ∧
    decodeImageData (fun _ _ => (0, 0, 0)) excludeConfig [7, 9] [0b10100000] = some
      { Width := 3, Height := 1
        Pix := [{ R := 7, G := 7, B := 7, A := 255 },
                { R := 255, G := 255, B := 255, A := 0 },
                { R := 9, G := 9, B := 9, A := 255 }] } ∧
    ∃ img, decodeImageData (fun _ _ => (0, 0, 0)) excludeConfig [7, 9] [0b10100000]
        = some img ∧
      img.Pix.length = excludeConfig.Width * excludeConfig.Height :=
  have hv : ValidAlpha excludeConfig [0b10100000]
      (excludeConfig.Width * excludeConfig.Height) :=
    ⟨by decide, fun h => absurd h (by decide)⟩
  have hp : includedCount excludeConfig.Options (decodedMask excludeConfig [0b10100000])
      ≤ ([7, 9] : List Nat).length := by decide
  ⟨rfl, hv, hp, by decide,
   (let ⟨img, h1, _, _, _, h5, _⟩ :=
      exact_grayscale (fun _ _ => (0, 0, 0)) excludeConfig [7, 9] [0b10100000] rfl hv hp
    ⟨img, h1, h5⟩)⟩

/-! ## Theorems: the run-length round trip -/

theorem rleExpand_eq_nil (l : List Nat) (hl : ∀ b ∈ l, 1 ≤ runLength b)
    (h : rleExpand l = []) : l = [] := by
  cases l with
  | nil => rfl
  | cons a l =>
    have h1 := hl a (by simp)
    rw [rleExpand_cons] at h
    obtain ⟨r, hr⟩ : ∃ r, runLength a = r + 1 := ⟨runLength a - 1, by omega⟩
    rw [hr, List.replicate_succ] at h
    simp at h

theorem zipWith_map_A (hsv : HueTransform) (conf : ImageConfig) (ls : List Nat)
    (m : List Bool) (h : ls.length = m.length) :
    (List.zipWith (decodedPixel hsv conf) ls m).map (fun p => p.A)
      = m.map (fun av => if av then 255 else 0) := by
  induction m generalizing ls with
  | nil => simp
  | cons av avs ih =>
    cases ls with
    | nil => simp at h
    | cons g gs =>
      simp only [List.zipWith_cons_cons, List.map_cons, ih gs (by simpa using h)]
      cases av <;> simp [decodedPixel]

/-- C20. RLE mask round trip: when `processImageFormat` completes with `CompressAlphaMask`
set on an image that is not opaque, the records it emitted expand to the original opacity
values; and the loops of `decodeImageData`, run on these records for a configuration with
as many pixels (and a pixel buffer long enough), complete with the read position after the
last record and the current run exhausted, and the alpha values of the pixels they set are
255 for the opaque and 0 for the transparent pixels of the original sequence, in order. -/
theorem rle_mask_round_trip (hsv : HueTransform) (f : imageformat) (o : ImageOptions)
    (pixd alphad : List Nat) (hO : f.Opaque = false) (hc : o.CompressAlphaMask = true)
    (hlen : f.PixelData.length = f.AlphaMask.length)
    (h : processImageFormat f o = some (pixd, alphad))
    (conf : ImageConfig) (hcc : conf.Options.CompressAlphaMask = true)
    (hn : conf.Width * conf.Height = f.AlphaMask.length) (pix : List Nat)
    (hpix : includedCount conf.Options f.AlphaMask ≤ pix.length) :
    rleExpand alphad = f.AlphaMask ∧
    ∃ t, decodeLoops hsv conf pix alphad = some t ∧
      t.alphaIndex = alphad.length ∧ t.alphaBufferCount = 0 ∧
      t.Pix.map (fun p => p.A) = f.AlphaMask.map (fun av => if av then 255 else 0) := by
  obtain ⟨h1, h2⟩ := processImageFormat_rle hO hc hlen h
  have hms : maskStream conf alphad = f.AlphaMask := by
    unfold maskStream
    simp only [hcc, Bool.not_true, Bool.false_eq_true, if_false]
    exact h1
  have hdm : decodedMask conf alphad = f.AlphaMask := by
    unfold decodedMask
    rw [hms, hn, List.take_length]
  have hv : ValidAlpha conf alphad (conf.Width * conf.Height) :=
    ⟨by rw [hms, hn], fun _ b hb => (h2 b hb).1⟩
  obtain ⟨t, ht, twf, tp, _, himg⟩ := decodeImageData_spec hsv conf pix alphad hv
    (by rw [hdm]; exact hpix)
  refine ⟨h1, t, ht, ?_, ?_, ?_⟩
  · unfold DecWf at twf
    simp only [hcc, Bool.true_eq_false, if_false] at twf
    obtain ⟨_, w2, w3⟩ := twf
    rw [hms, hn, List.drop_length] at tp
    unfold pendingMask at tp
    simp only [hcc, Bool.not_true, Bool.false_eq_true, if_false, List.append_eq_nil] at tp
    have := rleExpand_eq_nil _ w3 tp.2
    rw [List.drop_eq_nil_iff] at this
    omega
  · rw [hms, hn, List.drop_length] at tp
    unfold pendingMask at tp
    simp only [hcc, Bool.not_true, Bool.false_eq_true, if_false, List.append_eq_nil] at tp
    have := tp.1
    rw [List.replicate_eq_nil_iff] at this
    exact this
  · rw [decodeImageData_eq_loops, ht] at himg
    simp only [Option.map_some', Option.some.injEq, RGBAImage.mk.injEq, true_and] at himg
    rw [himg, hdm]
    exact zipWith_map_A hsv conf _ _ (lumaPerPixel_length _ _ _)

/-- C20 witness: the records 130 and 7 emitted for two opaque pixels followed by seven
transparent ones are read back in full and give the same nine opacity values. -/
theorem rle_mask_round_trip_witness :
    processImageFormat
      { AlphaMask := [true, true, false, false, false, false, false, false, false]
        PixelData := [1, 2, 3, 4, 5, 6, 7, 8, 9], Opaque := false } rleOptions
      = some ([1, 2, 3, 4, 5, 6, 7, 8, 9], [130, 7]) ∧
    rleExpand [130, 7] = [true, true, false, false, false, false, false, false, false] ∧
    ∃ t, decodeLoops (fun _ g => (g, g, g)) rleConfig [] [130, 7] = some t ∧
      t.alphaIndex = 2 ∧ t.alphaBufferCount = 0 ∧
      t.Pix.map (fun p => p.A) = [255, 255, 0, 0, 0, 0, 0, 0, 0] :=
  have h : processImageFormat
      { AlphaMask := [true, true, false, false, false, false, false, false, false]
        PixelData := [1, 2, 3, 4, 5, 6, 7, 8, 9], Opaque := false } rleOptions
      = some ([1, 2, 3, 4, 5, 6, 7, 8, 9], [130, 7]) := by decide
  have hr := rle_mask_round_trip (fun _ g => (g, g, g)) _ rleOptions _ _ rfl rfl rfl h
    rleConfig rfl rfl [] (by decide)
  ⟨h, hr.1, hr.2⟩

/-! ## Theorems: the bitmask round trip -/

end ImageFormat
